import Mathlib

/-!
# Parallel breadth-first search on grid graphs (`src/bfs/bfs.cpp`) and quicksort (`src/qsort/qsort.cpp`)

A shallow embedding of the breadth-first searches of `bfs.cpp`, of the grid graph they
are run on and of the two quicksorts of `qsort.cpp`, followed by the properties proved
about them.

Conventions of the embedding.

* `node_t` (`uint32_t`) and `distance` (`size_t`) values are natural numbers.
  `from_coordinates` wraps modulo `2^32` as the 32-bit arithmetic of the source
  does.  The only arithmetic on distances is `dist[v] + 1` for a node `v` of the
  current frontier, a value bounded by the number of nodes, so it is not wrapped.
* `std::vector` and `parlay::sequence` values are lists.  Reading outside a
  container is undefined in the source; the embedding reads a default value and
  drops a write outside the container.  Every theorem that depends on an access
  being inside its container states the bound as a hypothesis.
* A `while` loop is a function with a fuel argument that counts evaluations of
  the loop condition; it returns `none` when the fuel is used up before the
  condition fails.
* `parlay::parallel_for` runs its iterations one after another in index order.
  The iterations of the claim phase interact only through the atomic
  `compare_exchange_strong` on the visited flags, which the embedding executes
  as one indivisible step.
-/

/-- An adjacency list per node: `std::vector<std::vector<node_t>>`, with the node
identifiers (`node_t`, that is `uint32_t`) as natural numbers. -/
abbrev graph_t := List (List Nat)

/-- The sentinel `NO_NODE = std::numeric_limits<node_t>::max()`. -/
def NO_NODE : Nat := 4294967295

/-! ## The parlay primitives used by the searches -/

/-- Modelled from the spec: `parlay::tabulate` (the parlay headers are not part of
the sources at hand): the sequence `f 0, ..., f (n-1)`. -/
def tabulate {α : Type} (n : Nat) (f : Nat → α) : List α :=
  (List.range n).map f

/-- Exclusive prefix sums of `xs` started at `acc`, together with the total. -/
def scan_from (acc : Nat) : List Nat → List Nat × Nat
  | [] => ([], acc)
  | x :: xs => (acc :: (scan_from (acc + x) xs).1, (scan_from (acc + x) xs).2)

/-- Modelled from the spec: `parlay::scan_inplace` (the parlay headers are not part
of the sources at hand): replaces the sequence by its exclusive prefix sum
("element i's offset equals the sum of all counts before i") and returns the
total. -/
def scan_inplace (xs : List Nat) : List Nat × Nat :=
  scan_from 0 xs

/-- Modelled from the spec: `parlay::filter` (the parlay headers are not part of the
sources at hand): the elements satisfying the predicate, in their order. -/
def filter {α : Type} (xs : List α) (p : α → Bool) : List α :=
  xs.filter p

/-- Modelled from the spec: `parlay::parallel_for(lo, hi, f)` (the parlay headers
are not part of the sources at hand): `f` is run for every index of `[lo, hi)`;
the embedding runs the iterations in index order on a state passed along. -/
def parallel_for {σ : Type} (lo hi : Nat) (f : Nat → σ → σ) (s : σ) : σ :=
  (List.range' lo (hi - lo)).foldl (fun t i => f i t) s

/-- The sequential loop `for (size_t j = 0; j < n; j++) body(j)`. -/
def for_loop {σ : Type} (n : Nat) (body : Nat → σ → σ) (s : σ) : σ :=
  (List.range n).foldl (fun t j => body j t) s

/-- The atomic `flags[u].compare_exchange_strong(expected, desired)`: when the flag
holds `expected` it is replaced by `desired` and the call returns `true`,
otherwise nothing changes and the call returns `false`.  (For `u` outside the
container, where the source is undefined, nothing changes and the result is
`false`.) -/
def compare_exchange_strong (flags : List Bool) (u : Nat) (expected desired : Bool) :
    Bool × List Bool :=
  match flags[u]? with
  | some b => if b = expected then (true, flags.set u desired) else (false, flags)
  | none => (false, flags)

/-! ## The grid graph -/

/-- The value of a signed integer expression converted to `uint32_t`. -/
def u32 (i : Int) : Nat := (i % 4294967296).toNat

/-- The function `from_coordinates(n, x, y, z)`: `(n + 1) * (n + 1) * x + (n + 1) * y + z`
in `uint32_t` arithmetic, that is modulo `2^32`.  (Converting a `size_t` argument to
`uint32_t` first does not change the value modulo `2^32`.) -/
def from_coordinates (n x y z : Nat) : Nat :=
  ((n + 1) * (n + 1) * x + (n + 1) * y + z) % 4294967296

/-- The table `d` of coordinate offsets in `cube_graph`. -/
def d : List (Int × Int × Int) :=
  [(0, 0, 1), (0, 0, -1), (0, 1, 0), (0, -1, 0), (1, 0, 0), (-1, 0, 0)]

/-- The condition under which `cube_graph` adds the neighbour at offset `(dx, dy, dz)`
of the point `(x, y, z)`; the last comparison reads `x + dz <= n` in the source.
The sums are `uint32_t` values and `n` is a `size_t`. -/
def cube_admits (n x y z : Nat) (t : Int × Int × Int) : Bool :=
  u32 (x + 1 + t.1) != 0 && u32 (x + t.1) ≤ n
    && u32 (y + 1 + t.2.1) != 0 && u32 (y + t.2.1) ≤ n
    && u32 (z + 1 + t.2.2) != 0 && u32 (x + t.2.2) ≤ n

/-- The statement `graph[node].push_back(other_node)`. -/
def push_back_at (graph : graph_t) (node other_node : Nat) : graph_t :=
  graph.set node (graph.getD node [] ++ [other_node])

/-- The body of the loop over the offsets in `cube_graph`, at the point `(x, y, z)`. -/
def cube_visit (n x y z : Nat) (graph : graph_t) (t : Int × Int × Int) : graph_t :=
  if cube_admits n x y z t then
    push_back_at graph (from_coordinates n x y z)
      (from_coordinates n (u32 (x + t.1)) (u32 (y + t.2.1)) (u32 (z + t.2.2)))
  else graph

/-- The function `cube_graph(n)`.  The loop counters are `uint32_t` values compared
with the `size_t` bound `n`; each loop runs over `0, ..., n` (for `n < 2^32 - 1`). -/
def cube_graph (n : Nat) : graph_t :=
  for_loop (n + 1) (fun x g =>
    for_loop (n + 1) (fun y g =>
      for_loop (n + 1) (fun z g => d.foldl (cube_visit n x y z) g) g) g)
    (List.replicate (((n + 1) * (n + 1) * (n + 1)) % 18446744073709551616) [])

/-- The function `validate(dist, n)`. -/
def validate (dist : List Nat) (n : Nat) : Bool :=
  (List.range (n + 1)).all (fun x =>
    (List.range (n + 1)).all (fun y =>
      (List.range (n + 1)).all (fun z =>
        dist.getD (from_coordinates n x y z) 0 == x + y + z)))

/-! ## Sequential BFS -/

/-- The variables of `seq_bfs`: the visited flags, the distance table and the queue. -/
structure seq_state where
  visited : List Bool
  dist : List Nat
  q : List Nat
deriving DecidableEq

/-- The body of `for (auto& u: graph[v])` in `seq_bfs`. -/
def seq_visit (v u : Nat) (s : seq_state) : seq_state :=
  if s.visited.getD u true = false then
    { visited := s.visited.set u true,
      dist := s.dist.set u (s.dist.getD v 0 + 1),
      q := s.q ++ [u] }
  else s

/-- The `while (!q.empty())` loop of `seq_bfs`. -/
def seq_bfs_loop (graph : graph_t) : Nat → seq_state → Option seq_state
  | 0, _ => none
  | fuel + 1, s =>
    match s.q with
    | [] => some s
    | v :: rest =>
      seq_bfs_loop graph fuel
        ((graph.getD v []).foldl (fun t u => seq_visit v u t) { s with q := rest })

/-- The function `seq_bfs(graph, start, dist)`; the result is the distance table at return. -/
def seq_bfs (fuel : Nat) (graph : graph_t) (start : Nat) (dist : List Nat) :
    Option (List Nat) :=
  (seq_bfs_loop graph fuel
    { visited := (List.replicate graph.length false).set start true,
      dist := dist.set start 0,
      q := [start] }).map (fun s => s.dist)

/-! ## Parallel BFS -/

/-- The variables of `par_bfs`.  `new_frontier` is the scratch buffer of the
iteration last executed.  `cas_wins` is a history variable: the nodes on which
`compare_exchange_strong` returned `true`, in the order of the calls; it is only
appended to and never read. -/
structure par_state where
  visited : List Bool
  dist : List Nat
  frontier : List Nat
  new_frontier : List Nat
  cas_wins : List Nat
deriving DecidableEq

/-- The body of the loop over `j` in the claim phase of `par_bfs`, for frontier slot
`i` holding node `v`. -/
def par_visit (graph : graph_t) (pref_deg : List Nat) (i : Nat) (v : Nat) (j : Nat)
    (s : par_state) : par_state :=
  let u := (graph.getD v []).getD j 0
  let r := compare_exchange_strong s.visited u false true
  if r.1 then
    { s with
      visited := r.2,
      dist := s.dist.set u (s.dist.getD v 0 + 1),
      new_frontier := s.new_frontier.set (pref_deg.getD i 0 + j) u,
      cas_wins := s.cas_wins ++ [u] }
  else { s with visited := r.2 }

/-- One iteration of the `while (!frontier.empty())` loop of `par_bfs`. -/
def par_bfs_level (graph : graph_t) (s : par_state) : par_state :=
  let pref_deg := tabulate s.frontier.length (fun i => (graph.getD (s.frontier.getD i 0) []).length)
  let scanned := scan_inplace pref_deg
  let t := parallel_for 0 s.frontier.length
    (fun i t =>
      let v := s.frontier.getD i 0
      for_loop (graph.getD v []).length (fun j t => par_visit graph scanned.1 i v j t) t)
    { s with new_frontier := List.replicate scanned.2 NO_NODE }
  { t with frontier := filter t.new_frontier (fun node => node != NO_NODE) }

/-- The state of `par_bfs` when the loop is reached. -/
def par_bfs_init (graph : graph_t) (start : Nat) (dist : List Nat) : par_state :=
  { visited := (List.replicate graph.length false).set start true,
    dist := dist.set start 0,
    frontier := [start],
    new_frontier := [],
    cas_wins := [] }

/-- The `while (!frontier.empty())` loop of `par_bfs`. -/
def par_bfs_loop (graph : graph_t) : Nat → par_state → Option par_state
  | 0, _ => none
  | fuel + 1, s =>
    match s.frontier with
    | [] => some s
    | _ :: _ => par_bfs_loop graph fuel (par_bfs_level graph s)

/-- The function `par_bfs(graph, start, dist, block)`: the state at return.  The
argument `block` only tunes the granularity of the parallel loops. -/
def par_bfs_run (fuel : Nat) (graph : graph_t) (start : Nat) (dist : List Nat) :
    Option par_state :=
  par_bfs_loop graph fuel (par_bfs_init graph start dist)

/-- The distance table left by `par_bfs(graph, start, dist, block)`. -/
def par_bfs (fuel : Nat) (graph : graph_t) (start : Nat) (dist : List Nat) :
    Option (List Nat) :=
  (par_bfs_run fuel graph start dist).map (fun s => s.dist)

/-- The state of `par_bfs` after `D` executions of the loop body. -/
def par_bfs_at (graph : graph_t) (start : Nat) (dist : List Nat) : Nat → par_state
  | 0 => par_bfs_init graph start dist
  | D + 1 => par_bfs_level graph (par_bfs_at graph start dist D)

/-! ## Parallel BFS with reused buffers -/

/-- The capacity `MAX_FRONTIER` of the static frontier buffer. -/
def MAX_FRONTIER : Nat := 200000

/-- The capacity `MAX_TMP_FRONTIER` of the static scratch and flag buffers. -/
def MAX_TMP_FRONTIER : Nat := 1200000

/-- The capacity `MAX_N` of the static degree and visited buffers. -/
def MAX_N : Nat := 130000000

/-- Modelled from the spec: `parlay::pack_into(in, flags, out)` (the parlay headers are
not part of the sources at hand): "writes each non-sentinel element to its destination
slot in a reused fixed-capacity buffer": the elements of `in` whose flag is set are
written, in order, to the first slots of `out`; the result is the buffer and the
number of elements written. -/
def pack_into (inp : List Nat) (flags : List Nat) (out : List Nat) : List Nat × Nat :=
  let packed := ((inp.zip flags).filter (fun p => p.2 != 0)).map Prod.fst
  ((packed ++ out.drop packed.length).take out.length, packed.length)

/-- The function-local `static` buffers of `par_bfs_less_allocations`; they keep their
contents from one call to the next. -/
structure static_buffers where
  frontier : List Nat
  tmp_frontier : List Nat
  pref_flags : List Nat
  pref_deg : List Nat
  visited : List Bool
deriving DecidableEq

/-- The static buffers as their initialisers leave them before the first call. -/
def static_init : static_buffers :=
  { frontier := List.replicate MAX_FRONTIER NO_NODE,
    tmp_frontier := List.replicate MAX_TMP_FRONTIER NO_NODE,
    pref_flags := List.replicate MAX_TMP_FRONTIER 0,
    pref_deg := List.replicate MAX_N 0,
    visited := List.replicate MAX_N false }

/-- The variables of `par_bfs_less_allocations`: the static buffers, the distance
table and the two sizes. -/
structure la_state where
  frontier : List Nat
  tmp_frontier : List Nat
  pref_flags : List Nat
  pref_deg : List Nat
  visited : List Bool
  dist : List Nat
  frontier_size : Nat
  tmp_frontier_size : Nat
deriving DecidableEq

/-- The body of the loop that resets the scratch slots used by the previous level. -/
def la_clear (i : Nat) (s : la_state) : la_state :=
  { s with tmp_frontier := s.tmp_frontier.set i NO_NODE, pref_flags := s.pref_flags.set i 0 }

/-- The body of the loop that stores the out-degree of frontier slot `i`. -/
def la_degree (graph : graph_t) (i : Nat) (s : la_state) : la_state :=
  { s with pref_deg := s.pref_deg.set i (graph.getD (s.frontier.getD i 0) []).length }

/-- The body of the loop over `j` in the claim phase of `par_bfs_less_allocations`, for
frontier slot `i` holding node `v`. -/
def la_visit (graph : graph_t) (i : Nat) (v : Nat) (j : Nat) (s : la_state) : la_state :=
  let u := (graph.getD v []).getD j 0
  let r := compare_exchange_strong s.visited u false true
  if r.1 then
    { s with
      visited := r.2,
      dist := s.dist.set u (s.dist.getD v 0 + 1),
      tmp_frontier := s.tmp_frontier.set (s.pref_deg.getD i 0 + j) u,
      pref_flags := s.pref_flags.set (s.pref_deg.getD i 0 + j) 1 }
  else { s with visited := r.2 }

/-- One iteration of the `while (frontier_size != 0)` loop of
`par_bfs_less_allocations`. -/
def la_level (graph : graph_t) (s : la_state) : la_state :=
  let s1 := parallel_for 0 s.tmp_frontier_size la_clear s
  let s2 := parallel_for 0 s1.frontier_size (la_degree graph) s1
  let scanned := scan_inplace (s2.pref_deg.take s2.frontier_size)
  let s3 := { s2 with
    pref_deg := scanned.1 ++ s2.pref_deg.drop s2.frontier_size,
    tmp_frontier_size := scanned.2 }
  let s4 := parallel_for 0 s3.frontier_size
    (fun i t =>
      let v := t.frontier.getD i 0
      for_loop (graph.getD v []).length (fun j t => la_visit graph i v j t) t)
    s3
  let packed := pack_into (s4.tmp_frontier.take s4.tmp_frontier_size)
    (s4.pref_flags.take s4.tmp_frontier_size) s4.frontier
  { s4 with frontier := packed.1, frontier_size := packed.2 }

/-- The state of `par_bfs_less_allocations` when the loop is reached, for the static
buffers `b` left by the previous calls. -/
def la_init (graph : graph_t) (start : Nat) (dist : List Nat) (b : static_buffers) :
    la_state :=
  { frontier := b.frontier.set 0 start,
    tmp_frontier := b.tmp_frontier,
    pref_flags := b.pref_flags,
    pref_deg := b.pref_deg,
    visited := (parallel_for 0 graph.length (fun i vis => vis.set i false) b.visited).set
      start true,
    dist := dist.set start 0,
    frontier_size := 1,
    tmp_frontier_size := 0 }

/-- The `while (frontier_size != 0)` loop of `par_bfs_less_allocations`. -/
def la_loop (graph : graph_t) : Nat → la_state → Option la_state
  | 0, _ => none
  | fuel + 1, s =>
    if s.frontier_size = 0 then some s else la_loop graph fuel (la_level graph s)

/-- The static buffers held in a state. -/
def la_buffers (s : la_state) : static_buffers :=
  { frontier := s.frontier, tmp_frontier := s.tmp_frontier, pref_flags := s.pref_flags,
    pref_deg := s.pref_deg, visited := s.visited }

/-- The function `par_bfs_less_allocations(graph, start, dist, block)` called with the
static buffers in state `b`: the distance table and the static buffers at return. -/
def par_bfs_less_allocations (fuel : Nat) (graph : graph_t) (start : Nat) (dist : List Nat)
    (b : static_buffers) : Option (List Nat × static_buffers) :=
  (la_loop graph fuel (la_init graph start dist b)).map (fun s => (s.dist, la_buffers s))

/-! ## Auxiliary definitions used to reason about one level -/

/-- The edges leaving the nodes of `F`, in the order in which a level visits them. -/
def edges (graph : graph_t) (F : List Nat) : List (Nat × Nat) :=
  F.flatMap (fun v => (graph.getD v []).map (fun u => (v, u)))

/-- The flags after every edge of `es` has been offered for claiming. -/
def mark (vis : List Bool) (es : List (Nat × Nat)) : List Bool :=
  es.foldl (fun w e => w.set e.2 true) vis

/-- The distance table after every edge of `es` has been offered for claiming. -/
def relax : List Bool → List Nat → List (Nat × Nat) → List Nat
  | _, dist, [] => dist
  | vis, dist, e :: es =>
    if vis[e.2]? = some false then
      relax (vis.set e.2 true) (dist.set e.2 (dist.getD e.1 0 + 1)) es
    else relax vis dist es

/-- The targets claimed while the edges of `es` are offered in order. -/
def claimed : List Bool → List (Nat × Nat) → List Nat
  | _, [] => []
  | vis, e :: es =>
    if vis[e.2]? = some false then e.2 :: claimed (vis.set e.2 true) es
    else claimed vis es

/-- The scratch slots written while the edges of `es` are offered in order. -/
def slots : List Bool → List (Nat × Nat) → List Nat
  | _, [] => []
  | vis, e :: es =>
    if vis[e.2]? = some false then e.2 :: slots (vis.set e.2 true) es
    else NO_NODE :: slots vis es

/-- The claim phase started in `s` with a scratch buffer of `total` slots has offered
exactly the edges `P` when it is in state `t`. -/
def Swept (s : par_state) (total : Nat) (P : List (Nat × Nat)) (t : par_state) : Prop :=
  t.visited = mark s.visited P ∧ t.dist = relax s.visited s.dist P ∧
  t.frontier = s.frontier ∧
  t.new_frontier = slots s.visited P ++ List.replicate (total - P.length) NO_NODE ∧
  t.cas_wins = s.cas_wins ++ claimed s.visited P

/-- `Walk graph start u k`: there is a directed walk of `k` edges from `start` to `u`. -/
inductive Walk (graph : graph_t) (start : Nat) : Nat → Nat → Prop
  | nil : Walk graph start start 0
  | snoc {v u : Nat} {k : Nat} :
      Walk graph start v k → u ∈ graph.getD v [] → Walk graph start u (k + 1)

/-- `u` can be reached from `start`. -/
def reachable (graph : graph_t) (start u : Nat) : Prop :=
  ∃ k, Walk graph start u k

/-- `k` is the number of edges of a shortest directed path from `start` to `u`. -/
def is_distance (graph : graph_t) (start u : Nat) (k : Nat) : Prop :=
  Walk graph start u k ∧ ∀ k', Walk graph start u k' → k ≤ k'

/-- Every neighbour identifier stored in the graph is smaller than `graph.size()`. -/
def in_range (graph : graph_t) : Prop :=
  ∀ l ∈ graph, ∀ u ∈ l, u < graph.length

/-- No adjacency list contains the sentinel `NO_NODE`. -/
def no_sentinel (graph : graph_t) : Prop :=
  ∀ l ∈ graph, NO_NODE ∉ l

instance (graph : graph_t) : Decidable (in_range graph) := by
  unfold in_range; infer_instance

instance (graph : graph_t) : Decidable (no_sentinel graph) := by
  unfold no_sentinel; infer_instance

/-- The invariant of the level loop at the head of iteration `D`. -/
structure LevelInv (graph : graph_t) (start : Nat) (d0 : List Nat) (D : Nat)
    (s : par_state) : Prop where
  vis_len : s.visited.length = graph.length
  dist_len : s.dist.length = graph.length
  vis_iff : ∀ u : Nat, s.visited[u]? = some true ↔ ∃ k, k ≤ D ∧ Walk graph start u k
  front_iff : ∀ u : Nat, u ∈ s.frontier ↔ is_distance graph start u D
  dist_eq : ∀ (u : Nat) (k : Nat), is_distance graph start u k → k ≤ D → s.dist[u]? = some k
  frame : ∀ u : Nat, s.visited[u]? ≠ some true → s.dist[u]? = d0[u]?

/-- What the history variable `cas_wins` records, at the head of a loop iteration. -/
structure HistInv (graph : graph_t) (start : Nat) (d0 : List Nat) (s : par_state) : Prop where
  start_vis : s.visited[start]? = some true
  wins_vis : ∀ u : Nat, u ∈ s.cas_wins → s.visited[u]? = some true
  vis_wins : ∀ u : Nat, s.visited[u]? = some true → u = start ∨ u ∈ s.cas_wins
  wins_nodup : s.cas_wins.Nodup
  start_not_win : start ∉ s.cas_wins
  front_sub : ∀ u : Nat, u ∈ s.frontier → u = start ∨ u ∈ s.cas_wins
  front_nodup : s.frontier.Nodup
  wins_reach : ∀ u : Nat, u ∈ s.cas_wins → reachable graph start u
  frame : ∀ u : Nat, u ≠ start → u ∉ s.cas_wins → s.dist[u]? = d0[u]?

/-- A small graph with a repeated edge, a self-loop, a neighbour shared by two
frontier nodes and a node that cannot be reached from node 0. -/
def sample_graph : graph_t := [[1, 2], [2, 3, 3], [0, 3, 1], [4, 3], [], [0]]

/-- An initial distance table for `sample_graph`. -/
def sample_dist : List Nat := [9, 9, 9, 9, 9, 9]

/-- A graph with `2^32` nodes in which the sentinel value is a node identifier:
node `0` has the single neighbour `NO_NODE`, node `NO_NODE` has the single neighbour
`1`, and no other node has a neighbour. -/
def sentinel_graph : graph_t :=
  [[NO_NODE]] ++ List.replicate (NO_NODE - 1) [] ++ [[1]]

/-- A distance table of length `2^32` holding `7` everywhere. -/
def sentinel_dist : List Nat := List.replicate (NO_NODE + 1) 7

/-- The flags written while the edges of `es` are offered in order. -/
def flag_slots : List Bool → List (Nat × Nat) → List Nat
  | _, [] => []
  | vis, e :: es =>
    if vis[e.2]? = some false then 1 :: flag_slots (vis.set e.2 true) es
    else 0 :: flag_slots vis es

/-- The claim phase of `par_bfs_less_allocations` started in `s` has offered exactly
the edges `P` when it is in state `t`. -/
def LaSwept (s : la_state) (P : List (Nat × Nat)) (t : la_state) : Prop :=
  t.visited = mark s.visited P ∧ t.dist = relax s.visited s.dist P ∧
  t.frontier = s.frontier ∧ t.pref_deg = s.pref_deg ∧
  t.frontier_size = s.frontier_size ∧ t.tmp_frontier_size = s.tmp_frontier_size ∧
  t.tmp_frontier
    = slots s.visited P ++ List.replicate (s.tmp_frontier.length - P.length) NO_NODE ∧
  t.pref_flags
    = flag_slots s.visited P ++ List.replicate (s.pref_flags.length - P.length) 0

/-- The conditions on the buffers of `par_bfs_less_allocations` at the head of a loop
iteration: the sizes fit the buffers, the slots of the scratch and flag buffers from
index `tmp_frontier_size` on are clean, and the scratch buffer has room for the
neighbours of the current frontier. -/
structure LaReady (graph : graph_t) (s : la_state) : Prop where
  fs_le : s.frontier_size ≤ s.frontier.length
  pd_le : s.frontier_size ≤ s.pref_deg.length
  ts_le : s.tmp_frontier_size ≤ s.tmp_frontier.length
  fl_len : s.pref_flags.length = s.tmp_frontier.length
  tmp_clean : s.tmp_frontier.drop s.tmp_frontier_size
    = List.replicate (s.tmp_frontier.length - s.tmp_frontier_size) NO_NODE
  flags_clean : s.pref_flags.drop s.tmp_frontier_size
    = List.replicate (s.pref_flags.length - s.tmp_frontier_size) 0
  room : (edges graph (s.frontier.take s.frontier_size)).length ≤ s.tmp_frontier.length

/-- The static buffers have their capacities, and the scratch and flag buffers are
clean. -/
structure CleanBuffers (b : static_buffers) : Prop where
  frontier_len : b.frontier.length = MAX_FRONTIER
  tmp_clean : b.tmp_frontier = List.replicate MAX_TMP_FRONTIER NO_NODE
  flags_clean : b.pref_flags = List.replicate MAX_TMP_FRONTIER 0
  pref_deg_len : b.pref_deg.length = MAX_N
  visited_len : b.visited.length = MAX_N

/-- The capacity bounds for a frontier: its size is at most `MAX_FRONTIER` and the sum
of the out-degrees of its nodes is at most `MAX_TMP_FRONTIER`. -/
def fits (graph : graph_t) (F : List Nat) : Prop :=
  F.length ≤ MAX_FRONTIER ∧ (F.map (fun v => (graph.getD v []).length)).sum ≤ MAX_TMP_FRONTIER

instance (graph : graph_t) (F : List Nat) : Decidable (fits graph F) := by
  unfold fits; infer_instance

/-- The state `s` of `par_bfs_less_allocations` at the head of a loop iteration
corresponds to the state `p` of `par_bfs` at the head of the same iteration. -/
structure LaSim (graph : graph_t) (s : la_state) (p : par_state) : Prop where
  ready : LaReady graph s
  frontier_len : s.frontier.length = MAX_FRONTIER
  tmp_len : s.tmp_frontier.length = MAX_TMP_FRONTIER
  pref_deg_len : s.pref_deg.length = MAX_N
  visited_len : s.visited.length = MAX_N
  front : s.frontier.take s.frontier_size = p.frontier
  vis : ∀ u : Nat, u < graph.length → s.visited[u]? = p.visited[u]?
  dist : s.dist = p.dist
  done_clean : s.frontier_size = 0 →
    s.tmp_frontier = List.replicate MAX_TMP_FRONTIER NO_NODE ∧
    s.pref_flags = List.replicate MAX_TMP_FRONTIER 0

/-- The pairs `(node, other_node)` that `cube_graph` pushes at the point `(x, y, z)`. -/
def point_ops (n x y z : Nat) : List (Nat × Nat) :=
  (d.filter (cube_admits n x y z)).map (fun t =>
    (from_coordinates n x y z,
      from_coordinates n (u32 (x + t.1)) (u32 (y + t.2.1)) (u32 (z + t.2.2))))

/-- All pairs `(node, other_node)` that `cube_graph` pushes, in order. -/
def cube_ops (n : Nat) : List (Nat × Nat) :=
  (List.range (n + 1)).flatMap (fun x =>
    (List.range (n + 1)).flatMap (fun y =>
      (List.range (n + 1)).flatMap (fun z => point_ops n x y z)))

/-- The state of `par_bfs_less_allocations` after `D` executions of the loop body. -/
def la_at (graph : graph_t) (start : Nat) (dist : List Nat) (b : static_buffers) :
    Nat → la_state
  | 0 => la_init graph start dist b
  | D + 1 => la_level graph (la_at graph start dist b D)

/-- A graph with one node that has `MAX_TMP_FRONTIER + 1` edges to itself. -/
def loops_graph : graph_t := [List.replicate (MAX_TMP_FRONTIER + 1) 0]

/-! ## Parallel BFS under a schedule of the claim phase -/

/-- Modelled from the spec: `parlay::parallel_for` with its iterations run one after
another in the order `order` (the parlay headers are not part of the sources at hand;
"within a phase, iteration order across frontier slots is irrelevant").
`parallel_for lo hi f` is the instance with the order `lo, ..., hi - 1`. -/
def parallel_for_ord {σ : Type} (order : List Nat) (f : Nat → σ → σ) (s : σ) : σ :=
  order.foldl (fun t i => f i t) s

/-- One iteration of the `while (!frontier.empty())` loop of `par_bfs` in which the claim
phase processes the frontier slots in the order `order`. -/
def par_bfs_level_ord (graph : graph_t) (order : List Nat) (s : par_state) : par_state :=
  let pref_deg := tabulate s.frontier.length (fun i => (graph.getD (s.frontier.getD i 0) []).length)
  let scanned := scan_inplace pref_deg
  let t := parallel_for_ord order
    (fun i t =>
      let v := s.frontier.getD i 0
      for_loop (graph.getD v []).length (fun j t => par_visit graph scanned.1 i v j t) t)
    { s with new_frontier := List.replicate scanned.2 NO_NODE }
  { t with frontier := filter t.new_frontier (fun node => node != NO_NODE) }

/-- The `while (!frontier.empty())` loop of `par_bfs` under the schedule `pick`: the
claim phase of iteration `D`, entered in state `s`, processes the frontier slots in the
order `pick D s`. -/
def par_bfs_loop_ord (graph : graph_t) (pick : Nat → par_state → List Nat) :
    Nat → Nat → par_state → Option par_state
  | 0, _, _ => none
  | fuel + 1, D, s =>
    match s.frontier with
    | [] => some s
    | _ :: _ =>
      par_bfs_loop_ord graph pick fuel (D + 1) (par_bfs_level_ord graph (pick D s) s)

/-- The distance table left by `par_bfs` under the schedule `pick`. -/
def par_bfs_ord (pick : Nat → par_state → List Nat) (fuel : Nat) (graph : graph_t)
    (start : Nat) (dist : List Nat) : Option (List Nat) :=
  (par_bfs_loop_ord graph pick fuel 0 (par_bfs_init graph start dist)).map (fun s => s.dist)

/-- A schedule is admissible when at every level it orders exactly the slots
`0, ..., frontier.size() - 1` of the frontier. -/
def admissible (pick : Nat → par_state → List Nat) : Prop :=
  ∀ (D : Nat) (s : par_state), (pick D s).Perm (List.range s.frontier.length)

/-- The edge offered at the pair `(i, j)`: from the node in slot `i` of the frontier `F`
to its `j`-th neighbour. -/
def slot_edge (graph : graph_t) (F : List Nat) (p : Nat × Nat) : Nat × Nat :=
  (F.getD p.1 0, (graph.getD (F.getD p.1 0) []).getD p.2 0)

/-- The pairs `(i, j)` in the order in which a claim phase that takes the slots in the
order `order` reaches them. -/
def slot_pairs (graph : graph_t) (F : List Nat) (order : List Nat) : List (Nat × Nat) :=
  order.flatMap (fun i => (List.range (graph.getD (F.getD i 0) []).length).map (fun j => (i, j)))

/-- The claim phase started in `s` with the offsets `pd` has processed exactly the pairs
`P`, in this order, when it is in state `t`; every scratch slot of a pair not yet
processed holds `NO_NODE`. -/
def SweptOrd (graph : graph_t) (s : par_state) (pd : List Nat) (P : List (Nat × Nat))
    (t : par_state) : Prop :=
  t.visited = mark s.visited (P.map (slot_edge graph s.frontier)) ∧
  t.dist = relax s.visited s.dist (P.map (slot_edge graph s.frontier)) ∧
  t.frontier = s.frontier ∧
  t.cas_wins = s.cas_wins ++ claimed s.visited (P.map (slot_edge graph s.frontier)) ∧
  (t.new_frontier.filter (fun node => node != NO_NODE)).Perm
    ((claimed s.visited (P.map (slot_edge graph s.frontier))).filter
      (fun node => node != NO_NODE)) ∧
  ∀ i j : Nat, i < s.frontier.length → j < (graph.getD (s.frontier.getD i 0) []).length →
    (i, j) ∉ P → t.new_frontier[pd.getD i 0 + j]? = some NO_NODE

/-- A graph in which two nodes of one level share their two neighbours. -/
def diamond_graph : graph_t := [[1, 2], [3, 4], [4, 3], [], []]

/-- The schedule that processes the slots of every frontier from the last to the first. -/
def backwards (_D : Nat) (s : par_state) : List Nat :=
  (List.range s.frontier.length).reverse

/-- The state `a` of a run of `par_bfs` under a schedule and the state `b` of the run
that takes the slots in index order, at the head of the same iteration: the flags and
the distance table agree, the frontiers hold the same nodes, every node of the frontier
is visited, and all nodes of the frontier carry the same distance. -/
structure OrdSim (a b : par_state) : Prop where
  vis : a.visited = b.visited
  dist : a.dist = b.dist
  front : a.frontier.Perm b.frontier
  len : b.dist.length = b.visited.length
  front_vis : ∀ v : Nat, v ∈ b.frontier → b.visited[v]? = some true
  level : ∃ D : Nat, ∀ v : Nat, v ∈ b.frontier → b.dist.getD v 0 = D

/-! ## Quicksort (`src/qsort/qsort.cpp`)

A `parlay::sequence<int>` is a list of integers and an iterator into it is an index.
`qsort_partition_number` draws from a fresh random generator at every call; the
embedding takes the values drawn from a tree of choices `rnd`: a call uses `rnd []`
and passes the subtrees `fun p => rnd (false :: p)` and `fun p => rnd (true :: p)` to
its first and second recursive call, so that the choices of all calls are independent.
The recursion carries a fuel argument that bounds its depth. -/

/-- The function `qsort_partition_number(l, r)`: the element `*(l + k)` for the value `k`
that the generator draws from `0, ..., r - l - 1`; `rnd` is any number, reduced to that
range. -/
def qsort_partition_number (rnd : Nat) (a : List Int) (l r : Nat) : Int :=
  a.getD (l + rnd % (r - l)) 0

/-- The statement `std::swap(*i, *j)`. -/
def swap (a : List Int) (i j : Nat) : List Int :=
  (a.set i (a.getD j 0)).set j (a.getD i 0)

/-- The loop `for (auto i = lo; i != r; i++) if (pred(*i)) { std::swap(*i, *mid); mid++; }`
of `seq_qsort`, started with the given `mid`: the sequence and `mid` at its end. -/
def partition_loop (pred : Int → Bool) (lo r : Nat) (a : List Int) (mid : Nat) :
    List Int × Nat :=
  (List.range' lo (r - lo)).foldl
    (fun s i => if pred (s.1.getD i 0) then (swap s.1 i s.2, s.2 + 1) else s) (a, mid)

/-- The function `seq_qsort(l, r)` on the sequence `a`: the sequence at return. -/
def seq_qsort : Nat → (List Bool → Nat) → List Int → Nat → Nat → Option (List Int)
  | 0, _, _, _, _ => none
  | fuel + 1, rnd, a, l, r =>
    if r - l ≤ 1 then some a
    else
      let x := qsort_partition_number (rnd []) a l r
      let p1 := partition_loop (fun v => decide (v < x)) l r a l
      let p2 := partition_loop (fun v => decide (v = x)) p1.2 r p1.1 p1.2
      match seq_qsort fuel (fun p => rnd (false :: p)) p2.1 l p1.2 with
      | none => none
      | some b => seq_qsort fuel (fun p => rnd (true :: p)) b p2.2 r

/-- The function `par_qsort(l, r, block)` on the sequence `a`: the sequence at return.
The two tasks of `parallel_do` work on the separate sequences `left` and `right`. -/
def par_qsort : Nat → (List Bool → Nat) → List Int → Nat → Nat → Nat → Option (List Int)
  | 0, _, _, _, _, _ => none
  | fuel + 1, rnd, a, l, r, block =>
    if r - l ≤ block then seq_qsort (fuel + 1) rnd a l r
    else
      let x := qsort_partition_number (rnd []) a l r
      let left := filter ((a.drop l).take (r - l)) (fun v => decide (v < x))
      let mid := filter ((a.drop l).take (r - l)) (fun v => decide (v = x))
      let right := filter ((a.drop l).take (r - l)) (fun v => decide (v > x))
      match par_qsort fuel (fun p => rnd (false :: p)) left 0 left.length block with
      | none => none
      | some left' =>
        match par_qsort fuel (fun p => rnd (true :: p)) right 0 right.length block with
        | none => none
        | some right' =>
          let a1 := parallel_for 0 left'.length (fun i b => b.set (l + i) (left'.getD i 0)) a
          let a2 := parallel_for 0 mid.length
            (fun i b => b.set (l + left'.length + i) (mid.getD i 0)) a1
          some (parallel_for 0 right'.length
            (fun i b => b.set (l + left'.length + mid.length + i) (right'.getD i 0)) a2)

/-- Modelled from the spec: `parlay::is_sorted` (the parlay headers are not part of the
sources at hand): no element is smaller than its predecessor. -/
def is_sorted : List Int → Bool
  | [] => true
  | [_] => true
  | x :: y :: rest => decide (x ≤ y) && is_sorted (y :: rest)

/-- The identifiers of the grid points `(x, y, z)` of `cube_graph(n)` with
`x + y + z = D`, listed by `x` and `y`. -/
def plane_nodes (n D : Nat) : List Nat :=
  (List.range (n + 1)).flatMap (fun x =>
    ((List.range (n + 1)).filter (fun y => decide (x + y ≤ D ∧ D ≤ x + y + n))).map
      (fun y => from_coordinates n x y (D - x - y)))

/-! ## Racing calls of `compare_exchange_strong` -/

/-- The calls `visited[u].compare_exchange_strong(expected = false, true)` that the
workers of one level make, executed in the order `sched`, one node per call: each call
is atomic, so an interleaving of the workers is an order of their calls.  The result is
the list of the values returned, call by call, and the flags after the last call. -/
def cas_run (flags : List Bool) : List Nat → List Bool × List Bool
  | [] => ([], flags)
  | u :: rest =>
    ((compare_exchange_strong flags u false true).1
        :: (cas_run (compare_exchange_strong flags u false true).2 rest).1,
      (cas_run (compare_exchange_strong flags u false true).2 rest).2)

/-! ## Prefix sums -/

theorem scan_from_length (xs : List Nat) : ∀ acc, (scan_from acc xs).1.length = xs.length := by
  induction xs with
  | nil => intro acc; rfl
  | cons x xs ih => intro acc; simp [scan_from, ih]

theorem scan_from_total (xs : List Nat) : ∀ acc, (scan_from acc xs).2 = acc + xs.sum := by
  induction xs with
  | nil => intro acc; simp [scan_from]
  | cons x xs ih => intro acc; simp [scan_from, ih, Nat.add_assoc]

theorem scan_from_getElem? (xs : List Nat) :
    ∀ acc i, i < xs.length → (scan_from acc xs).1[i]? = some (acc + (xs.take i).sum) := by
  induction xs with
  | nil => intro acc i h; simp at h
  | cons x xs ih =>
    intro acc i h
    cases i with
    | zero => simp [scan_from]
    | succ i =>
      have h2 : i < xs.length := by simpa using h
      simp [scan_from, ih (acc + x) i h2, Nat.add_assoc]

theorem scan_inplace_getD (xs : List Nat) (i : Nat) (h : i < xs.length) :
    (scan_inplace xs).1.getD i 0 = (xs.take i).sum := by
  simp [scan_inplace, List.getD_eq_getElem?_getD, scan_from_getElem? xs 0 i h]

theorem scan_inplace_total (xs : List Nat) : (scan_inplace xs).2 = xs.sum := by
  simp [scan_inplace, scan_from_total]

theorem tabulate_getD {α : Type} (F : List Nat) (f : Nat → α) :
    tabulate F.length (fun i => f (F.getD i 0)) = F.map f := by
  apply List.ext_getElem?
  intro i
  simp only [tabulate, List.getElem?_map, List.getElem?_range]
  by_cases h : i < F.length
  · simp [List.getElem?_range, h, List.getD_eq_getElem?_getD, List.getElem?_eq_getElem h]
  · simp [List.getElem?_eq_none (Nat.le_of_not_lt h), h]
    omega

/-! ## Claiming along a list of edges -/

theorem set_true_of_not_fresh (vis : List Bool) (u : Nat) (h : ¬ vis[u]? = some false) :
    vis.set u true = vis := by
  apply List.ext_getElem?
  intro j
  rw [List.getElem?_set]
  by_cases hj : u = j
  · subst hj
    by_cases hl : u < vis.length
    · rw [List.getElem?_eq_getElem hl] at h ⊢
      cases hv : vis[u] <;> simp_all
    · simp [hl, List.getElem?_eq_none (Nat.le_of_not_lt hl)]
  · simp [hj]

theorem mark_append (vis : List Bool) (a b : List (Nat × Nat)) :
    mark vis (a ++ b) = mark (mark vis a) b := by
  simp [mark, List.foldl_append]

theorem relax_append (a b : List (Nat × Nat)) : ∀ (vis : List Bool) (dist : List Nat),
    relax vis dist (a ++ b) = relax (mark vis a) (relax vis dist a) b := by
  induction a with
  | nil => intro vis dist; rfl
  | cons e a ih =>
    intro vis dist
    by_cases h : vis[e.2]? = some false
    · simp [relax, mark, h, ih]
    · simp [relax, mark, h, ih, set_true_of_not_fresh vis e.2 h]

theorem claimed_append (a b : List (Nat × Nat)) : ∀ (vis : List Bool),
    claimed vis (a ++ b) = claimed vis a ++ claimed (mark vis a) b := by
  induction a with
  | nil => intro vis; rfl
  | cons e a ih =>
    intro vis
    by_cases h : vis[e.2]? = some false
    · simp [claimed, mark, h, ih]
    · simp [claimed, mark, h, ih, set_true_of_not_fresh vis e.2 h]

theorem slots_append (a b : List (Nat × Nat)) : ∀ (vis : List Bool),
    slots vis (a ++ b) = slots vis a ++ slots (mark vis a) b := by
  induction a with
  | nil => intro vis; rfl
  | cons e a ih =>
    intro vis
    by_cases h : vis[e.2]? = some false
    · simp [slots, mark, h, ih]
    · simp [slots, mark, h, ih, set_true_of_not_fresh vis e.2 h]

theorem slots_length (es : List (Nat × Nat)) : ∀ (vis : List Bool),
    (slots vis es).length = es.length := by
  induction es with
  | nil => intro vis; rfl
  | cons e es ih =>
    intro vis
    by_cases h : vis[e.2]? = some false <;> simp [slots, h, ih]

theorem filter_slots (es : List (Nat × Nat)) : ∀ (vis : List Bool),
    (slots vis es).filter (fun node => node != NO_NODE)
      = (claimed vis es).filter (fun node => node != NO_NODE) := by
  induction es with
  | nil => intro vis; rfl
  | cons e es ih =>
    intro vis
    by_cases h : vis[e.2]? = some false
    · simp only [slots, claimed, h, if_true, List.filter_cons, ih]
    · simp [slots, claimed, h, ih]

/-! ## One level of `par_bfs` -/

theorem replicate_split (k : Nat) (x : Nat) (h : 0 < k) :
    List.replicate k x = x :: List.replicate (k - 1) x := by
  cases k with
  | zero => omega
  | succ k => simp [List.replicate_succ]

theorem set_append_replicate (A : List Nat) (k : Nat) (x u : Nat) (h : 0 < k) :
    (A ++ List.replicate k x).set A.length u = A ++ [u] ++ List.replicate (k - 1) x := by
  rw [replicate_split k x h]
  simp [List.set_append]

theorem cas_fresh (vis : List Bool) (u : Nat) (h : vis[u]? = some false) :
    compare_exchange_strong vis u false true = (true, vis.set u true) := by
  simp [compare_exchange_strong, h]

theorem cas_not_fresh (vis : List Bool) (u : Nat) (h : ¬ vis[u]? = some false) :
    compare_exchange_strong vis u false true = (false, vis) := by
  unfold compare_exchange_strong
  cases hx : vis[u]? with
  | none => rfl
  | some b => cases b <;> simp_all

theorem par_visit_swept (graph : graph_t) (pd : List Nat) (i : Nat) (v : Nat) (j : Nat)
    (s t : par_state) (total : Nat) (P : List (Nat × Nat))
    (hP : Swept s total P t) (hlt : P.length < total) (hidx : pd.getD i 0 + j = P.length) :
    Swept s total (P ++ [(v, (graph.getD v []).getD j 0)]) (par_visit graph pd i v j t) := by
  obtain ⟨hv, hd, hf, hn, hw⟩ := hP
  unfold par_visit
  dsimp only
  generalize (graph.getD v []).getD j 0 = u
  have hlen : slots s.visited P ++ [NO_NODE] ++ List.replicate (total - P.length - 1) NO_NODE
      = slots s.visited P ++ List.replicate (total - P.length) NO_NODE := by
    rw [replicate_split (total - P.length) NO_NODE (by omega)]; simp
  by_cases h : (mark s.visited P)[u]? = some false
  · have hr := cas_fresh t.visited u (by rw [hv]; exact h)
    rw [hr]
    refine ⟨?_, ?_, ?_, ?_, ?_⟩
    · simp [hv, mark_append, mark]
    · simp [hv, hd, h, relax_append, relax]
    · simp [hf]
    · simp only [if_true, hn, hidx, slots_append, slots, h]
      have := set_append_replicate (slots s.visited P) (total - P.length) NO_NODE u (by omega)
      rw [slots_length] at this
      rw [this]
      simp [Nat.sub_sub]
    · simp [h, hw, claimed_append, claimed]
  · have hr := cas_not_fresh t.visited u (by rw [hv]; exact h)
    rw [hr]
    refine ⟨?_, ?_, ?_, ?_, ?_⟩
    · have h3 : mark (mark s.visited P) [(v, u)] = mark s.visited P := by
        simp only [mark, List.foldl_cons, List.foldl_nil]
        exact set_true_of_not_fresh _ u h
      simp [hv, mark_append, h3]
    · simp [hd, relax_append, relax, h]
    · simp [hf]
    · simp only [hn, slots_append, slots, h, if_false, List.length_append,
        List.length_singleton]
      rw [← hlen]; simp [Nat.sub_sub]
    · simp [hw, claimed_append, claimed, h]

theorem take_succ_map {α β : Type} (l : List α) (k : Nat) (h : k < l.length) (d : α) (f : α → β) :
    (l.take (k + 1)).map f = (l.take k).map f ++ [f (l.getD k d)] := by
  rw [List.take_succ, List.getD_eq_getElem?_getD, List.getElem?_eq_getElem h]
  rw [List.map_append]
  rfl

theorem for_loop_succ {σ : Type} (k : Nat) (body : Nat → σ → σ) (s : σ) :
    for_loop (k + 1) body s = body k (for_loop k body s) := by
  simp [for_loop, List.range_succ, List.foldl_append]

theorem for_loop_swept (graph : graph_t) (pd : List Nat) (i : Nat) (v : Nat)
    (s t : par_state) (total : Nat) (P : List (Nat × Nat))
    (hP : Swept s total P t) (hidx : pd.getD i 0 = P.length) :
    ∀ k, k ≤ (graph.getD v []).length → P.length + (graph.getD v []).length ≤ total →
      Swept s total (P ++ ((graph.getD v []).take k).map (fun u => (v, u)))
        (for_loop k (fun j t => par_visit graph pd i v j t) t) := by
  intro k
  induction k with
  | zero => intro _ _; simpa [for_loop] using hP
  | succ k ih =>
    intro hk htot
    have h1 := ih (by omega) htot
    have hl : (P ++ ((graph.getD v []).take k).map (fun u => (v, u))).length = P.length + k := by
      rw [List.length_append, List.length_map, List.length_take, Nat.min_eq_left (by omega)]
    have h2 := par_visit_swept graph pd i v k s _ total _ h1 (by rw [hl]; omega)
      (by rw [hl]; omega)
    rw [take_succ_map _ k (by omega) 0, ← List.append_assoc, for_loop_succ]
    exact h2

theorem parallel_for_zero_succ {σ : Type} (k : Nat) (f : Nat → σ → σ) (s : σ) :
    parallel_for 0 (k + 1) f s = f k (parallel_for 0 k f s) := by
  simp [parallel_for, List.range'_concat, List.foldl_append]

theorem edges_take_succ (graph : graph_t) (F : List Nat) (k : Nat) (h : k < F.length) :
    edges graph (F.take (k + 1))
      = edges graph (F.take k) ++ (graph.getD (F.getD k 0) []).map (fun u => (F.getD k 0, u)) := by
  rw [List.take_succ, List.getD_eq_getElem?_getD F, List.getElem?_eq_getElem h]
  simp only [edges, List.flatMap_append, Option.toList, Option.getD_some, List.flatMap_cons,
    List.flatMap_nil, List.append_nil]

theorem edges_length (graph : graph_t) (F : List Nat) :
    (edges graph F).length = (F.map (fun v => (graph.getD v []).length)).sum := by
  induction F with
  | nil => rfl
  | cons v F ih =>
    have : edges graph (v :: F) = (graph.getD v []).map (fun u => (v, u)) ++ edges graph F := by
      simp [edges]
    rw [this, List.length_append, ih]
    simp

theorem sum_take_le (xs : List Nat) (k : Nat) (h : k < xs.length) :
    (xs.take k).sum + xs.getD k 0 ≤ xs.sum := by
  have h1 : xs.sum = (xs.take (k+1)).sum + (xs.drop (k+1)).sum := by
    rw [← List.sum_append, List.take_append_drop]
  have h2 : (xs.take (k+1)).sum = (xs.take k).sum + xs.getD k 0 := by
    rw [List.take_succ, List.getD_eq_getElem?_getD, List.getElem?_eq_getElem h, List.sum_append]
    simp
  omega

theorem claim_phase_swept (graph : graph_t) (s : par_state) (pd : List Nat) (total : Nat)
    (hpd : ∀ i, i < s.frontier.length →
      pd.getD i 0 = (edges graph (s.frontier.take i)).length)
    (htot : total = (edges graph s.frontier).length) :
    ∀ k, k ≤ s.frontier.length →
      Swept s total (edges graph (s.frontier.take k))
        (parallel_for 0 k
          (fun i t =>
            for_loop (graph.getD (s.frontier.getD i 0) []).length
              (fun j t => par_visit graph pd i (s.frontier.getD i 0) j t) t)
          { s with new_frontier := List.replicate total NO_NODE }) := by
  intro k
  induction k with
  | zero =>
    intro _
    refine ⟨rfl, rfl, rfl, ?_, ?_⟩
    · simp [parallel_for, edges, slots]
    · simp [parallel_for, edges, claimed]
  | succ k ih =>
    intro hk
    have h1 := ih (by omega)
    have hle : (edges graph (s.frontier.take k)).length
        + (graph.getD (s.frontier.getD k 0) []).length ≤ total := by
      rw [htot, edges_length, edges_length]
      have := sum_take_le (s.frontier.map (fun v => (graph.getD v []).length)) k (by simpa using hk)
      rw [List.map_take]
      have h3 : (s.frontier.map (fun v => (graph.getD v []).length)).getD k 0
          = (graph.getD (s.frontier.getD k 0) []).length := by
        rw [List.getD_eq_getElem?_getD, List.getD_eq_getElem?_getD s.frontier,
          List.getElem?_map, List.getElem?_eq_getElem (by omega)]
        rfl
      rw [h3] at this
      exact this
    have h2 := for_loop_swept graph pd k (s.frontier.getD k 0) s _ total _ h1
      (hpd k (by omega)) (graph.getD (s.frontier.getD k 0) []).length (Nat.le_refl _) hle
    rw [List.take_length] at h2
    rw [parallel_for_zero_succ, edges_take_succ _ _ _ (by omega)]
    exact h2

/-- One level of `par_bfs`, described by the edges it offers for claiming. -/
theorem par_bfs_level_eq (graph : graph_t) (s : par_state) :
    par_bfs_level graph s =
      { visited := mark s.visited (edges graph s.frontier),
        dist := relax s.visited s.dist (edges graph s.frontier),
        frontier := (claimed s.visited (edges graph s.frontier)).filter (fun node => node != NO_NODE),
        new_frontier := slots s.visited (edges graph s.frontier),
        cas_wins := s.cas_wins ++ claimed s.visited (edges graph s.frontier) } := by
  have hdeg := tabulate_getD s.frontier (fun v => (graph.getD v []).length)
  have hpd : ∀ i, i < s.frontier.length →
      (scan_inplace (s.frontier.map (fun v => (graph.getD v []).length))).1.getD i 0
        = (edges graph (s.frontier.take i)).length := by
    intro i hi
    rw [scan_inplace_getD _ i (by simpa using hi), edges_length, List.map_take]
  have htot : (scan_inplace (s.frontier.map (fun v => (graph.getD v []).length))).2
      = (edges graph s.frontier).length := by
    rw [scan_inplace_total, edges_length]
  have h := claim_phase_swept graph s _ _ hpd htot s.frontier.length (Nat.le_refl _)
  rw [List.take_length] at h
  obtain ⟨hv, hd, _, hn, hw⟩ := h
  unfold par_bfs_level
  simp only [hdeg]
  have hz : (scan_inplace (s.frontier.map (fun v => (graph.getD v []).length))).2
      - (edges graph s.frontier).length = 0 := by rw [htot]; exact Nat.sub_self _
  rw [hz] at hn
  simp only [List.replicate_zero, List.append_nil] at hn
  simp only [filter, hv, hd, hn, hw, filter_slots]

/-! ## What a sweep over a list of edges does -/

theorem mark_length (es : List (Nat × Nat)) : ∀ (vis : List Bool),
    (mark vis es).length = vis.length := by
  induction es with
  | nil => intro vis; rfl
  | cons e es ih => intro vis; simp only [mark, List.foldl_cons] at ih ⊢; rw [ih]; simp

theorem mark_cons (vis : List Bool) (e : Nat × Nat) (es : List (Nat × Nat)) :
    mark vis (e :: es) = mark (vis.set e.2 true) es := rfl

theorem mark_true (es : List (Nat × Nat)) : ∀ (vis : List Bool) (u : Nat),
    (mark vis es)[u]? = some true ↔
      (vis[u]? = some true ∨ (u < vis.length ∧ ∃ e ∈ es, e.2 = u)) := by
  induction es with
  | nil => intro vis u; simp [mark]
  | cons e es ih =>
    intro vis u
    rw [mark_cons, ih, List.getElem?_set, List.length_set]
    by_cases h : e.2 = u
    · subst h
      by_cases hl : e.2 < vis.length
      · simp [hl]
      · simp [hl, List.getElem?_eq_none (Nat.le_of_not_lt hl)]
    · simp only [h, if_false, List.mem_cons, exists_eq_or_imp, false_or]

theorem mark_false (es : List (Nat × Nat)) (vis : List Bool) (u : Nat) :
    (mark vis es)[u]? = some false ↔ (vis[u]? = some false ∧ ∀ e ∈ es, e.2 ≠ u) := by
  have h1 := mark_true es vis u
  have h2 := mark_length es vis
  by_cases hl : u < vis.length
  · have hl2 : u < (mark vis es).length := by omega
    rw [List.getElem?_eq_getElem hl, List.getElem?_eq_getElem hl2] at *
    cases hv : vis[u] <;> cases hm : (mark vis es)[u] <;> simp_all
    intro a b hab hb
    subst hb
    exact h1 a hab
  · simp [List.getElem?_eq_none (Nat.le_of_not_lt hl),
      List.getElem?_eq_none (show (mark vis es).length ≤ u by omega)]

theorem mem_claimed (es : List (Nat × Nat)) : ∀ (vis : List Bool) (u : Nat),
    u ∈ claimed vis es ↔ (vis[u]? = some false ∧ ∃ e ∈ es, e.2 = u) := by
  induction es with
  | nil => intro vis u; simp [claimed]
  | cons e es ih =>
    intro vis u
    by_cases h : vis[e.2]? = some false
    · simp only [claimed, h, if_true, List.mem_cons, ih, exists_eq_or_imp, List.getElem?_set]
      by_cases hu : e.2 = u
      · subst hu
        have hl : e.2 < vis.length := by
          by_contra hc
          simp [List.getElem?_eq_none (Nat.le_of_not_lt hc)] at h
        simp [h, hl]
      · have hu2 : ¬ u = e.2 := fun hc => hu hc.symm
        simp [hu, hu2]
    · simp only [claimed, h, if_false, List.mem_cons, ih, exists_eq_or_imp]
      constructor
      · rintro ⟨h1, h2⟩; exact ⟨h1, Or.inr h2⟩
      · rintro ⟨h1, h2 | h2⟩
        · rw [h2] at h; exact absurd h1 h
        · exact ⟨h1, h2⟩

theorem claimed_nodup (es : List (Nat × Nat)) : ∀ (vis : List Bool),
    (claimed vis es).Nodup := by
  induction es with
  | nil => intro vis; simp [claimed]
  | cons e es ih =>
    intro vis
    by_cases h : vis[e.2]? = some false
    · simp only [claimed, h, if_true, List.nodup_cons, ih, and_true, mem_claimed]
      have hl : e.2 < vis.length := by
        by_contra hc
        simp [List.getElem?_eq_none (Nat.le_of_not_lt hc)] at h
      simp [List.getElem?_set, hl]
    · simp only [claimed, h, if_false, ih]

theorem relax_length (es : List (Nat × Nat)) : ∀ (vis : List Bool) (dist : List Nat),
    (relax vis dist es).length = dist.length := by
  induction es with
  | nil => intro vis dist; rfl
  | cons e es ih =>
    intro vis dist
    by_cases h : vis[e.2]? = some false <;> simp [relax, h, ih]

theorem relax_frame (es : List (Nat × Nat)) : ∀ (vis : List Bool) (dist : List Nat) (u : Nat),
    u ∉ claimed vis es → (relax vis dist es)[u]? = dist[u]? := by
  induction es with
  | nil => intro vis dist u _; rfl
  | cons e es ih =>
    intro vis dist u hu
    by_cases h : vis[e.2]? = some false
    · simp only [claimed, h, if_true, List.mem_cons, not_or] at hu
      simp only [relax, h, if_true]
      rw [ih _ _ _ hu.2, List.getElem?_set_ne (fun hc => hu.1 hc.symm)]
    · simp only [claimed, h, if_false] at hu
      simp only [relax, h, if_false]
      exact ih _ _ _ hu

theorem relax_claimed (es : List (Nat × Nat)) : ∀ (vis : List Bool) (dist : List Nat) (u : Nat),
    dist.length = vis.length → (∀ e ∈ es, vis[e.1]? = some true) → u ∈ claimed vis es →
    ∃ v, (v, u) ∈ es ∧ (relax vis dist es)[u]? = some (dist.getD v 0 + 1) := by
  induction es with
  | nil => intro vis dist u _ _ hu; simp [claimed] at hu
  | cons e es ih =>
    intro vis dist u hlen hsrc hu
    by_cases h : vis[e.2]? = some false
    · have hl : e.2 < vis.length := by
        by_contra hc
        simp [List.getElem?_eq_none (Nat.le_of_not_lt hc)] at h
      simp only [claimed, h, if_true, List.mem_cons] at hu
      simp only [relax, h, if_true]
      by_cases hue : u = e.2
      · subst hue
        refine ⟨e.1, by simp, ?_⟩
        rw [relax_frame]
        · have hl3 : e.2 < dist.length := by rw [hlen]; exact hl
          rw [List.getElem?_set_self hl3]
        · rw [mem_claimed]
          simp [List.getElem?_set, hl]
      · have hu2 : u ∈ claimed (vis.set e.2 true) es := by
          rcases hu with hu | hu
          · exact absurd hu hue
          · exact hu
        have hsrc2 : ∀ e' ∈ es, (vis.set e.2 true)[e'.1]? = some true := by
          intro e' he'
          have := hsrc e' (List.mem_cons_of_mem _ he')
          rw [List.getElem?_set]
          by_cases hq : e.2 = e'.1
          · simp only [hq, if_true]; rw [← hq]; simp [hl]
          · simp [hq, this]
        obtain ⟨v, hv, hr⟩ := ih (vis.set e.2 true) (dist.set e.2 (dist.getD e.1 0 + 1)) u
          (by simp [hlen]) hsrc2 hu2
        refine ⟨v, List.mem_cons_of_mem _ hv, ?_⟩
        rw [hr]
        have hv2 := hsrc _ (List.mem_cons_of_mem _ hv)
        have hne : e.2 ≠ v := by
          intro hc
          rw [hc] at h
          simp only at hv2
          rw [h] at hv2
          simp at hv2
        simp [List.getD_eq_getElem?_getD, List.getElem?_set_ne hne]
    · simp only [claimed, h, if_false] at hu
      simp only [relax, h, if_false]
      obtain ⟨v, hv, hr⟩ := ih vis dist u hlen
        (fun e' he' => hsrc e' (List.mem_cons_of_mem _ he')) hu
      exact ⟨v, List.mem_cons_of_mem _ hv, hr⟩

/-! ## Walks -/

theorem walk_zero {graph : graph_t} {start u : Nat} :
    Walk graph start u 0 ↔ u = start := by
  constructor
  · intro h; cases h; rfl
  · intro h; subst h; exact Walk.nil

theorem walk_succ {graph : graph_t} {start u : Nat} {k : Nat} :
    Walk graph start u (k + 1) ↔ ∃ v, Walk graph start v k ∧ u ∈ graph.getD v [] := by
  constructor
  · intro h; cases h with
    | snoc hw he => exact ⟨_, hw, he⟩
  · rintro ⟨v, hw, he⟩; exact Walk.snoc hw he

theorem mem_getD_graph {graph : graph_t} {v u : Nat} (h : u ∈ graph.getD v []) :
    graph.getD v [] ∈ graph := by
  rw [List.getD_eq_getElem?_getD] at h ⊢
  by_cases hv : v < graph.length
  · rw [List.getElem?_eq_getElem hv] at h ⊢
    exact List.getElem_mem hv
  · rw [List.getElem?_eq_none (Nat.le_of_not_lt hv)] at h
    simp at h

theorem walk_lt {graph : graph_t} {start u : Nat} {k : Nat} (hin : in_range graph)
    (hs : start < graph.length) (h : Walk graph start u k) : u < graph.length := by
  cases h with
  | nil => exact hs
  | snoc hw he => exact hin _ (mem_getD_graph he) _ he

theorem walk_ne_sentinel {graph : graph_t} {start u : Nat} {k : Nat} (hno : no_sentinel graph)
    (h : Walk graph start u (k + 1)) : u ≠ NO_NODE := by
  cases h with
  | snoc hw he =>
    intro hc
    rw [hc] at he
    exact hno _ (mem_getD_graph he) he

theorem exists_distance {graph : graph_t} {start u : Nat} {k : Nat}
    (h : Walk graph start u k) : ∃ k0, k0 ≤ k ∧ is_distance graph start u k0 := by
  classical
  have hex : ∃ j, Walk graph start u j := ⟨k, h⟩
  refine ⟨Nat.find hex, Nat.find_min' hex h, Nat.find_spec hex, ?_⟩
  intro k' hk'
  exact Nat.find_min' hex hk'

theorem mem_edges {graph : graph_t} {F : List Nat} {e : Nat × Nat} :
    e ∈ edges graph F ↔ e.1 ∈ F ∧ e.2 ∈ graph.getD e.1 [] := by
  obtain ⟨a, b⟩ := e
  simp only [edges, List.mem_flatMap, List.mem_map, Prod.mk.injEq]
  constructor
  · rintro ⟨v, hv, u, hu, rfl, rfl⟩; exact ⟨hv, hu⟩
  · rintro ⟨h1, h2⟩; exact ⟨a, h1, b, h2, rfl, rfl⟩

/-! ## The level invariant of `par_bfs` -/

theorem levelInv_init (graph : graph_t) (start : Nat) (d0 : List Nat)
    (hs : start < graph.length) (hd : d0.length = graph.length) :
    LevelInv graph start d0 0 (par_bfs_init graph start d0) where
  vis_len := by simp [par_bfs_init]
  dist_len := by simp [par_bfs_init, hd]
  vis_iff := by
    intro u
    simp only [par_bfs_init, List.getElem?_set, List.length_replicate, hs, if_true,
      List.getElem?_replicate, Nat.le_zero]
    by_cases h : start = u
    · subst h; simp [walk_zero]
    · have h2 : ¬ u = start := fun hc => h hc.symm
      by_cases hu : u < graph.length <;> simp [h, hu, walk_zero, h2]
  front_iff := by
    intro u
    simp only [par_bfs_init, List.mem_singleton, is_distance, walk_zero, Nat.zero_le,
      implies_true, and_true]
  dist_eq := by
    intro u k hk hk0
    have hk1 : k = 0 := by omega
    subst hk1
    have := walk_zero.1 hk.1
    subst this
    simp [par_bfs_init, hd, hs]
  frame := by
    intro u hu
    have hne : start ≠ u := by
      intro hc
      subst hc
      apply hu
      simp [par_bfs_init, hs]
    simp [par_bfs_init, List.getElem?_set_ne hne]

theorem levelInv_step (graph : graph_t) (start : Nat) (d0 : List Nat) (D : Nat)
    (s : par_state) (hin : in_range graph) (hno : no_sentinel graph)
    (hs : start < graph.length) (h : LevelInv graph start d0 D s) :
    LevelInv graph start d0 (D + 1) (par_bfs_level graph s) := by
  have hsrc : ∀ e ∈ edges graph s.frontier, s.visited[e.1]? = some true := by
    intro e he
    have := (h.front_iff e.1).1 (mem_edges.1 he).1
    exact (h.vis_iff e.1).2 ⟨D, Nat.le_refl _, this.1⟩
  -- a node at distance `D + 1` is claimed in this level
  have hclaim : ∀ u, is_distance graph start u (D + 1) →
      s.visited[u]? = some false ∧ ∃ e ∈ edges graph s.frontier, e.2 = u := by
    intro u hu
    have hlt := walk_lt hin hs hu.1
    have hlt2 : u < s.visited.length := by rw [h.vis_len]; exact hlt
    constructor
    · rw [List.getElem?_eq_getElem hlt2]
      cases hv : s.visited[u] with
      | false => rfl
      | true =>
        exfalso
        have : s.visited[u]? = some true := by
          rw [List.getElem?_eq_getElem hlt2, hv]
        obtain ⟨k, hk, hw⟩ := (h.vis_iff u).1 this
        have := hu.2 k hw
        omega
    · obtain ⟨v, hv, he⟩ := walk_succ.1 hu.1
      obtain ⟨k0, hk0, hd0⟩ := exists_distance hv
      have hk : k0 = D := by
        by_contra hne
        have := hu.2 (k0 + 1) (Walk.snoc hd0.1 he)
        omega
      subst hk
      exact ⟨(v, u), mem_edges.2 ⟨(h.front_iff v).2 hd0, he⟩, rfl⟩
  rw [par_bfs_level_eq]
  refine ⟨?_, ?_, ?_, ?_, ?_, ?_⟩
  · simp [mark_length, h.vis_len]
  · simp [relax_length, h.dist_len]
  · intro u
    simp only [mark_true]
    constructor
    · rintro (hv | ⟨_, e, he, rfl⟩)
      · obtain ⟨k, hk, hw⟩ := (h.vis_iff u).1 hv
        exact ⟨k, by omega, hw⟩
      · have := mem_edges.1 he
        exact ⟨D + 1, Nat.le_refl _, Walk.snoc ((h.front_iff e.1).1 this.1).1 this.2⟩
    · rintro ⟨k, hk, hw⟩
      by_cases hkD : k ≤ D
      · exact Or.inl ((h.vis_iff u).2 ⟨k, hkD, hw⟩)
      · have hk1 : k = D + 1 := by omega
        subst hk1
        obtain ⟨v, hv, he⟩ := walk_succ.1 hw
        obtain ⟨k0, hk0, hd0⟩ := exists_distance hv
        by_cases hk : k0 = D
        · subst hk
          right
          refine ⟨by rw [h.vis_len]; exact walk_lt hin hs hw, (v, u), ?_, rfl⟩
          exact mem_edges.2 ⟨(h.front_iff v).2 hd0, he⟩
        · left
          exact (h.vis_iff u).2 ⟨k0 + 1, by omega, Walk.snoc hd0.1 he⟩
  · intro u
    simp only [List.mem_filter, mem_claimed, bne_iff_ne, ne_eq, decide_not, Bool.not_eq_true',
      decide_eq_false_iff_not]
    constructor
    · rintro ⟨⟨hf, e, he, rfl⟩, _⟩
      have := mem_edges.1 he
      refine ⟨Walk.snoc ((h.front_iff e.1).1 this.1).1 this.2, ?_⟩
      intro k' hk'
      by_contra hc
      have := (h.vis_iff e.2).2 ⟨k', by omega, hk'⟩
      rw [hf] at this
      simp at this
    · intro hu
      exact ⟨hclaim u hu, walk_ne_sentinel hno hu.1⟩
  · intro u k hu hk
    by_cases hkD : k ≤ D
    · have hv := (h.vis_iff u).2 ⟨k, hkD, hu.1⟩
      rw [relax_frame]
      · exact h.dist_eq u k hu hkD
      · rw [mem_claimed, hv]; simp
    · have hk1 : k = D + 1 := by omega
      subst hk1
      obtain ⟨v, hv, hr⟩ := relax_claimed _ s.visited s.dist u
        (by rw [h.dist_len, h.vis_len]) hsrc ((mem_claimed _ _ _).2 (hclaim u hu))
      rw [hr]
      have := h.dist_eq v D ((h.front_iff v).1 (mem_edges.1 hv).1) (Nat.le_refl _)
      simp [List.getD_eq_getElem?_getD, this]
  · intro u hu
    have hu1 : s.visited[u]? ≠ some true := by
      intro hc
      exact hu ((mark_true _ _ _).2 (Or.inl hc))
    rw [relax_frame]
    · exact h.frame u hu1
    · rw [mem_claimed]
      rintro ⟨hf, e, he, rfl⟩
      apply hu
      refine (mark_true _ _ _).2 (Or.inr ⟨?_, e, he, rfl⟩)
      by_contra hc
      simp [List.getElem?_eq_none (Nat.le_of_not_lt hc)] at hf

/-! ## Termination of the level loop -/

theorem count_false_set (vis : List Bool) (u : Nat) (h : vis[u]? = some false) :
    (vis.set u true).count false + 1 = vis.count false := by
  have hl : u < vis.length := by
    by_contra hc
    simp [List.getElem?_eq_none (Nat.le_of_not_lt hc)] at h
  rw [List.getElem?_eq_getElem hl] at h
  have hv : vis[u] = false := by simpa using h
  have hpos : 0 < vis.count false := by
    rw [List.count_pos_iff, ← hv]
    exact List.getElem_mem hl
  rw [List.count_set _ _ _ _ hl, hv]
  simp
  omega

theorem count_false_mark (es : List (Nat × Nat)) : ∀ (vis : List Bool),
    (mark vis es).count false + (claimed vis es).length = vis.count false := by
  induction es with
  | nil => intro vis; simp [mark, claimed]
  | cons e es ih =>
    intro vis
    by_cases h : vis[e.2]? = some false
    · have := count_false_set vis e.2 h
      have := ih (vis.set e.2 true)
      simp only [mark_cons, claimed, h, if_true, List.length_cons]
      omega
    · have := ih vis
      simp only [mark_cons, claimed, h, if_false, set_true_of_not_fresh vis e.2 h]
      exact this

theorem level_count_lt (graph : graph_t) (s : par_state)
    (h : (par_bfs_level graph s).frontier ≠ []) :
    (par_bfs_level graph s).visited.count false < s.visited.count false := by
  rw [par_bfs_level_eq] at h ⊢
  simp only at h ⊢
  have h1 := count_false_mark (edges graph s.frontier) s.visited
  have h2 : claimed s.visited (edges graph s.frontier) ≠ [] := by
    intro hc
    rw [hc] at h
    simp at h
  have h3 := List.length_pos.2 h2
  omega

theorem par_bfs_loop_some (graph : graph_t) : ∀ (fuel : Nat) (s : par_state),
    s.visited.count false + 1 < fuel → ∃ r, par_bfs_loop graph fuel s = some r := by
  intro fuel
  induction fuel with
  | zero => intro s h; omega
  | succ f ih =>
    intro s h
    cases hF : s.frontier with
    | nil => exact ⟨s, by simp [par_bfs_loop, hF]⟩
    | cons v F =>
      simp only [par_bfs_loop, hF]
      cases hF2 : (par_bfs_level graph s).frontier with
      | nil =>
        cases f with
        | zero => omega
        | succ f => exact ⟨par_bfs_level graph s, by simp [par_bfs_loop, hF2]⟩
      | cons v2 F2 =>
        apply ih
        have := level_count_lt graph s (by rw [hF2]; simp)
        omega

theorem par_bfs_loop_iterate (graph : graph_t) : ∀ (fuel : Nat) (s r : par_state),
    par_bfs_loop graph fuel s = some r →
      ∃ D, D < fuel ∧ r = (par_bfs_level graph)^[D] s ∧ r.frontier = [] := by
  intro fuel
  induction fuel with
  | zero => intro s r h; simp [par_bfs_loop] at h
  | succ f ih =>
    intro s r h
    cases hF : s.frontier with
    | nil =>
      simp only [par_bfs_loop, hF, Option.some.injEq] at h
      subst h
      exact ⟨0, by omega, rfl, hF⟩
    | cons v F =>
      simp only [par_bfs_loop, hF] at h
      obtain ⟨D, hD, hr, he⟩ := ih _ _ h
      exact ⟨D + 1, by omega, by rw [Function.iterate_succ_apply]; exact hr, he⟩

theorem par_bfs_loop_mono (graph : graph_t) : ∀ (fuel : Nat) (s r : par_state),
    par_bfs_loop graph fuel s = some r → ∀ k, par_bfs_loop graph (fuel + k) s = some r := by
  intro fuel
  induction fuel with
  | zero => intro s r h; simp [par_bfs_loop] at h
  | succ f ih =>
    intro s r h k
    rw [show f + 1 + k = (f + k) + 1 by omega]
    cases hF : s.frontier with
    | nil =>
      simp only [par_bfs_loop, hF] at h ⊢
      exact h
    | cons v F =>
      simp only [par_bfs_loop, hF] at h ⊢
      exact ih _ _ h k

theorem par_bfs_at_iterate (graph : graph_t) (start : Nat) (dist : List Nat) (D : Nat) :
    par_bfs_at graph start dist D = (par_bfs_level graph)^[D] (par_bfs_init graph start dist) := by
  induction D with
  | zero => rfl
  | succ D ih => rw [Function.iterate_succ_apply', ← ih]; rfl

theorem count_false_init (graph : graph_t) (start : Nat) (hs : start < graph.length) :
    ((List.replicate graph.length false).set start true).count false + 1 = graph.length := by
  have := count_false_set (List.replicate graph.length false) start
    (by simp [List.getElem?_replicate, hs])
  rw [this]
  simp

/-- The loop of `par_bfs` ends within `graph.size()` iterations, in the state reached
after some number `D` of iterations, whose frontier is empty. -/
theorem par_bfs_run_some (graph : graph_t) (start : Nat) (dist : List Nat)
    (hs : start < graph.length) (fuel : Nat) (hf : graph.length < fuel) :
    ∃ D, D ≤ graph.length ∧ (par_bfs_at graph start dist D).frontier = [] ∧
      par_bfs_run fuel graph start dist = some (par_bfs_at graph start dist D) := by
  have hc := count_false_init graph start hs
  obtain ⟨r, hr⟩ := par_bfs_loop_some graph (graph.length + 1) (par_bfs_init graph start dist)
    (by simp only [par_bfs_init]; omega)
  obtain ⟨D, hD, hrD, hF⟩ := par_bfs_loop_iterate graph _ _ _ hr
  rw [← par_bfs_at_iterate] at hrD
  subst hrD
  refine ⟨D, by omega, hF, ?_⟩
  have := par_bfs_loop_mono graph _ _ _ hr (fuel - (graph.length + 1))
  rw [show graph.length + 1 + (fuel - (graph.length + 1)) = fuel by omega] at this
  exact this

/-! ## Correctness of `par_bfs` -/

theorem levelInv_at (graph : graph_t) (start : Nat) (d0 : List Nat)
    (hin : in_range graph) (hno : no_sentinel graph)
    (hs : start < graph.length) (hd : d0.length = graph.length) :
    ∀ D, LevelInv graph start d0 D (par_bfs_at graph start d0 D) := by
  intro D
  induction D with
  | zero => exact levelInv_init graph start d0 hs hd
  | succ D ih => exact levelInv_step graph start d0 D _ hin hno hs ih

theorem par_bfs_at_stable (graph : graph_t) (start : Nat) (d0 : List Nat) (D : Nat)
    (h : (par_bfs_at graph start d0 D).frontier = []) :
    ∀ j, (par_bfs_at graph start d0 (D + j)).frontier = [] ∧
      (par_bfs_at graph start d0 (D + j)).visited = (par_bfs_at graph start d0 D).visited ∧
      (par_bfs_at graph start d0 (D + j)).dist = (par_bfs_at graph start d0 D).dist ∧
      (par_bfs_at graph start d0 (D + j)).cas_wins = (par_bfs_at graph start d0 D).cas_wins := by
  intro j
  induction j with
  | zero => exact ⟨h, rfl, rfl, rfl⟩
  | succ j ih =>
    obtain ⟨h1, h2, h3, h4⟩ := ih
    rw [← Nat.add_assoc]
    simp only [par_bfs_at]
    rw [par_bfs_level_eq, h1]
    simp [edges, mark, relax, claimed, h2, h3, h4]

theorem par_bfs_final_dist (graph : graph_t) (start : Nat) (d0 : List Nat)
    (hin : in_range graph) (hno : no_sentinel graph)
    (hs : start < graph.length) (hd : d0.length = graph.length) (D : Nat)
    (hF : (par_bfs_at graph start d0 D).frontier = []) (u k : Nat)
    (hu : is_distance graph start u k) :
    (par_bfs_at graph start d0 D).dist[u]? = some k := by
  have h1 := levelInv_at graph start d0 hin hno hs hd (D + k)
  have h2 := par_bfs_at_stable graph start d0 D hF k
  rw [← h2.2.2.1]
  exact h1.dist_eq u k hu (by omega)

theorem is_distance_start (graph : graph_t) (start : Nat) :
    is_distance graph start start 0 :=
  ⟨Walk.nil, fun _ _ => Nat.zero_le _⟩

/-- C1 (as amended): for a graph whose neighbour identifiers are all smaller than
`graph.size()` and none of which is the sentinel `NO_NODE`, a source smaller than
`graph.size()` and a distance table of length `graph.size()`, `par_bfs` returns, and
at return `dist[start] = 0` and `dist[u]` is the number of edges of a shortest
directed path from `start` to `u` for every node `u` reachable from `start`. -/
theorem par_bfs_shortest_paths (graph : graph_t) (start : Nat) (dist : List Nat)
    (hin : in_range graph) (hno : no_sentinel graph)
    (hs : start < graph.length) (hd : dist.length = graph.length)
    (fuel : Nat) (hf : graph.length < fuel) :
    ∃ d, par_bfs fuel graph start dist = some d ∧ d.length = graph.length ∧
      d[start]? = some 0 ∧
      (∀ u, reachable graph start u → ∃ k, is_distance graph start u k) ∧
      ∀ u k, is_distance graph start u k → d[u]? = some k := by
  obtain ⟨D, _, hF, hrun⟩ := par_bfs_run_some graph start dist hs fuel hf
  refine ⟨(par_bfs_at graph start dist D).dist, by simp [par_bfs, hrun], ?_, ?_, ?_, ?_⟩
  · exact (levelInv_at graph start dist hin hno hs hd D).dist_len
  · exact par_bfs_final_dist graph start dist hin hno hs hd D hF start 0
      (is_distance_start graph start)
  · rintro u ⟨k, hk⟩
    obtain ⟨k0, _, h0⟩ := exists_distance hk
    exact ⟨k0, h0⟩
  · exact par_bfs_final_dist graph start dist hin hno hs hd D hF

theorem par_bfs_shortest_paths_witness :
    in_range sample_graph ∧ no_sentinel sample_graph ∧ 0 < sample_graph.length ∧
    sample_dist.length = sample_graph.length ∧ sample_graph.length < 7 ∧
    ∃ d, par_bfs 7 sample_graph 0 sample_dist = some d ∧ d.length = sample_graph.length ∧
      d[0]? = some 0 ∧
      (∀ u, reachable sample_graph 0 u → ∃ k, is_distance sample_graph 0 u k) ∧
      ∀ u k, is_distance sample_graph 0 u k → d[u]? = some k :=
  ⟨by decide, by decide, by decide, by decide, by decide,
    par_bfs_shortest_paths sample_graph 0 sample_dist (by decide) (by decide) (by decide)
      (by decide) 7 (by decide)⟩

/-! ## Sequential BFS follows the same levels -/

theorem getD_true_eq_false (vis : List Bool) (u : Nat) :
    vis.getD u true = false ↔ vis[u]? = some false := by
  rw [List.getD_eq_getElem?_getD]
  cases h : vis[u]? with
  | none => simp
  | some b => simp

theorem seq_visit_fold (v : Nat) (nb : List Nat) : ∀ (s : seq_state),
    nb.foldl (fun t u => seq_visit v u t) s =
      { visited := mark s.visited (nb.map (fun u => (v, u))),
        dist := relax s.visited s.dist (nb.map (fun u => (v, u))),
        q := s.q ++ claimed s.visited (nb.map (fun u => (v, u))) } := by
  induction nb with
  | nil => intro s; simp [mark, relax, claimed]
  | cons u nb ih =>
    intro s
    rw [List.foldl_cons, ih]
    by_cases h : s.visited[u]? = some false
    · have h2 := (getD_true_eq_false s.visited u).2 h
      rw [seq_visit, if_pos h2]
      simp [h, mark_cons, relax, claimed]
    · have h2 : ¬ s.visited.getD u true = false := fun hc => h ((getD_true_eq_false _ _).1 hc)
      rw [seq_visit, if_neg h2]
      simp [h, mark_cons, relax, claimed, set_true_of_not_fresh _ _ h]

theorem edges_cons (graph : graph_t) (v : Nat) (F : List Nat) :
    edges graph (v :: F) = (graph.getD v []).map (fun u => (v, u)) ++ edges graph F := by
  simp [edges]

theorem seq_bfs_loop_block (graph : graph_t) (F : List Nat) :
    ∀ (acc : List Nat) (vis : List Bool) (dist : List Nat) (fuel : Nat),
      seq_bfs_loop graph (fuel + F.length) { visited := vis, dist := dist, q := F ++ acc } =
        seq_bfs_loop graph fuel
          { visited := mark vis (edges graph F),
            dist := relax vis dist (edges graph F),
            q := acc ++ claimed vis (edges graph F) } := by
  induction F with
  | nil => intro acc vis dist fuel; simp [edges, mark, relax, claimed]
  | cons v F ih =>
    intro acc vis dist fuel
    rw [List.length_cons, ← Nat.add_assoc]
    simp only [seq_bfs_loop, List.cons_append, seq_visit_fold]
    rw [List.append_assoc, ih, edges_cons, mark_append, relax_append, claimed_append,
      List.append_assoc]

theorem seq_bfs_loop_mono (graph : graph_t) : ∀ (fuel : Nat) (s r : seq_state),
    seq_bfs_loop graph fuel s = some r → ∀ k, seq_bfs_loop graph (fuel + k) s = some r := by
  intro fuel
  induction fuel with
  | zero => intro s r h; simp [seq_bfs_loop] at h
  | succ f ih =>
    intro s r h k
    rw [show f + 1 + k = (f + k) + 1 by omega]
    cases hq : s.q with
    | nil =>
      simp only [seq_bfs_loop, hq] at h ⊢
      exact h
    | cons v rest =>
      simp only [seq_bfs_loop, hq] at h ⊢
      exact ih _ _ h k

theorem seq_bfs_loop_some (graph : graph_t) : ∀ (fuel : Nat) (s : seq_state),
    s.visited.count false + s.q.length < fuel → ∃ r, seq_bfs_loop graph fuel s = some r := by
  intro fuel
  induction fuel with
  | zero => intro s h; omega
  | succ f ih =>
    intro s h
    cases hq : s.q with
    | nil => exact ⟨s, by simp [seq_bfs_loop, hq]⟩
    | cons v rest =>
      simp only [seq_bfs_loop, hq, seq_visit_fold]
      apply ih
      have := count_false_mark ((graph.getD v []).map (fun u => (v, u))) s.visited
      rw [hq] at h
      simp only [List.length_append, List.length_cons] at h ⊢
      omega

theorem claimed_ne_sentinel (graph : graph_t) (hno : no_sentinel graph) (vis : List Bool)
    (F : List Nat) :
    (claimed vis (edges graph F)).filter (fun node => node != NO_NODE)
      = claimed vis (edges graph F) := by
  rw [List.filter_eq_self]
  intro u hu
  obtain ⟨_, e, he, rfl⟩ := (mem_claimed _ _ _).1 hu
  have := (mem_edges.1 he).2
  simp only [bne_iff_ne, ne_eq]
  intro hc
  rw [hc] at this
  exact hno _ (mem_getD_graph this) this

theorem seq_simulates_par (graph : graph_t) (hno : no_sentinel graph) :
    ∀ (fuel : Nat) (s r : par_state), par_bfs_loop graph fuel s = some r →
      ∃ fuel', seq_bfs_loop graph fuel'
          { visited := s.visited, dist := s.dist, q := s.frontier }
        = some { visited := r.visited, dist := r.dist, q := [] } := by
  intro fuel
  induction fuel with
  | zero => intro s r h; simp [par_bfs_loop] at h
  | succ f ih =>
    intro s r h
    cases hF : s.frontier with
    | nil =>
      simp only [par_bfs_loop, hF, Option.some.injEq] at h
      subst h
      exact ⟨1, by simp [seq_bfs_loop]⟩
    | cons v F =>
      simp only [par_bfs_loop, hF] at h
      obtain ⟨f', hf'⟩ := ih _ _ h
      rw [par_bfs_level_eq] at hf'
      simp only [claimed_ne_sentinel graph hno] at hf'
      refine ⟨f' + s.frontier.length, ?_⟩
      have := seq_bfs_loop_block graph s.frontier [] s.visited s.dist f'
      rw [List.append_nil, List.nil_append] at this
      rw [← hF, this]
      exact hf'

/-! ## The history of claims -/

theorem fresh_lt {vis : List Bool} {u : Nat} (h : vis[u]? = some false) : u < vis.length := by
  by_contra hc
  simp [List.getElem?_eq_none (Nat.le_of_not_lt hc)] at h

theorem reachable_start (graph : graph_t) (start : Nat) : reachable graph start start :=
  ⟨0, Walk.nil⟩

theorem histInv_init (graph : graph_t) (start : Nat) (d0 : List Nat)
    (hs : start < graph.length) :
    HistInv graph start d0 (par_bfs_init graph start d0) where
  start_vis := by simp [par_bfs_init, hs]
  wins_vis := by intro u hu; simp [par_bfs_init] at hu
  vis_wins := by
    intro u hu
    left
    simp only [par_bfs_init, List.getElem?_set, List.getElem?_replicate] at hu
    by_cases h : start = u
    · exact h.symm
    · by_cases h2 : u < graph.length <;> simp [h, h2] at hu
  wins_nodup := by simp [par_bfs_init]
  start_not_win := by simp [par_bfs_init]
  front_sub := by intro u hu; left; simpa [par_bfs_init] using hu
  front_nodup := by simp [par_bfs_init]
  wins_reach := by intro u hu; simp [par_bfs_init] at hu
  frame := by
    intro u hu _
    simp [par_bfs_init, List.getElem?_set_ne (fun hc => hu hc.symm)]

theorem histInv_step (graph : graph_t) (start : Nat) (d0 : List Nat) (s : par_state)
    (h : HistInv graph start d0 s) : HistInv graph start d0 (par_bfs_level graph s) := by
  have hfr : ∀ u, u ∈ s.frontier → reachable graph start u := by
    intro u hu
    rcases h.front_sub u hu with rfl | hw
    · exact reachable_start graph _
    · exact h.wins_reach u hw
  rw [par_bfs_level_eq]
  refine ⟨?_, ?_, ?_, ?_, ?_, ?_, ?_, ?_, ?_⟩
  · exact (mark_true _ _ _).2 (Or.inl h.start_vis)
  · intro u hu
    simp only [List.mem_append] at hu
    rcases hu with hu | hu
    · exact (mark_true _ _ _).2 (Or.inl (h.wins_vis u hu))
    · obtain ⟨hf, he⟩ := (mem_claimed _ _ _).1 hu
      exact (mark_true _ _ _).2 (Or.inr ⟨fresh_lt hf, he⟩)
  · intro u hu
    simp only [List.mem_append]
    rcases (mark_true _ _ _).1 hu with hv | ⟨hl, he⟩
    · rcases h.vis_wins u hv with h1 | h1
      · exact Or.inl h1
      · exact Or.inr (Or.inl h1)
    · cases hv : s.visited[u] with
      | true =>
        rcases h.vis_wins u (by rw [List.getElem?_eq_getElem hl, hv]) with h1 | h1
        · exact Or.inl h1
        · exact Or.inr (Or.inl h1)
      | false =>
        right; right
        exact (mem_claimed _ _ _).2 ⟨by rw [List.getElem?_eq_getElem hl, hv], he⟩
  · simp only
    rw [List.nodup_append]
    refine ⟨h.wins_nodup, claimed_nodup _ _, ?_⟩
    intro u hu1 hu2
    have h1 := h.wins_vis u hu1
    have h2 := ((mem_claimed _ _ _).1 hu2).1
    rw [h1] at h2
    simp at h2
  · simp only [List.mem_append, not_or]
    refine ⟨h.start_not_win, ?_⟩
    intro hc
    have h2 := ((mem_claimed _ _ _).1 hc).1
    rw [h.start_vis] at h2
    simp at h2
  · intro u hu
    simp only [List.mem_filter] at hu
    right
    exact List.mem_append_right _ hu.1
  · exact (claimed_nodup _ _).filter _
  · intro u hu
    simp only [List.mem_append] at hu
    rcases hu with hu | hu
    · exact h.wins_reach u hu
    · obtain ⟨_, e, he, rfl⟩ := (mem_claimed _ _ _).1 hu
      obtain ⟨k, hk⟩ := hfr e.1 (mem_edges.1 he).1
      exact ⟨k + 1, Walk.snoc hk (mem_edges.1 he).2⟩
  · intro u hu hw
    simp only [List.mem_append, not_or] at hw
    rw [relax_frame _ _ _ _ hw.2]
    exact h.frame u hu hw.1

theorem histInv_at (graph : graph_t) (start : Nat) (d0 : List Nat)
    (hs : start < graph.length) :
    ∀ D, HistInv graph start d0 (par_bfs_at graph start d0 D) := by
  intro D
  induction D with
  | zero => exact histInv_init graph start d0 hs
  | succ D ih => exact histInv_step graph start d0 _ ih

/-! ## The claims about `par_bfs` and `seq_bfs` -/

theorem seq_bfs_loop_unique (graph : graph_t) (f1 f2 : Nat) (s r1 r2 : seq_state)
    (h1 : seq_bfs_loop graph f1 s = some r1) (h2 : seq_bfs_loop graph f2 s = some r2) :
    r1 = r2 := by
  have a := seq_bfs_loop_mono graph f1 s r1 h1 f2
  have b := seq_bfs_loop_mono graph f2 s r2 h2 f1
  rw [Nat.add_comm] at b
  rw [a] at b
  exact Option.some.inj b

theorem seq_bfs_eq_par_bfs_at (graph : graph_t) (start : Nat) (d0 : List Nat)
    (hno : no_sentinel graph) (hs : start < graph.length)
    (fuel fuel' : Nat) (hf' : graph.length < fuel') (D : Nat)
    (hrun : par_bfs_run fuel graph start d0 = some (par_bfs_at graph start d0 D)) :
    seq_bfs fuel' graph start d0 = some (par_bfs_at graph start d0 D).dist := by
  obtain ⟨f2, h2⟩ := seq_simulates_par graph hno fuel _ _ hrun
  have hc := count_false_init graph start hs
  obtain ⟨r, hr⟩ := seq_bfs_loop_some graph fuel'
    { visited := (par_bfs_init graph start d0).visited, dist := (par_bfs_init graph start d0).dist,
      q := (par_bfs_init graph start d0).frontier }
    (by simp only [par_bfs_init, List.length_singleton]; omega)
  have := seq_bfs_loop_unique graph _ _ _ _ _ h2 hr
  subst this
  simp only [seq_bfs]
  simp only [par_bfs_init] at hr
  rw [hr]
  rfl

/-- C2 (as amended): for a graph whose neighbour identifiers are in range and none of
which is the sentinel `NO_NODE`, an in-range source and an initial distance table
`d0` of length `graph.size()`, `par_bfs` and `seq_bfs` started from `d0` both return
and leave the same distance table: it holds the shortest-path distance at every
reachable node and `d0[u]` at every unreachable node `u`. -/
theorem par_bfs_eq_seq_bfs (graph : graph_t) (start : Nat) (d0 : List Nat)
    (hin : in_range graph) (hno : no_sentinel graph)
    (hs : start < graph.length) (hd : d0.length = graph.length)
    (fuel fuel' : Nat) (hf : graph.length < fuel) (hf' : graph.length < fuel') :
    ∃ d, par_bfs fuel graph start d0 = some d ∧ seq_bfs fuel' graph start d0 = some d ∧
      (∀ u k, is_distance graph start u k → d[u]? = some k) ∧
      (∀ u, ¬ reachable graph start u → d[u]? = d0[u]?) := by
  obtain ⟨D, _, hF, hrun⟩ := par_bfs_run_some graph start d0 hs fuel hf
  refine ⟨(par_bfs_at graph start d0 D).dist, by simp [par_bfs, hrun],
    seq_bfs_eq_par_bfs_at graph start d0 hno hs fuel fuel' hf' D hrun,
    par_bfs_final_dist graph start d0 hin hno hs hd D hF, ?_⟩
  intro u hu
  have hI := levelInv_at graph start d0 hin hno hs hd D
  apply hI.frame
  intro hc
  obtain ⟨k, _, hk⟩ := (hI.vis_iff u).1 hc
  exact hu ⟨k, hk⟩

theorem par_bfs_eq_seq_bfs_witness :
    in_range sample_graph ∧ no_sentinel sample_graph ∧ 0 < sample_graph.length ∧
    sample_dist.length = sample_graph.length ∧ sample_graph.length < 7 ∧
    sample_graph.length < 8 ∧
    ∃ d, par_bfs 7 sample_graph 0 sample_dist = some d ∧
      seq_bfs 8 sample_graph 0 sample_dist = some d ∧
      (∀ u k, is_distance sample_graph 0 u k → d[u]? = some k) ∧
      (∀ u, ¬ reachable sample_graph 0 u → d[u]? = sample_dist[u]?) :=
  ⟨by decide, by decide, by decide, by decide, by decide, by decide,
    par_bfs_eq_seq_bfs sample_graph 0 sample_dist (by decide) (by decide) (by decide)
      (by decide) 7 8 (by decide) (by decide)⟩

/-- C6: for a graph with in-range neighbour identifiers and an in-range source, every
iteration of the level loop of `par_bfs` that produces a non-empty next frontier
strictly decreases the number of `false` visited flags, and the loop ends after at
most `graph.size()` iterations: the run returns the state reached after some
`D ≤ graph.size()` iterations whenever `graph.size() + 1` evaluations of the loop
condition are allowed. -/
theorem par_bfs_terminates (graph : graph_t) (start : Nat) (d0 : List Nat)
    (_hin : in_range graph) (hs : start < graph.length) :
    (∀ s : par_state, (par_bfs_level graph s).frontier ≠ [] →
      (par_bfs_level graph s).visited.count false < s.visited.count false) ∧
    ∃ D, D ≤ graph.length ∧
      par_bfs_run (graph.length + 1) graph start d0 = some (par_bfs_at graph start d0 D) := by
  refine ⟨fun s h => level_count_lt graph s h, ?_⟩
  obtain ⟨D, hD, _, hrun⟩ := par_bfs_run_some graph start d0 hs (graph.length + 1) (by omega)
  exact ⟨D, hD, hrun⟩

theorem par_bfs_terminates_witness :
    in_range sample_graph ∧ 0 < sample_graph.length ∧
    ((∀ s : par_state, (par_bfs_level sample_graph s).frontier ≠ [] →
      (par_bfs_level sample_graph s).visited.count false < s.visited.count false) ∧
    ∃ D, D ≤ sample_graph.length ∧
      par_bfs_run (sample_graph.length + 1) sample_graph 0 sample_dist
        = some (par_bfs_at sample_graph 0 sample_dist D)) :=
  ⟨by decide, by decide,
    par_bfs_terminates sample_graph 0 sample_dist (by decide) (by decide)⟩

/-- C7: for a graph with in-range neighbour identifiers, an in-range source and an
initial distance table `d0`, `par_bfs` returns, the only entries of the distance
table it has written are `dist[start]` and `dist[u]` for the nodes `u` it claimed,
and `dist[u] = d0[u]` for every node `u` that is not reachable from the source. -/
theorem par_bfs_frame (graph : graph_t) (start : Nat) (d0 : List Nat)
    (_hin : in_range graph) (hs : start < graph.length) (_hd : d0.length = graph.length)
    (fuel : Nat) (hf : graph.length < fuel) :
    ∃ r, par_bfs_run fuel graph start d0 = some r ∧
      par_bfs fuel graph start d0 = some r.dist ∧
      (∀ u : Nat, u ≠ start → u ∉ r.cas_wins → r.dist[u]? = d0[u]?) ∧
      (∀ u : Nat, ¬ reachable graph start u → r.dist[u]? = d0[u]?) := by
  obtain ⟨D, _, _, hrun⟩ := par_bfs_run_some graph start d0 hs fuel hf
  have hH := histInv_at graph start d0 hs D
  refine ⟨_, hrun, by simp [par_bfs, hrun], hH.frame, ?_⟩
  intro u hu
  apply hH.frame
  · intro hc
    subst hc
    exact hu (reachable_start graph _)
  · intro hc
    exact hu (hH.wins_reach u hc)

theorem par_bfs_frame_witness :
    in_range sample_graph ∧ 0 < sample_graph.length ∧
    sample_dist.length = sample_graph.length ∧ sample_graph.length < 7 ∧
    ∃ r, par_bfs_run 7 sample_graph 0 sample_dist = some r ∧
      par_bfs 7 sample_graph 0 sample_dist = some r.dist ∧
      (∀ u : Nat, u ≠ 0 → u ∉ r.cas_wins → r.dist[u]? = sample_dist[u]?) ∧
      (∀ u : Nat, ¬ reachable sample_graph 0 u → r.dist[u]? = sample_dist[u]?) :=
  ⟨by decide, by decide, by decide, by decide,
    par_bfs_frame sample_graph 0 sample_dist (by decide) (by decide) (by decide) 7 (by decide)⟩

/-- C8: in a run of `par_bfs` on a valid graph (neighbour identifiers in range, the
sentinel `NO_NODE` not among them), the frontier held at the start of the `D`-th
loop iteration contains only nodes whose shortest-path distance from the source is
exactly `D`, every node `v` in it has `dist[v] = D`, and every node claimed during
that iteration gets the distance `D + 1`. -/
theorem par_bfs_frontier_level (graph : graph_t) (start : Nat) (d0 : List Nat)
    (hin : in_range graph) (hno : no_sentinel graph)
    (hs : start < graph.length) (hd : d0.length = graph.length) (D : Nat) :
    (∀ v : Nat, v ∈ (par_bfs_at graph start d0 D).frontier →
      is_distance graph start v D ∧ (par_bfs_at graph start d0 D).dist[v]? = some D) ∧
    (∀ u : Nat, (par_bfs_at graph start d0 D).visited[u]? = some false →
      (par_bfs_at graph start d0 (D + 1)).visited[u]? = some true →
      (par_bfs_at graph start d0 (D + 1)).dist[u]? = some (D + 1)) := by
  have hI := levelInv_at graph start d0 hin hno hs hd D
  have hI1 := levelInv_at graph start d0 hin hno hs hd (D + 1)
  constructor
  · intro v hv
    have := (hI.front_iff v).1 hv
    exact ⟨this, hI.dist_eq v D this (Nat.le_refl _)⟩
  · intro u hu0 hu1
    obtain ⟨k, hk, hw⟩ := (hI1.vis_iff u).1 hu1
    have hmin : ∀ k', Walk graph start u k' → D + 1 ≤ k' := by
      intro k' hk'
      by_contra hc
      have := (hI.vis_iff u).2 ⟨k', by omega, hk'⟩
      rw [hu0] at this
      simp at this
    have hkD : k = D + 1 := by have := hmin k hw; omega
    subst hkD
    exact hI1.dist_eq u (D + 1) ⟨hw, hmin⟩ (Nat.le_refl _)

theorem par_bfs_frontier_level_witness :
    in_range sample_graph ∧ no_sentinel sample_graph ∧ 0 < sample_graph.length ∧
    sample_dist.length = sample_graph.length ∧
    ((∀ v : Nat, v ∈ (par_bfs_at sample_graph 0 sample_dist 2).frontier →
      is_distance sample_graph 0 v 2 ∧
        (par_bfs_at sample_graph 0 sample_dist 2).dist[v]? = some 2) ∧
    (∀ u : Nat, (par_bfs_at sample_graph 0 sample_dist 2).visited[u]? = some false →
      (par_bfs_at sample_graph 0 sample_dist (2 + 1)).visited[u]? = some true →
      (par_bfs_at sample_graph 0 sample_dist (2 + 1)).dist[u]? = some (2 + 1))) :=
  ⟨by decide, by decide, by decide, by decide,
    par_bfs_frontier_level sample_graph 0 sample_dist (by decide) (by decide) (by decide)
      (by decide) 2⟩

theorem cas_wins_prefix (graph : graph_t) (start : Nat) (d0 : List Nat) (D : Nat) :
    ∀ j u, u ∈ (par_bfs_at graph start d0 D).cas_wins →
      u ∈ (par_bfs_at graph start d0 (D + j)).cas_wins := by
  intro j
  induction j with
  | zero => intro u hu; exact hu
  | succ j ih =>
    intro u hu
    rw [← Nat.add_assoc]
    simp only [par_bfs_at]
    rw [par_bfs_level_eq]
    exact List.mem_append_left _ (ih u hu)

theorem frontier_succ_fresh (graph : graph_t) (start : Nat) (d0 : List Nat)
    (hs : start < graph.length) (D : Nat) (u : Nat)
    (hu : u ∈ (par_bfs_at graph start d0 (D + 1)).frontier) :
    u ≠ start ∧ u ∉ (par_bfs_at graph start d0 D).cas_wins ∧
      u ∈ (par_bfs_at graph start d0 (D + 1)).cas_wins := by
  have hH := histInv_at graph start d0 hs D
  simp only [par_bfs_at] at hu ⊢
  rw [par_bfs_level_eq] at hu ⊢
  simp only [List.mem_filter] at hu
  have hf := ((mem_claimed _ _ _).1 hu.1).1
  refine ⟨?_, ?_, List.mem_append_right _ hu.1⟩
  · intro hc
    subst hc
    rw [hH.start_vis] at hf
    simp at hf
  · intro hc
    rw [hH.wins_vis u hc] at hf
    simp at hf

theorem frontier_disjoint_lt (graph : graph_t) (start : Nat) (d0 : List Nat)
    (hs : start < graph.length) (D1 D2 : Nat) (hlt : D1 < D2) (u : Nat)
    (h1 : u ∈ (par_bfs_at graph start d0 D1).frontier)
    (h2 : u ∈ (par_bfs_at graph start d0 D2).frontier) : False := by
  obtain ⟨D2', rfl⟩ : ∃ D2', D2 = D2' + 1 := ⟨D2 - 1, by omega⟩
  obtain ⟨hne, hnot, _⟩ := frontier_succ_fresh graph start d0 hs D2' u h2
  rcases (histInv_at graph start d0 hs D1).front_sub u h1 with h | h
  · exact hne h
  · apply hnot
    have := cas_wins_prefix graph start d0 D1 (D2' - D1) u h
    rw [show D1 + (D2' - D1) = D2' by omega] at this
    exact this

theorem nodup_getElem?_inj {l : List Nat} (h : l.Nodup) {i j : Nat} {u : Nat}
    (hi : l[i]? = some u) (hj : l[j]? = some u) : i = j := by
  have hil : i < l.length := by
    by_contra hc; simp [List.getElem?_eq_none (Nat.le_of_not_lt hc)] at hi
  have hjl : j < l.length := by
    by_contra hc; simp [List.getElem?_eq_none (Nat.le_of_not_lt hc)] at hj
  rw [List.getElem?_eq_getElem hil] at hi
  rw [List.getElem?_eq_getElem hjl] at hj
  exact (List.Nodup.getElem_inj_iff h).1 (by rw [Option.some.inj hi, Option.some.inj hj])

theorem mem_slots (es : List (Nat × Nat)) (vis : List Bool) (u : Nat)
    (hne : u ≠ NO_NODE) (hu : u ∈ slots vis es) : u ∈ claimed vis es := by
  have h1 : u ∈ (slots vis es).filter (fun node => node != NO_NODE) := by
    rw [List.mem_filter]; exact ⟨hu, by simpa using hne⟩
  rw [filter_slots] at h1
  exact (List.mem_filter.1 h1).1

theorem slots_inj (es : List (Nat × Nat)) : ∀ (vis : List Bool) (k1 k2 u : Nat),
    u ≠ NO_NODE → (slots vis es)[k1]? = some u → (slots vis es)[k2]? = some u → k1 = k2 := by
  induction es with
  | nil => intro vis k1 k2 u _ h1 _; simp [slots] at h1
  | cons e es ih =>
    intro vis k1 k2 u hne h1 h2
    have hcontra : ∀ k : Nat, vis[e.2]? = some false →
        (slots (vis.set e.2 true) es)[k]? = some e.2 → e.2 ≠ NO_NODE → False := by
      intro k hf hk hn
      have := mem_slots es _ e.2 hn (List.mem_iff_getElem?.2 ⟨k, hk⟩)
      have := ((mem_claimed _ _ _).1 this).1
      rw [List.getElem?_set_self (fresh_lt hf)] at this
      simp at this
    by_cases h : vis[e.2]? = some false
    · simp only [slots, h, if_true] at h1 h2
      cases k1 with
      | zero =>
        cases k2 with
        | zero => rfl
        | succ k2 =>
          simp only [List.getElem?_cons_zero, Option.some.injEq, List.getElem?_cons_succ] at h1 h2
          subst h1
          exact (hcontra k2 h h2 hne).elim
      | succ k1 =>
        cases k2 with
        | zero =>
          simp only [List.getElem?_cons_zero, Option.some.injEq, List.getElem?_cons_succ] at h1 h2
          subst h2
          exact (hcontra k1 h h1 hne).elim
        | succ k2 =>
          simp only [List.getElem?_cons_succ] at h1 h2
          rw [ih _ k1 k2 u hne h1 h2]
    · simp only [slots, h, if_false] at h1 h2
      cases k1 with
      | zero =>
        simp only [List.getElem?_cons_zero, Option.some.injEq] at h1
        exact (hne h1.symm).elim
      | succ k1 =>
        cases k2 with
        | zero =>
          simp only [List.getElem?_cons_zero, Option.some.injEq] at h2
          exact (hne h2.symm).elim
        | succ k2 =>
          simp only [List.getElem?_cons_succ] at h1 h2
          rw [ih _ k1 k2 u hne h1 h2]

theorem scratch_fresh (graph : graph_t) (start : Nat) (d0 : List Nat)
    (hs : start < graph.length) (D : Nat) (u : Nat) (hne : u ≠ NO_NODE)
    (hu : u ∈ (par_bfs_at graph start d0 (D + 1)).new_frontier) :
    u ∉ (par_bfs_at graph start d0 D).cas_wins ∧
      u ∈ (par_bfs_at graph start d0 (D + 1)).cas_wins := by
  have hH := histInv_at graph start d0 hs D
  simp only [par_bfs_at] at hu ⊢
  rw [par_bfs_level_eq] at hu ⊢
  have hc := mem_slots _ _ u hne hu
  have hf := ((mem_claimed _ _ _).1 hc).1
  refine ⟨?_, List.mem_append_right _ hc⟩
  intro hw
  rw [hH.wins_vis u hw] at hf
  simp at hf

theorem scratch_disjoint_lt (graph : graph_t) (start : Nat) (d0 : List Nat)
    (hs : start < graph.length) (D1 D2 : Nat) (hlt : D1 < D2) (u : Nat) (hne : u ≠ NO_NODE)
    (h1 : u ∈ (par_bfs_at graph start d0 (D1 + 1)).new_frontier)
    (h2 : u ∈ (par_bfs_at graph start d0 (D2 + 1)).new_frontier) : False := by
  have a := (scratch_fresh graph start d0 hs D1 u hne h1).2
  have b := (scratch_fresh graph start d0 hs D2 u hne h2).1
  apply b
  have := cas_wins_prefix graph start d0 (D1 + 1) (D2 - (D1 + 1)) u a
  rw [show D1 + 1 + (D2 - (D1 + 1)) = D2 by omega] at this
  exact this

/-- C9: in a run of `par_bfs` on a graph with in-range neighbour identifiers (self-loops,
repeated edges and shared neighbours allowed), the compare-and-swap succeeds at most
once per node over the whole run and never on the source: the source followed by the
nodes on which it succeeded is a list without repetition.  The entries of the distance
table are written at the source and at a successful compare-and-swap only, so each
is written at most once, and an entry does not change in an iteration that does not
claim its node.  A node occupies at most one slot of all scratch buffers and at most
one position of all frontiers. -/
theorem par_bfs_claims_once (graph : graph_t) (start : Nat) (d0 : List Nat)
    (_hin : in_range graph) (hs : start < graph.length) :
    (∀ D, (start :: (par_bfs_at graph start d0 D).cas_wins).Nodup) ∧
    (∀ fuel r, par_bfs_run fuel graph start d0 = some r → (start :: r.cas_wins).Nodup) ∧
    (∀ (D : Nat) (u : Nat), (u ∈ (par_bfs_at graph start d0 D).cas_wins ∨
        u ∉ (par_bfs_at graph start d0 (D + 1)).cas_wins) →
      (par_bfs_at graph start d0 (D + 1)).dist[u]? = (par_bfs_at graph start d0 D).dist[u]?) ∧
    (∀ (D1 D2 k1 k2 : Nat) (u : Nat), u ≠ NO_NODE →
      (par_bfs_at graph start d0 (D1 + 1)).new_frontier[k1]? = some u →
      (par_bfs_at graph start d0 (D2 + 1)).new_frontier[k2]? = some u → D1 = D2 ∧ k1 = k2) ∧
    (∀ (D1 D2 i1 i2 : Nat) (u : Nat),
      (par_bfs_at graph start d0 D1).frontier[i1]? = some u →
      (par_bfs_at graph start d0 D2).frontier[i2]? = some u → D1 = D2 ∧ i1 = i2) := by
  have hnd : ∀ D, (start :: (par_bfs_at graph start d0 D).cas_wins).Nodup := by
    intro D
    have hH := histInv_at graph start d0 hs D
    exact List.nodup_cons.2 ⟨hH.start_not_win, hH.wins_nodup⟩
  refine ⟨hnd, ?_, ?_, ?_, ?_⟩
  · intro fuel r hr
    obtain ⟨D, _, hD, _⟩ := par_bfs_loop_iterate graph _ _ _ hr
    rw [← par_bfs_at_iterate] at hD
    subst hD
    exact hnd D
  · intro D u hu
    simp only [par_bfs_at] at hu ⊢
    rw [par_bfs_level_eq] at hu ⊢
    apply relax_frame
    intro hc
    rcases hu with hu | hu
    · have := ((mem_claimed _ _ _).1 hc).1
      rw [(histInv_at graph start d0 hs D).wins_vis u hu] at this
      simp at this
    · exact hu (List.mem_append_right _ hc)
  · intro D1 D2 k1 k2 u hne h1 h2
    have m1 := List.mem_iff_getElem?.2 ⟨k1, h1⟩
    have m2 := List.mem_iff_getElem?.2 ⟨k2, h2⟩
    have hD : D1 = D2 := by
      rcases Nat.lt_trichotomy D1 D2 with h | h | h
      · exact (scratch_disjoint_lt graph start d0 hs D1 D2 h u hne m1 m2).elim
      · exact h
      · exact (scratch_disjoint_lt graph start d0 hs D2 D1 h u hne m2 m1).elim
    subst hD
    refine ⟨rfl, ?_⟩
    simp only [par_bfs_at] at h1 h2
    rw [par_bfs_level_eq] at h1 h2
    exact slots_inj _ _ k1 k2 u hne h1 h2
  · intro D1 D2 i1 i2 u h1 h2
    have m1 := List.mem_iff_getElem?.2 ⟨i1, h1⟩
    have m2 := List.mem_iff_getElem?.2 ⟨i2, h2⟩
    have hD : D1 = D2 := by
      rcases Nat.lt_trichotomy D1 D2 with h | h | h
      · exact (frontier_disjoint_lt graph start d0 hs D1 D2 h u m1 m2).elim
      · exact h
      · exact (frontier_disjoint_lt graph start d0 hs D2 D1 h u m2 m1).elim
    subst hD
    exact ⟨rfl, nodup_getElem?_inj (histInv_at graph start d0 hs D1).front_nodup h1 h2⟩

theorem par_bfs_claims_once_witness :
    in_range sample_graph ∧ 0 < sample_graph.length ∧
    ((∀ D, (0 :: (par_bfs_at sample_graph 0 sample_dist D).cas_wins).Nodup) ∧
    (∀ fuel r, par_bfs_run fuel sample_graph 0 sample_dist = some r →
      (0 :: r.cas_wins).Nodup) ∧
    (∀ (D : Nat) (u : Nat), (u ∈ (par_bfs_at sample_graph 0 sample_dist D).cas_wins ∨
        u ∉ (par_bfs_at sample_graph 0 sample_dist (D + 1)).cas_wins) →
      (par_bfs_at sample_graph 0 sample_dist (D + 1)).dist[u]?
        = (par_bfs_at sample_graph 0 sample_dist D).dist[u]?) ∧
    (∀ (D1 D2 k1 k2 : Nat) (u : Nat), u ≠ NO_NODE →
      (par_bfs_at sample_graph 0 sample_dist (D1 + 1)).new_frontier[k1]? = some u →
      (par_bfs_at sample_graph 0 sample_dist (D2 + 1)).new_frontier[k2]? = some u →
      D1 = D2 ∧ k1 = k2) ∧
    (∀ (D1 D2 i1 i2 : Nat) (u : Nat),
      (par_bfs_at sample_graph 0 sample_dist D1).frontier[i1]? = some u →
      (par_bfs_at sample_graph 0 sample_dist D2).frontier[i2]? = some u →
      D1 = D2 ∧ i1 = i2)) :=
  ⟨by decide, by decide, par_bfs_claims_once sample_graph 0 sample_dist (by decide) (by decide)⟩

/-! ## Scratch offsets -/

theorem sum_take_succ (xs : List Nat) (k : Nat) (h : k < xs.length) :
    (xs.take (k + 1)).sum = (xs.take k).sum + xs.getD k 0 := by
  rw [List.take_succ, List.getD_eq_getElem?_getD, List.getElem?_eq_getElem h, List.sum_append]
  simp

theorem sum_take_mono (xs : List Nat) (a b : Nat) (h : a ≤ b) :
    (xs.take a).sum ≤ (xs.take b).sum := by
  obtain ⟨c, rfl⟩ := Nat.exists_eq_add_of_le h
  rw [List.take_add, List.sum_append]
  exact Nat.le_add_right _ _

theorem offsets_lt (xs : List Nat) (i i' j : Nat) (hi : i < i') (hi' : i' < xs.length)
    (hj : j < xs.getD i 0) : (xs.take i).sum + j < (xs.take i').sum := by
  have h1 := sum_take_succ xs i (by omega)
  have h2 := sum_take_mono xs (i + 1) i' (by omega)
  omega

/-- C10: for every frontier of `par_bfs`, with `pref_deg` the exclusive prefix sum of
the out-degrees of the frontier nodes and `sum` the returned total, the scratch
buffer has `sum` slots, every index `pref_deg[i] + j` with `i < frontier.size()` and
`j < graph[frontier[i]].size()` is smaller than `sum`, and two distinct pairs `(i, j)`
never give the same index. -/
theorem scratch_index_private (graph : graph_t) (s : par_state) :
    (par_bfs_level graph s).new_frontier.length
      = (scan_inplace (tabulate s.frontier.length
          (fun i => (graph.getD (s.frontier.getD i 0) []).length))).2 ∧
    (∀ i j, i < s.frontier.length → j < (graph.getD (s.frontier.getD i 0) []).length →
      (scan_inplace (tabulate s.frontier.length
          (fun i => (graph.getD (s.frontier.getD i 0) []).length))).1.getD i 0 + j
        < (scan_inplace (tabulate s.frontier.length
          (fun i => (graph.getD (s.frontier.getD i 0) []).length))).2) ∧
    (∀ i j i' j', i < s.frontier.length → j < (graph.getD (s.frontier.getD i 0) []).length →
      i' < s.frontier.length → j' < (graph.getD (s.frontier.getD i' 0) []).length →
      (scan_inplace (tabulate s.frontier.length
          (fun i => (graph.getD (s.frontier.getD i 0) []).length))).1.getD i 0 + j
        = (scan_inplace (tabulate s.frontier.length
          (fun i => (graph.getD (s.frontier.getD i 0) []).length))).1.getD i' 0 + j' →
      i = i' ∧ j = j') := by
  rw [tabulate_getD s.frontier (fun v => (graph.getD v []).length)]
  generalize hxs : s.frontier.map (fun v => (graph.getD v []).length) = xs
  have hlen : xs.length = s.frontier.length := by rw [← hxs]; simp
  have hdeg : ∀ i, i < s.frontier.length →
      (graph.getD (s.frontier.getD i 0) []).length = xs.getD i 0 := by
    intro i hi
    rw [← hxs]
    simp [List.getD_eq_getElem?_getD, List.getElem?_eq_getElem hi]
  refine ⟨?_, ?_, ?_⟩
  · rw [par_bfs_level_eq, scan_inplace_total, ← hxs]
    simp only [slots_length, edges_length]
  · intro i j hi hj
    rw [scan_inplace_getD xs i (by omega), scan_inplace_total]
    rw [hdeg i hi] at hj
    have := sum_take_le xs i (by omega)
    omega
  · intro i j i' j' hi hj hi' hj' heq
    rw [scan_inplace_getD xs i (by omega), scan_inplace_getD xs i' (by omega)] at heq
    rw [hdeg i hi] at hj
    rw [hdeg i' hi'] at hj'
    rcases Nat.lt_trichotomy i i' with h | h | h
    · have := offsets_lt xs i i' j h (by omega) hj
      omega
    · subst h
      exact ⟨rfl, by omega⟩
    · have := offsets_lt xs i' i j' h (by omega) hj'
      omega

/-! ## A graph in which the sentinel is a node -/

theorem one_lt_NO_NODE : 1 < NO_NODE := by unfold NO_NODE; omega

theorem sentinel_graph_length : sentinel_graph.length = NO_NODE + 1 := by
  have h := one_lt_NO_NODE
  rw [sentinel_graph, List.length_append, List.length_append, List.length_replicate]
  show 1 + (NO_NODE - 1) + 1 = NO_NODE + 1
  omega

theorem sentinel_graph_zero : sentinel_graph.getD 0 [] = [NO_NODE] := by
  rw [sentinel_graph, List.append_assoc, List.singleton_append, List.getD_cons_zero]

theorem chain_getElem? (N i : Nat) (h : 1 < N) :
    ([[N]] ++ List.replicate (N - 1) ([] : List Nat) ++ [[1]])[i]? =
      if i = 0 then some [N] else if i < N then some []
      else if i = N then some [1] else none := by
  simp only [List.getElem?_append, List.getElem?_replicate, List.length_replicate,
    List.length_append, List.length_singleton]
  by_cases h0 : i = 0
  · subst h0; simp
  · by_cases h1 : i < N
    · have a : i < 1 + (N - 1) := by omega
      have b : ¬ i < 1 := by omega
      have c : i - 1 < N - 1 := by omega
      simp [h0, h1, a, b, c]
    · have a : ¬ i < 1 + (N - 1) := by omega
      by_cases h2 : i = N
      · subst h2
        have c : i - (1 + (i - 1)) = 0 := by omega
        have d : ¬ i < 1 := by omega
        simp only [h0, h1, a, c, d, if_false, if_true]
        rfl
      · have c : i - (1 + (N - 1)) = (i - (1 + (N - 1)) - 1) + 1 := by omega
        simp only [h0, h1, a, h2, if_false]
        rw [c]
        rfl

theorem sentinel_graph_getElem? (i : Nat) :
    sentinel_graph[i]? =
      if i = 0 then some [NO_NODE] else if i < NO_NODE then some []
      else if i = NO_NODE then some [1] else none :=
  chain_getElem? NO_NODE i one_lt_NO_NODE

theorem sentinel_graph_last : sentinel_graph.getD NO_NODE [] = [1] := by
  have h := one_lt_NO_NODE
  rw [List.getD_eq_getElem?_getD, sentinel_graph_getElem?]
  have h0 : ¬ NO_NODE = 0 := by omega
  simp [h0]

theorem sentinel_graph_one : sentinel_graph.getD 1 [] = [] := by
  have h := one_lt_NO_NODE
  rw [List.getD_eq_getElem?_getD, sentinel_graph_getElem?]
  simp [h]

theorem sentinel_graph_in_range : in_range sentinel_graph := by
  have h := one_lt_NO_NODE
  intro l hl u hu
  rw [sentinel_graph_length]
  obtain ⟨i, hi⟩ := List.mem_iff_getElem?.1 hl
  rw [sentinel_graph_getElem?] at hi
  by_cases h0 : i = 0
  · rw [if_pos h0] at hi
    have := Option.some.inj hi
    subst this
    simp only [List.mem_singleton] at hu
    omega
  · rw [if_neg h0] at hi
    by_cases h1 : i < NO_NODE
    · rw [if_pos h1] at hi
      have := Option.some.inj hi
      subst this
      simp at hu
    · rw [if_neg h1] at hi
      by_cases h2 : i = NO_NODE
      · rw [if_pos h2] at hi
        have := Option.some.inj hi
        subst this
        simp only [List.mem_singleton] at hu
        omega
      · rw [if_neg h2] at hi
        simp at hi

theorem sentinel_graph_distance : is_distance sentinel_graph 0 1 2 := by
  refine ⟨Walk.snoc (Walk.snoc Walk.nil (v := 0) (u := NO_NODE) ?_) ?_, ?_⟩
  · rw [sentinel_graph_zero]; simp
  · rw [sentinel_graph_last]; simp
  · intro k hk
    have h := one_lt_NO_NODE
    match k, hk with
    | 0, hk => have := walk_zero.1 hk; omega
    | 1, hk =>
      obtain ⟨v, hv, he⟩ := walk_succ.1 hk
      have := walk_zero.1 hv
      subst this
      rw [sentinel_graph_zero] at he
      simp only [List.mem_singleton] at he
      omega
    | k + 2, _ => omega

theorem sentinel_init_fresh :
    ((List.replicate sentinel_graph.length false).set 0 true)[NO_NODE]? = some false := by
  have h := one_lt_NO_NODE
  rw [List.getElem?_set_ne (by omega), List.getElem?_replicate, sentinel_graph_length,
    if_pos (by omega)]

theorem sentinel_edges : edges sentinel_graph [0] = [(0, NO_NODE)] := by
  rw [edges, List.flatMap_cons, List.flatMap_nil, List.append_nil, sentinel_graph_zero]
  rfl

theorem par_bfs_loop_two (graph : graph_t) (s : par_state) (v : Nat) (F : List Nat)
    (h0 : s.frontier = v :: F) (h1 : (par_bfs_level graph s).frontier = []) (fuel : Nat) :
    par_bfs_loop graph (fuel + 2) s = some (par_bfs_level graph s) := by
  simp only [par_bfs_loop, h0, h1]

theorem par_bfs_loop_lt_two (graph : graph_t) (s : par_state) (v : Nat) (F : List Nat)
    (h0 : s.frontier = v :: F) (fuel : Nat) (hf : fuel < 2) :
    par_bfs_loop graph fuel s = none := by
  match fuel, hf with
  | 0, _ => rfl
  | 1, _ => simp only [par_bfs_loop, h0]

theorem par_bfs_init_frontier (graph : graph_t) (start : Nat) (dist : List Nat) :
    (par_bfs_init graph start dist).frontier = [start] := rfl

theorem par_bfs_init_visited (graph : graph_t) (start : Nat) (dist : List Nat) :
    (par_bfs_init graph start dist).visited
      = (List.replicate graph.length false).set start true := rfl

theorem par_bfs_init_dist (graph : graph_t) (start : Nat) (dist : List Nat) :
    (par_bfs_init graph start dist).dist = dist.set start 0 := rfl

theorem claimed_single (vis : List Bool) (v u : Nat) (h : vis[u]? = some false) :
    claimed vis [(v, u)] = [u] := by
  rw [claimed, if_pos h, claimed]

theorem relax_single (vis : List Bool) (dist : List Nat) (v u : Nat)
    (h : vis[u]? = some false) :
    relax vis dist [(v, u)] = dist.set u (dist.getD v 0 + 1) := by
  rw [relax, if_pos h, relax]

theorem mark_single (vis : List Bool) (v u : Nat) : mark vis [(v, u)] = vis.set u true := rfl

theorem sentinel_level :
    (par_bfs_level sentinel_graph (par_bfs_init sentinel_graph 0 sentinel_dist)).frontier = [] ∧
    (par_bfs_level sentinel_graph (par_bfs_init sentinel_graph 0 sentinel_dist)).dist[1]?
      = some 7 := by
  have h := one_lt_NO_NODE
  have hf := sentinel_init_fresh
  have hc := claimed_single _ 0 NO_NODE hf
  have hr := relax_single _ (sentinel_dist.set 0 0) 0 NO_NODE hf
  rw [par_bfs_level_eq]
  rw [par_bfs_init_frontier, par_bfs_init_visited, par_bfs_init_dist, sentinel_edges, hc, hr]
  constructor
  · show List.filter (fun node => node != NO_NODE) [NO_NODE] = []
    rw [List.filter_cons_of_neg (by simp), List.filter_nil]
  · show ((sentinel_dist.set 0 0).set NO_NODE ((sentinel_dist.set 0 0).getD 0 0 + 1))[1]?
      = some 7
    rw [List.getElem?_set_ne (by omega), List.getElem?_set_ne (by omega), sentinel_dist,
      List.getElem?_replicate, if_pos (by omega)]

/-- C1 fails when the sentinel is a node identifier: in `sentinel_graph` all neighbour
identifiers are in range and node `1` is at distance `2` from node `0`, but `par_bfs`
returns with `dist[1]` still holding its initial value `7`. -/
theorem par_bfs_sentinel_counterexample :
    in_range sentinel_graph ∧ 0 < sentinel_graph.length ∧
    sentinel_dist.length = sentinel_graph.length ∧
    is_distance sentinel_graph 0 1 2 ∧
    (∀ fuel, 2 ≤ fuel → ∃ d, par_bfs fuel sentinel_graph 0 sentinel_dist = some d) ∧
    ∀ fuel d, par_bfs fuel sentinel_graph 0 sentinel_dist = some d → d[1]? = some 7 := by
  have hl := sentinel_level
  have h0 := par_bfs_init_frontier sentinel_graph 0 sentinel_dist
  have hrun : ∀ fuel, par_bfs_run (fuel + 2) sentinel_graph 0 sentinel_dist
      = some (par_bfs_level sentinel_graph (par_bfs_init sentinel_graph 0 sentinel_dist)) :=
    fun fuel => par_bfs_loop_two _ _ 0 [] h0 hl.1 fuel
  refine ⟨sentinel_graph_in_range, by rw [sentinel_graph_length]; omega,
    by rw [sentinel_graph_length, sentinel_dist, List.length_replicate],
    sentinel_graph_distance, ?_, ?_⟩
  · intro fuel hf
    obtain ⟨f, rfl⟩ : ∃ f, fuel = f + 2 := ⟨fuel - 2, by omega⟩
    exact ⟨_, by rw [par_bfs, hrun f, Option.map_some']⟩
  · intro fuel d hd
    by_cases hf : fuel < 2
    · rw [par_bfs, par_bfs_run, par_bfs_loop_lt_two _ _ 0 [] h0 fuel hf] at hd
      simp at hd
    · obtain ⟨f, rfl⟩ : ∃ f, fuel = f + 2 := ⟨fuel - 2, by omega⟩
      rw [par_bfs, hrun f, Option.map_some', Option.some.injEq] at hd
      rw [← hd]
      exact hl.2

theorem seq_bfs_loop_pop (graph : graph_t) (fuel : Nat) (v : Nat) (rest : List Nat)
    (vis : List Bool) (dist : List Nat) :
    seq_bfs_loop graph (fuel + 1) { visited := vis, dist := dist, q := v :: rest } =
      seq_bfs_loop graph fuel
        { visited := mark vis ((graph.getD v []).map (fun u => (v, u))),
          dist := relax vis dist ((graph.getD v []).map (fun u => (v, u))),
          q := rest ++ claimed vis ((graph.getD v []).map (fun u => (v, u))) } := by
  simp only [seq_bfs_loop, seq_visit_fold]

theorem sentinel_seq_run (fuel : Nat) :
    ∃ d, seq_bfs (fuel + 4) sentinel_graph 0 sentinel_dist = some d ∧ d[1]? = some 2 := by
  have h := one_lt_NO_NODE
  have hf := sentinel_init_fresh
  have hlen := sentinel_graph_length
  generalize hv0 : (List.replicate sentinel_graph.length false).set 0 true = vis0 at hf
  have hl0 : vis0.length = NO_NODE + 1 := by rw [← hv0, List.length_set, List.length_replicate, hlen]
  have hf1 : (vis0.set NO_NODE true)[1]? = some false := by
    rw [List.getElem?_set_ne (by omega), ← hv0, List.getElem?_set_ne (by omega),
      List.getElem?_replicate, if_pos (by omega)]
  generalize hd0 : sentinel_dist.set 0 0 = dist0
  have hdl : dist0.length = NO_NODE + 1 := by
    rw [← hd0, List.length_set, sentinel_dist, List.length_replicate]
  have hd00 : dist0.getD 0 0 = 0 := by
    rw [← hd0, List.getD_eq_getElem?_getD, List.getElem?_set_self
      (by rw [sentinel_dist, List.length_replicate]; omega)]
    rfl
  refine ⟨(dist0.set NO_NODE (dist0.getD 0 0 + 1)).set 1
    ((dist0.set NO_NODE (dist0.getD 0 0 + 1)).getD NO_NODE 0 + 1), ?_, ?_⟩
  · rw [seq_bfs, hv0, hd0, seq_bfs_loop_pop, sentinel_graph_zero, List.map_cons, List.map_nil,
      mark_single, relax_single _ _ _ _ hf, claimed_single _ _ _ hf, List.nil_append,
      seq_bfs_loop_pop, sentinel_graph_last, List.map_cons, List.map_nil,
      mark_single, relax_single _ _ _ _ hf1, claimed_single _ _ _ hf1, List.nil_append,
      seq_bfs_loop_pop, sentinel_graph_one, List.map_nil, List.nil_append]
    rfl
  · rw [List.getElem?_set_self (by rw [List.length_set]; omega),
      List.getD_eq_getElem?_getD (dist0.set NO_NODE (dist0.getD 0 0 + 1)),
      List.getElem?_set_self (by omega), hd00]
    rfl

/-- C2 fails when the sentinel is a node identifier: on `sentinel_graph`, whose
neighbour identifiers are all in range, `seq_bfs` and `par_bfs` started from the same
distance table both return, `seq_bfs` with `dist[1] = 2` and `par_bfs` with `dist[1]`
still at its initial value `7`. -/
theorem par_seq_sentinel_counterexample :
    in_range sentinel_graph ∧ 0 < sentinel_graph.length ∧
    sentinel_dist.length = sentinel_graph.length ∧
    (∀ fuel, 4 ≤ fuel → ∃ dp ds, par_bfs fuel sentinel_graph 0 sentinel_dist = some dp ∧
      seq_bfs fuel sentinel_graph 0 sentinel_dist = some ds ∧
      dp[1]? = some 7 ∧ ds[1]? = some 2 ∧ dp ≠ ds) := by
  have hl := sentinel_level
  have h0 := par_bfs_init_frontier sentinel_graph 0 sentinel_dist
  refine ⟨sentinel_graph_in_range, by rw [sentinel_graph_length]; omega,
    by rw [sentinel_graph_length, sentinel_dist, List.length_replicate], ?_⟩
  intro fuel hf
  obtain ⟨f, rfl⟩ : ∃ f, fuel = f + 4 := ⟨fuel - 4, by omega⟩
  obtain ⟨ds, hs1, hs2⟩ := sentinel_seq_run f
  refine ⟨_, ds, ?_, hs1, hl.2, hs2, ?_⟩
  · rw [par_bfs, par_bfs_run, show f + 4 = (f + 2) + 2 by omega,
      par_bfs_loop_two _ _ 0 [] h0 hl.1, Option.map_some']
  · intro hc
    have := hl.2
    rw [hc, hs2] at this
    simp at this

/-! ## One level of `par_bfs_less_allocations` -/

theorem flag_slots_append (a b : List (Nat × Nat)) : ∀ (vis : List Bool),
    flag_slots vis (a ++ b) = flag_slots vis a ++ flag_slots (mark vis a) b := by
  induction a with
  | nil => intro vis; rfl
  | cons e a ih =>
    intro vis
    by_cases h : vis[e.2]? = some false
    · simp [flag_slots, mark, h, ih]
    · simp [flag_slots, mark, h, ih, set_true_of_not_fresh vis e.2 h]

theorem flag_slots_length (es : List (Nat × Nat)) : ∀ (vis : List Bool),
    (flag_slots vis es).length = es.length := by
  induction es with
  | nil => intro vis; rfl
  | cons e es ih =>
    intro vis
    by_cases h : vis[e.2]? = some false <;> simp [flag_slots, h, ih]

theorem pack_slots (es : List (Nat × Nat)) : ∀ (vis : List Bool),
    (((slots vis es).zip (flag_slots vis es)).filter (fun p => p.2 != 0)).map Prod.fst
      = claimed vis es := by
  induction es with
  | nil => intro vis; rfl
  | cons e es ih =>
    intro vis
    by_cases h : vis[e.2]? = some false
    · simp [slots, flag_slots, claimed, h, ih]
    · simp [slots, flag_slots, claimed, h, ih]

theorem fold_set_range {α : Type} (x : α) : ∀ (k : Nat) (l : List α), k ≤ l.length →
    (List.range k).foldl (fun l i => l.set i x) l = List.replicate k x ++ l.drop k := by
  intro k
  induction k with
  | zero => intro l _; simp
  | succ k ih =>
    intro l hk
    rw [List.range_succ, List.foldl_append, ih l (by omega)]
    simp only [List.foldl_cons, List.foldl_nil]
    have h1 : (List.replicate k x).length = k := List.length_replicate _ _
    rw [List.set_append, h1, if_neg (by omega), Nat.sub_self]
    rw [List.replicate_succ', List.append_assoc]
    congr 1
    cases hd : l.drop k with
    | nil =>
      have := congrArg List.length hd
      simp at this
      omega
    | cons a rest =>
      have : l.drop (k + 1) = rest := by
        rw [← List.drop_drop 1 k l]; simp [hd]
      simp [this]

theorem parallel_for_clear : ∀ (k : Nat) (s : la_state),
    parallel_for 0 k la_clear s =
      { s with
        tmp_frontier := (List.range k).foldl (fun l i => l.set i NO_NODE) s.tmp_frontier,
        pref_flags := (List.range k).foldl (fun l i => l.set i 0) s.pref_flags } := by
  intro k
  induction k with
  | zero => intro s; simp [parallel_for]
  | succ k ih =>
    intro s
    rw [parallel_for_zero_succ, ih]
    simp [la_clear, List.range_succ, List.foldl_append]

theorem parallel_for_degree (graph : graph_t) : ∀ (k : Nat) (s : la_state),
    k ≤ s.pref_deg.length → k ≤ s.frontier.length →
    parallel_for 0 k (la_degree graph) s =
      { s with
        pref_deg := (s.frontier.take k).map (fun v => (graph.getD v []).length)
          ++ s.pref_deg.drop k } := by
  intro k
  induction k with
  | zero => intro s _ _; simp [parallel_for]
  | succ k ih =>
    intro s h1 h2
    rw [parallel_for_zero_succ, ih s (by omega) (by omega)]
    simp only [la_degree]
    congr 1
    have hl : ((s.frontier.take k).map (fun v => (graph.getD v []).length)).length = k := by
      simp; omega
    rw [List.set_append, hl, if_neg (by omega), Nat.sub_self]
    rw [take_succ_map _ k (by omega) 0, List.append_assoc]
    congr 1
    cases hd : s.pref_deg.drop k with
    | nil =>
      have := congrArg List.length hd
      simp at this
      omega
    | cons a rest =>
      have : s.pref_deg.drop (k + 1) = rest := by
        rw [← List.drop_drop 1 k s.pref_deg]; simp [hd]
      simp [this]

theorem la_visit_swept (graph : graph_t) (i : Nat) (v : Nat) (j : Nat)
    (s t : la_state) (P : List (Nat × Nat))
    (hP : LaSwept s P t) (hlt : P.length < s.tmp_frontier.length)
    (hfl : s.pref_flags.length = s.tmp_frontier.length)
    (hidx : s.pref_deg.getD i 0 + j = P.length) :
    LaSwept s (P ++ [(v, (graph.getD v []).getD j 0)]) (la_visit graph i v j t) := by
  obtain ⟨hv, hd, hf, hpd, hfs, hts, hn, hw⟩ := hP
  unfold la_visit
  dsimp only
  generalize (graph.getD v []).getD j 0 = u
  have hlen : ∀ (A : List Nat) (x : Nat), A.length = P.length →
      A ++ [x] ++ List.replicate (s.tmp_frontier.length - P.length - 1) x
      = A ++ List.replicate (s.tmp_frontier.length - P.length) x := by
    intro A x _
    rw [replicate_split (s.tmp_frontier.length - P.length) x (by omega)]; simp
  have hset : ∀ (A : List Nat) (x y : Nat), A.length = P.length →
      (A ++ List.replicate (s.tmp_frontier.length - P.length) x).set P.length y
      = A ++ [y] ++ List.replicate (s.tmp_frontier.length - P.length - 1) x := by
    intro A x y hA
    have := set_append_replicate A (s.tmp_frontier.length - P.length) x y (by omega)
    rw [hA] at this
    exact this
  by_cases h : (mark s.visited P)[u]? = some false
  · have hr := cas_fresh t.visited u (by rw [hv]; exact h)
    rw [hr]
    refine ⟨?_, ?_, ?_, ?_, ?_, ?_, ?_, ?_⟩
    · simp [hv, mark_append, mark]
    · simp [hv, hd, h, relax_append, relax]
    · simp [hf]
    · simp [hpd]
    · simp [hfs]
    · simp [hts]
    · simp only [if_true, hn, hpd, hidx, slots_append, slots, h]
      rw [hset _ _ _ (slots_length _ _)]
      simp [Nat.sub_sub]
    · simp only [if_true, hw, hpd, hidx, flag_slots_append, flag_slots, h, hfl]
      rw [hset _ _ _ (flag_slots_length _ _)]
      simp [Nat.sub_sub]
  · have hr := cas_not_fresh t.visited u (by rw [hv]; exact h)
    rw [hr]
    refine ⟨?_, ?_, ?_, ?_, ?_, ?_, ?_, ?_⟩
    · have h3 : mark (mark s.visited P) [(v, u)] = mark s.visited P := by
        simp only [mark, List.foldl_cons, List.foldl_nil]
        exact set_true_of_not_fresh _ u h
      simp [hv, mark_append, h3]
    · simp [hd, relax_append, relax, h]
    · simp [hf]
    · simp [hpd]
    · simp [hfs]
    · simp [hts]
    · simp only [hn, slots_append, slots, h, if_false, List.length_append,
        List.length_singleton]
      rw [← hlen _ _ (slots_length _ _)]; simp [Nat.sub_sub]
    · simp only [hw, flag_slots_append, flag_slots, h, if_false, List.length_append,
        List.length_singleton, hfl]
      rw [← hlen _ _ (flag_slots_length _ _)]; simp [Nat.sub_sub]

theorem la_for_loop_swept (graph : graph_t) (i : Nat) (v : Nat)
    (s t : la_state) (P : List (Nat × Nat))
    (hP : LaSwept s P t) (hfl : s.pref_flags.length = s.tmp_frontier.length)
    (hidx : s.pref_deg.getD i 0 = P.length) :
    ∀ k, k ≤ (graph.getD v []).length →
      P.length + (graph.getD v []).length ≤ s.tmp_frontier.length →
      LaSwept s (P ++ ((graph.getD v []).take k).map (fun u => (v, u)))
        (for_loop k (fun j t => la_visit graph i v j t) t) := by
  intro k
  induction k with
  | zero => intro _ _; simpa [for_loop] using hP
  | succ k ih =>
    intro hk htot
    have h1 := ih (by omega) htot
    have hl : (P ++ ((graph.getD v []).take k).map (fun u => (v, u))).length = P.length + k := by
      rw [List.length_append, List.length_map, List.length_take, Nat.min_eq_left (by omega)]
    have h2 := la_visit_swept graph i v k s _ _ h1 (by rw [hl]; omega) hfl
      (by rw [hl]; omega)
    rw [take_succ_map _ k (by omega) 0, ← List.append_assoc, for_loop_succ]
    exact h2

theorem la_claim_phase_swept (graph : graph_t) (s : la_state)
    (hfs : s.frontier_size ≤ s.frontier.length)
    (hfl : s.pref_flags.length = s.tmp_frontier.length)
    (hct : s.tmp_frontier = List.replicate s.tmp_frontier.length NO_NODE)
    (hcf : s.pref_flags = List.replicate s.pref_flags.length 0)
    (hpd : ∀ i, i < s.frontier_size →
      s.pref_deg.getD i 0 = (edges graph (s.frontier.take i)).length)
    (htot : (edges graph (s.frontier.take s.frontier_size)).length ≤ s.tmp_frontier.length) :
    ∀ k, k ≤ s.frontier_size →
      LaSwept s (edges graph (s.frontier.take k))
        (parallel_for 0 k
          (fun i t =>
            for_loop (graph.getD (t.frontier.getD i 0) []).length
              (fun j r => la_visit graph i (t.frontier.getD i 0) j r) t)
          s) := by
  intro k
  induction k with
  | zero =>
    intro _
    refine ⟨rfl, rfl, rfl, rfl, rfl, rfl, ?_, ?_⟩
    · simpa [parallel_for, edges, slots] using hct
    · simpa [parallel_for, edges, flag_slots] using hcf
  | succ k ih =>
    intro hk
    have h1 := ih (by omega)
    have hmono : (edges graph (s.frontier.take (k + 1))).length
        ≤ (edges graph (s.frontier.take s.frontier_size)).length := by
      rw [edges_length, edges_length, List.map_take, List.map_take]
      exact sum_take_mono _ _ _ hk
    rw [edges_take_succ _ _ _ (by omega), List.length_append, List.length_map] at hmono
    have hfr := h1.2.2.1
    have h2 := la_for_loop_swept graph k (s.frontier.getD k 0) s _ _ h1 hfl
      (hpd k (by omega)) (graph.getD (s.frontier.getD k 0) []).length (Nat.le_refl _)
      (by omega)
    rw [List.take_length] at h2
    rw [parallel_for_zero_succ, edges_take_succ _ _ _ (by omega)]
    simp only [hfr]
    exact h2

theorem take_map_take {α β : Type} (l : List α) (f : α → β) (i k : Nat) (h : i ≤ k) :
    ((l.take k).map f).take i = (l.take i).map f := by
  rw [← List.map_take, List.take_take, Nat.min_eq_left h]

theorem replicate_append_drop {α : Type} (x : α) (l : List α) (k : Nat) (hk : k ≤ l.length)
    (h : l.drop k = List.replicate (l.length - k) x) :
    List.replicate k x ++ l.drop k = List.replicate l.length x := by
  rw [h, List.append_replicate_replicate]
  congr 1
  omega

theorem la_level_eq (graph : graph_t) (s : la_state) (h : LaReady graph s) :
    la_level graph s =
      { frontier :=
          (claimed s.visited (edges graph (s.frontier.take s.frontier_size))
            ++ s.frontier.drop
              (claimed s.visited (edges graph (s.frontier.take s.frontier_size))).length).take
            s.frontier.length,
        tmp_frontier :=
          slots s.visited (edges graph (s.frontier.take s.frontier_size))
            ++ List.replicate (s.tmp_frontier.length
              - (edges graph (s.frontier.take s.frontier_size)).length) NO_NODE,
        pref_flags :=
          flag_slots s.visited (edges graph (s.frontier.take s.frontier_size))
            ++ List.replicate (s.tmp_frontier.length
              - (edges graph (s.frontier.take s.frontier_size)).length) 0,
        pref_deg :=
          (scan_inplace ((s.frontier.take s.frontier_size).map
            (fun v => (graph.getD v []).length))).1 ++ s.pref_deg.drop s.frontier_size,
        visited := mark s.visited (edges graph (s.frontier.take s.frontier_size)),
        dist := relax s.visited s.dist (edges graph (s.frontier.take s.frontier_size)),
        frontier_size :=
          (claimed s.visited (edges graph (s.frontier.take s.frontier_size))).length,
        tmp_frontier_size := (edges graph (s.frontier.take s.frontier_size)).length } := by
  obtain ⟨hfs, hpdl, hts, hfl, hct, hcf, hroom⟩ := h
  generalize hF : s.frontier.take s.frontier_size = F at *
  have hFl : F.length = s.frontier_size := by rw [← hF, List.length_take]; omega
  generalize hdegs : F.map (fun v => (graph.getD v []).length) = degs
  have hdl : degs.length = s.frontier_size := by rw [← hdegs, List.length_map, hFl]
  have e1 : parallel_for 0 s.tmp_frontier_size la_clear s =
      { s with
        tmp_frontier := List.replicate s.tmp_frontier.length NO_NODE,
        pref_flags := List.replicate s.tmp_frontier.length 0 } := by
    rw [parallel_for_clear, fold_set_range _ _ _ hts, fold_set_range _ _ _ (by omega),
      replicate_append_drop _ _ _ hts hct, replicate_append_drop _ _ _ (by omega) hcf, hfl]
  have e2 : parallel_for 0 s.frontier_size (la_degree graph)
      { s with
        tmp_frontier := List.replicate s.tmp_frontier.length NO_NODE,
        pref_flags := List.replicate s.tmp_frontier.length 0 } =
      { s with
        tmp_frontier := List.replicate s.tmp_frontier.length NO_NODE,
        pref_flags := List.replicate s.tmp_frontier.length 0,
        pref_deg := degs ++ s.pref_deg.drop s.frontier_size } := by
    have := parallel_for_degree graph s.frontier_size
      { s with
        tmp_frontier := List.replicate s.tmp_frontier.length NO_NODE,
        pref_flags := List.replicate s.tmp_frontier.length 0 } hpdl hfs
    simp only [hF, hdegs] at this
    exact this
  have e3 : (degs ++ s.pref_deg.drop s.frontier_size).take s.frontier_size = degs := by
    rw [← hdl, List.take_left]
  have e4 : (degs ++ s.pref_deg.drop s.frontier_size).drop s.frontier_size
      = s.pref_deg.drop s.frontier_size := by
    rw [← hdl, List.drop_left]
  have htot : (scan_inplace degs).2 = (edges graph F).length := by
    rw [scan_inplace_total, edges_length, hdegs]
  generalize hs3 : ({ s with
        tmp_frontier := List.replicate s.tmp_frontier.length NO_NODE,
        pref_flags := List.replicate s.tmp_frontier.length 0,
        pref_deg := (scan_inplace degs).1 ++ s.pref_deg.drop s.frontier_size,
        tmp_frontier_size := (edges graph F).length } : la_state) = s3
  have hsw := la_claim_phase_swept graph s3
    (by rw [← hs3]; exact hfs) (by rw [← hs3]; simp)
    (by rw [← hs3]; simp) (by rw [← hs3]; simp)
    (by
      intro i hi
      rw [← hs3] at hi ⊢
      simp only at hi ⊢
      have hil : i < (scan_inplace degs).1.length := by
        rw [scan_inplace, scan_from_length]; omega
      rw [List.getD_eq_getElem?_getD, List.getElem?_append_left hil,
        ← List.getD_eq_getElem?_getD, scan_inplace_getD degs i (by omega), edges_length,
        ← hdegs, ← hF, take_map_take _ _ _ _ (by omega)])
    (by rw [← hs3]; simp only [List.length_replicate, hF]; exact hroom)
    s3.frontier_size (Nat.le_refl _)
  have hs3F : s3.frontier.take s3.frontier_size = F := by rw [← hs3]; exact hF
  rw [hs3F] at hsw
  have hs3fs : s3.frontier_size = s.frontier_size := by rw [← hs3]
  rw [hs3fs] at hsw
  obtain ⟨hv, hd, hf, hpd, hfs4, hts4, hn, hw⟩ := hsw
  have hlev : la_level graph s =
      { (parallel_for 0 s.frontier_size
          (fun i t =>
            for_loop (graph.getD (t.frontier.getD i 0) []).length
              (fun j r => la_visit graph i (t.frontier.getD i 0) j r) t) s3) with
        frontier := (pack_into
          ((parallel_for 0 s.frontier_size
            (fun i t =>
              for_loop (graph.getD (t.frontier.getD i 0) []).length
                (fun j r => la_visit graph i (t.frontier.getD i 0) j r) t) s3).tmp_frontier.take
            (parallel_for 0 s.frontier_size
              (fun i t =>
                for_loop (graph.getD (t.frontier.getD i 0) []).length
                  (fun j r => la_visit graph i (t.frontier.getD i 0) j r) t) s3).tmp_frontier_size)
          ((parallel_for 0 s.frontier_size
            (fun i t =>
              for_loop (graph.getD (t.frontier.getD i 0) []).length
                (fun j r => la_visit graph i (t.frontier.getD i 0) j r) t) s3).pref_flags.take
            (parallel_for 0 s.frontier_size
              (fun i t =>
                for_loop (graph.getD (t.frontier.getD i 0) []).length
                  (fun j r => la_visit graph i (t.frontier.getD i 0) j r) t) s3).tmp_frontier_size)
          (parallel_for 0 s.frontier_size
            (fun i t =>
              for_loop (graph.getD (t.frontier.getD i 0) []).length
                (fun j r => la_visit graph i (t.frontier.getD i 0) j r) t) s3).frontier).1,
        frontier_size := (pack_into
          ((parallel_for 0 s.frontier_size
            (fun i t =>
              for_loop (graph.getD (t.frontier.getD i 0) []).length
                (fun j r => la_visit graph i (t.frontier.getD i 0) j r) t) s3).tmp_frontier.take
            (parallel_for 0 s.frontier_size
              (fun i t =>
                for_loop (graph.getD (t.frontier.getD i 0) []).length
                  (fun j r => la_visit graph i (t.frontier.getD i 0) j r) t) s3).tmp_frontier_size)
          ((parallel_for 0 s.frontier_size
            (fun i t =>
              for_loop (graph.getD (t.frontier.getD i 0) []).length
                (fun j r => la_visit graph i (t.frontier.getD i 0) j r) t) s3).pref_flags.take
            (parallel_for 0 s.frontier_size
              (fun i t =>
                for_loop (graph.getD (t.frontier.getD i 0) []).length
                  (fun j r => la_visit graph i (t.frontier.getD i 0) j r) t) s3).tmp_frontier_size)
          (parallel_for 0 s.frontier_size
            (fun i t =>
              for_loop (graph.getD (t.frontier.getD i 0) []).length
                (fun j r => la_visit graph i (t.frontier.getD i 0) j r) t) s3).frontier).2 } := by
    unfold la_level
    simp only [e1, e2, e3, e4, htot, hs3]
  rw [hlev]
  generalize (parallel_for 0 s.frontier_size
          (fun i t =>
            for_loop (graph.getD (t.frontier.getD i 0) []).length
              (fun j r => la_visit graph i (t.frontier.getD i 0) j r) t) s3) = s4 at *
  have hs3v : s3.visited = s.visited := by rw [← hs3]
  have hs3d : s3.dist = s.dist := by rw [← hs3]
  have hs3f : s3.frontier = s.frontier := by rw [← hs3]
  have hs3t : s3.tmp_frontier.length = s.tmp_frontier.length := by rw [← hs3]; simp
  have hs3g : s3.pref_flags.length = s.tmp_frontier.length := by rw [← hs3]; simp
  have hs3p : s3.pref_deg = (scan_inplace degs).1 ++ s.pref_deg.drop s.frontier_size := by
    rw [← hs3]
  have hs3s : s3.tmp_frontier_size = (edges graph F).length := by rw [← hs3]
  rw [hs3v] at hv hd hn hw
  rw [hs3d] at hd
  rw [hs3t] at hn
  rw [hs3g] at hw
  have ht1 : s4.tmp_frontier.take s4.tmp_frontier_size = slots s.visited (edges graph F) := by
    rw [hn, hts4, hs3s, ← slots_length (edges graph F) s.visited, List.take_left]
  have ht2 : s4.pref_flags.take s4.tmp_frontier_size
      = flag_slots s.visited (edges graph F) := by
    rw [hw, hts4, hs3s, ← flag_slots_length (edges graph F) s.visited, List.take_left]
  rw [ht1, ht2]
  simp only [pack_into, pack_slots, hv, hd, hf, hs3f, hn, hw, hpd, hs3p, hts4, hs3s]

/-! ## The reused-buffer variant follows `par_bfs` -/

theorem set_true_agree (n : Nat) (v1 v2 : List Bool) (a : Nat)
    (h : ∀ u : Nat, u < n → v1[u]? = v2[u]?) (ha : a < n) :
    ∀ u : Nat, u < n → (v1.set a true)[u]? = (v2.set a true)[u]? := by
  intro u hu
  rw [List.getElem?_set, List.getElem?_set]
  by_cases hau : a = u
  · subst hau
    have := h a ha
    by_cases h1 : a < v1.length
    · have h2 : a < v2.length := by
        by_contra hc
        rw [List.getElem?_eq_getElem h1, List.getElem?_eq_none (Nat.le_of_not_lt hc)] at this
        simp at this
      simp [h1, h2]
    · have h2 : ¬ a < v2.length := by
        intro hc
        rw [List.getElem?_eq_none (Nat.le_of_not_lt h1), List.getElem?_eq_getElem hc] at this
        simp at this
      simp [h1, h2]
  · simp only [hau, if_false]
    exact h u hu

theorem sweep_agree (n : Nat) (es : List (Nat × Nat)) :
    ∀ (v1 v2 : List Bool) (d : List Nat),
      (∀ u : Nat, u < n → v1[u]? = v2[u]?) → (∀ e ∈ es, e.2 < n) →
      claimed v1 es = claimed v2 es ∧ relax v1 d es = relax v2 d es ∧
        ∀ u : Nat, u < n → (mark v1 es)[u]? = (mark v2 es)[u]? := by
  induction es with
  | nil => intro v1 v2 d h _; exact ⟨rfl, rfl, h⟩
  | cons e es ih =>
    intro v1 v2 d h hes
    have he : e.2 < n := hes e (List.mem_cons_self _ _)
    have hes' : ∀ e' ∈ es, e'.2 < n := fun e' he' => hes e' (List.mem_cons_of_mem _ he')
    have heq := h e.2 he
    have hag := set_true_agree n v1 v2 e.2 h he
    by_cases hf : v1[e.2]? = some false
    · have hf2 : v2[e.2]? = some false := by rw [← heq]; exact hf
      obtain ⟨a, b, c⟩ := ih (v1.set e.2 true) (v2.set e.2 true)
        (d.set e.2 (d.getD e.1 0 + 1)) hag hes'
      simp only [claimed, relax, mark_cons, hf, hf2, if_true]
      exact ⟨by rw [a], b, c⟩
    · have hf2 : ¬ v2[e.2]? = some false := by rw [← heq]; exact hf
      obtain ⟨a, b, _⟩ := ih v1 v2 d h hes'
      obtain ⟨_, _, c⟩ := ih (v1.set e.2 true) (v2.set e.2 true) d hag hes'
      simp only [claimed, relax, mark_cons, hf, hf2, if_false]
      exact ⟨a, b, c⟩

theorem slots_of_no_claim (es : List (Nat × Nat)) : ∀ (vis : List Bool),
    claimed vis es = [] →
      slots vis es = List.replicate es.length NO_NODE ∧
      flag_slots vis es = List.replicate es.length 0 := by
  induction es with
  | nil => intro vis _; exact ⟨rfl, rfl⟩
  | cons e es ih =>
    intro vis h
    by_cases hf : vis[e.2]? = some false
    · simp [claimed, hf] at h
    · simp only [claimed, hf, if_false] at h
      obtain ⟨a, b⟩ := ih vis h
      simp [slots, flag_slots, hf, a, b, List.replicate_succ]

theorem edges_targets_lt (graph : graph_t) (hin : in_range graph) (F : List Nat) :
    ∀ e ∈ edges graph F, e.2 < graph.length := by
  intro e he
  have := (mem_edges.1 he).2
  exact hin _ (mem_getD_graph this) _ this

theorem take_append_drop_take (C l : List Nat) (h : C.length ≤ l.length) :
    ((C ++ l.drop C.length).take l.length).length = l.length ∧
    ((C ++ l.drop C.length).take l.length).take C.length = C := by
  constructor
  · rw [List.length_take, List.length_append, List.length_drop]; omega
  · rw [List.take_take, Nat.min_eq_left h, List.take_left]

theorem laSim_step (graph : graph_t) (hin : in_range graph) (hno : no_sentinel graph)
    (s : la_state) (p : par_state) (h : LaSim graph s p)
    (hfit : fits graph (par_bfs_level graph p).frontier) :
    LaSim graph (la_level graph s) (par_bfs_level graph p) := by
  have hmf : MAX_FRONTIER ≤ MAX_N := by decide
  obtain ⟨hready, hfl, htl, hpl, hvl, hfront, hvis, hdist, _⟩ := h
  rw [la_level_eq graph s hready]
  rw [par_bfs_level_eq] at hfit ⊢
  rw [claimed_ne_sentinel graph hno] at hfit ⊢
  rw [hfront]
  obtain ⟨hc, hr, hm⟩ := sweep_agree graph.length (edges graph p.frontier) s.visited p.visited
    s.dist hvis (edges_targets_lt graph hin p.frontier)
  rw [hc, hr, hdist]
  obtain ⟨hfs, hpdl, hts, hflen, hct, hcf, hroom⟩ := hready
  rw [hfront] at hroom
  simp only at hfit
  generalize hC : claimed p.visited (edges graph p.frontier) = C at *
  obtain ⟨hfit1, hfit2⟩ := hfit
  have hCl : C.length ≤ s.frontier.length := by omega
  obtain ⟨t1, t2⟩ := take_append_drop_take C s.frontier hCl
  have hsl := slots_length (edges graph p.frontier) s.visited
  have hfsl := flag_slots_length (edges graph p.frontier) s.visited
  have hscan : (scan_inplace (p.frontier.map (fun v => (graph.getD v []).length))).1.length
      = s.frontier_size := by
    rw [scan_inplace, scan_from_length, List.length_map, ← hfront, List.length_take]
    omega
  refine ⟨⟨?_, ?_, ?_, ?_, ?_, ?_, ?_⟩, ?_, ?_, ?_, ?_, ?_, ?_, ?_, ?_⟩
  · simp only; rw [t1]; exact hCl
  · simp only; rw [List.length_append, hscan, List.length_drop]; omega
  · simp only; rw [List.length_append, hsl, List.length_replicate]; omega
  · simp only
    rw [List.length_append, List.length_append, hsl, hfsl, List.length_replicate,
      List.length_replicate]
  · simp only
    rw [← hsl, List.drop_left, List.length_append, List.length_replicate, hsl]
    congr 1
    omega
  · simp only
    rw [← hfsl, List.drop_left, List.length_append, List.length_replicate, hfsl]
    congr 1
    omega
  · simp only
    rw [t2, edges_length, List.length_append, hsl, List.length_replicate]
    omega
  · simp only; rw [t1]; exact hfl
  · simp only; rw [List.length_append, hsl, List.length_replicate]; omega
  · simp only; rw [List.length_append, hscan, List.length_drop]; omega
  · simp only; rw [mark_length]; exact hvl
  · simp only; exact t2
  · simp only; exact hm
  · rfl
  · simp only
    intro h0
    have hC0 : C = [] := List.length_eq_zero.1 h0
    have hcl : claimed s.visited (edges graph p.frontier) = [] := by rw [hc, hC0]
    obtain ⟨a, b⟩ := slots_of_no_claim (edges graph p.frontier) s.visited hcl
    rw [a, b, List.append_replicate_replicate, List.append_replicate_replicate]
    have : (edges graph p.frontier).length
        + (s.tmp_frontier.length - (edges graph p.frontier).length) = MAX_TMP_FRONTIER := by
      omega
    rw [this]
    exact ⟨rfl, rfl⟩

theorem capacity_facts : 1 ≤ MAX_FRONTIER ∧ 1 ≤ MAX_N ∧ MAX_N < NO_NODE := by
  unfold MAX_FRONTIER MAX_N NO_NODE
  omega

theorem parallel_for_reset (n : Nat) (vis : List Bool) (h : n ≤ vis.length) :
    parallel_for 0 n (fun i w => w.set i false) vis
      = List.replicate n false ++ vis.drop n := by
  rw [parallel_for, Nat.sub_zero, ← List.range_eq_range']
  exact fold_set_range false n vis h

theorem laSim_init (graph : graph_t) (start : Nat) (d0 : List Nat) (b : static_buffers)
    (hb : CleanBuffers b) (hs : start < graph.length) (hN : graph.length ≤ MAX_N)
    (hfit : fits graph [start]) :
    LaSim graph (la_init graph start d0 b) (par_bfs_init graph start d0) := by
  obtain ⟨c1, c2, c3⟩ := capacity_facts
  obtain ⟨b1, b2, b3, b4, b5⟩ := hb
  have hfr : (b.frontier.set 0 start).take 1 = [start] := by
    cases hfr : b.frontier with
    | nil => rw [hfr] at b1; simp at b1; omega
    | cons a rest => simp
  have hreset := parallel_for_reset graph.length b.visited (by omega)
  refine ⟨⟨?_, ?_, ?_, ?_, ?_, ?_, ?_⟩, ?_, ?_, ?_, ?_, ?_, ?_, ?_, ?_⟩
  · simp only [la_init, List.length_set]; omega
  · simp only [la_init]; omega
  · simp only [la_init]; omega
  · simp only [la_init, b2, b3, List.length_replicate]
  · simp only [la_init, b2, List.drop_zero, List.length_replicate, Nat.sub_zero]
  · simp only [la_init, b3, List.drop_zero, List.length_replicate, Nat.sub_zero]
  · simp only [la_init, hfr, b2, List.length_replicate, edges_length]
    exact hfit.2
  · simp only [la_init, List.length_set]; exact b1
  · simp only [la_init, b2, List.length_replicate]
  · simp only [la_init]; exact b4
  · simp only [la_init, List.length_set, hreset, List.length_append, List.length_replicate,
      List.length_drop]
    omega
  · simp only [la_init, par_bfs_init]; exact hfr
  · intro u hu
    simp only [la_init, par_bfs_init, hreset]
    rw [List.getElem?_set, List.getElem?_set]
    by_cases hsu : start = u
    · subst hsu
      simp only [if_true, List.length_append, List.length_replicate, List.length_drop]
      rw [if_pos (by omega), if_pos (by omega)]
    · simp only [hsu, if_false]
      rw [List.getElem?_append_left (by rw [List.length_replicate]; exact hu)]
  · rfl
  · simp [la_init]

theorem la_loop_sim (graph : graph_t) (hin : in_range graph) (hno : no_sentinel graph) :
    ∀ (fuel : Nat) (s : la_state) (p : par_state), LaSim graph s p →
      (∀ j, fits graph ((par_bfs_level graph)^[j] p).frontier) →
      ∀ r, par_bfs_loop graph fuel p = some r →
        ∃ s', la_loop graph fuel s = some s' ∧ LaSim graph s' r ∧ s'.frontier_size = 0 := by
  intro fuel
  induction fuel with
  | zero => intro s p _ _ r h; simp [par_bfs_loop] at h
  | succ f ih =>
    intro s p hsim hfit r hr
    have hlen : s.frontier_size = p.frontier.length := by
      rw [← hsim.front, List.length_take]
      have := hsim.ready.fs_le
      omega
    cases hF : p.frontier with
    | nil =>
      simp only [par_bfs_loop, hF, Option.some.injEq] at hr
      subst hr
      have h0 : s.frontier_size = 0 := by rw [hlen, hF]; rfl
      exact ⟨s, by simp [la_loop, h0], hsim, h0⟩
    | cons v F =>
      simp only [par_bfs_loop, hF] at hr
      have h0 : s.frontier_size ≠ 0 := by rw [hlen, hF]; simp
      have hstep := laSim_step graph hin hno s p hsim (hfit 1)
      obtain ⟨s', h1, h2, h3⟩ := ih (la_level graph s) (par_bfs_level graph p) hstep
        (fun j => by
          have := hfit (j + 1)
          rw [Function.iterate_succ_apply] at this
          exact this) r hr
      exact ⟨s', by simp [la_loop, h0, h1], h2, h3⟩

theorem no_sentinel_of_small (graph : graph_t) (hin : in_range graph)
    (hN : graph.length ≤ MAX_N) : no_sentinel graph := by
  obtain ⟨_, _, c3⟩ := capacity_facts
  intro l hl hc
  have := hin l hl _ hc
  omega

theorem fits_all (graph : graph_t) (start : Nat) (d0 : List Nat) (hs : start < graph.length)
    (hcap : ∀ D, D ≤ graph.length → fits graph (par_bfs_at graph start d0 D).frontier) :
    ∀ D, fits graph (par_bfs_at graph start d0 D).frontier := by
  intro D
  by_cases hD : D ≤ graph.length
  · exact hcap D hD
  · obtain ⟨D0, hD0, hF, _⟩ := par_bfs_run_some graph start d0 hs (graph.length + 1) (by omega)
    have := (par_bfs_at_stable graph start d0 D0 hF (D - D0)).1
    rw [show D0 + (D - D0) = D by omega] at this
    rw [this]
    exact ⟨Nat.zero_le _, Nat.zero_le _⟩

/-- A call of `par_bfs_less_allocations` that starts with clean static buffers and
stays within the capacities returns the distance table of `par_bfs` and leaves the
static buffers clean. -/
theorem la_run_eq (graph : graph_t) (start : Nat) (d0 : List Nat) (b : static_buffers)
    (hb : CleanBuffers b) (hin : in_range graph) (hs : start < graph.length)
    (hN : graph.length ≤ MAX_N)
    (hcap : ∀ D, D ≤ graph.length → fits graph (par_bfs_at graph start d0 D).frontier)
    (fuel : Nat) (hf : graph.length < fuel) :
    ∃ d b', par_bfs fuel graph start d0 = some d ∧
      par_bfs_less_allocations fuel graph start d0 b = some (d, b') ∧ CleanBuffers b' := by
  have hno := no_sentinel_of_small graph hin hN
  have hall := fits_all graph start d0 hs hcap
  obtain ⟨D, _, _, hrun⟩ := par_bfs_run_some graph start d0 hs fuel hf
  have hinit := laSim_init graph start d0 b hb hs hN (hall 0)
  obtain ⟨s', h1, h2, h3⟩ := la_loop_sim graph hin hno fuel _ _ hinit
    (fun j => by rw [← par_bfs_at_iterate]; exact hall j) _ hrun
  refine ⟨(par_bfs_at graph start d0 D).dist, la_buffers s', by simp [par_bfs, hrun], ?_, ?_⟩
  · simp [par_bfs_less_allocations, h1, h2.dist]
  · obtain ⟨a, b⟩ := h2.done_clean h3
    exact ⟨h2.frontier_len, a, b, h2.pref_deg_len, h2.visited_len⟩

theorem static_init_clean : CleanBuffers static_init :=
  ⟨List.length_replicate _ _, rfl, rfl, List.length_replicate _ _, List.length_replicate _ _⟩

/-- C4: for a graph with in-range neighbour identifiers, an in-range source and an
initial distance table such that `graph.size() <= MAX_N`, every level's frontier has
at most `MAX_FRONTIER` nodes and every level's sum of out-degrees is at most
`MAX_TMP_FRONTIER`, `par_bfs_less_allocations` started with its static buffers in
their initial state and `par_bfs` both return and produce identical distance
tables. -/
theorem par_bfs_less_allocations_eq_par_bfs (graph : graph_t) (start : Nat) (d0 : List Nat)
    (hin : in_range graph) (hs : start < graph.length) (_hd : d0.length = graph.length)
    (hN : graph.length ≤ MAX_N)
    (hcap : ∀ D, D ≤ graph.length → fits graph (par_bfs_at graph start d0 D).frontier)
    (fuel : Nat) (hf : graph.length < fuel) :
    ∃ d b', par_bfs_less_allocations fuel graph start d0 static_init = some (d, b') ∧
      par_bfs fuel graph start d0 = some d := by
  obtain ⟨d, b', h1, h2, _⟩ := la_run_eq graph start d0 static_init static_init_clean hin hs hN
    hcap fuel hf
  exact ⟨d, b', h2, h1⟩

theorem par_bfs_less_allocations_eq_par_bfs_witness :
    in_range sample_graph ∧ 0 < sample_graph.length ∧
    sample_dist.length = sample_graph.length ∧ sample_graph.length ≤ MAX_N ∧
    (∀ D, D ≤ sample_graph.length →
      fits sample_graph (par_bfs_at sample_graph 0 sample_dist D).frontier) ∧
    sample_graph.length < 7 ∧
    ∃ d b', par_bfs_less_allocations 7 sample_graph 0 sample_dist static_init = some (d, b') ∧
      par_bfs 7 sample_graph 0 sample_dist = some d :=
  ⟨by decide, by decide, by decide, by decide, by decide, by decide,
    par_bfs_less_allocations_eq_par_bfs sample_graph 0 sample_dist (by decide) (by decide)
      (by decide) (by decide) (by decide) 7 (by decide)⟩

/-- C5: two calls of `par_bfs_less_allocations` in succession on the same graph and
source, with the distance table reset to the same initial values in between and the
static buffers (`frontier`, `tmp_frontier`, `pref_flags`, `pref_deg`, `visited`) of the
first call carried over to the second, return the same distance table, within the
capacity bounds; the first call may start from the initial static buffers or from
the buffers left by earlier calls within the bounds. -/
theorem par_bfs_less_allocations_rerun (graph : graph_t) (start : Nat) (d0 : List Nat)
    (b0 : static_buffers) (hb : CleanBuffers b0)
    (hin : in_range graph) (hs : start < graph.length) (_hd : d0.length = graph.length)
    (hN : graph.length ≤ MAX_N)
    (hcap : ∀ D, D ≤ graph.length → fits graph (par_bfs_at graph start d0 D).frontier)
    (fuel : Nat) (hf : graph.length < fuel) :
    ∃ d b1 b2, par_bfs_less_allocations fuel graph start d0 b0 = some (d, b1) ∧
      par_bfs_less_allocations fuel graph start d0 b1 = some (d, b2) ∧ CleanBuffers b2 := by
  obtain ⟨d, b1, h1, h2, hc1⟩ := la_run_eq graph start d0 b0 hb hin hs hN hcap fuel hf
  obtain ⟨d', b2, h1', h2', hc2⟩ := la_run_eq graph start d0 b1 hc1 hin hs hN hcap fuel hf
  have : d' = d := by rw [h1] at h1'; exact (Option.some.inj h1').symm
  subst this
  exact ⟨d', b1, b2, h2, h2', hc2⟩

theorem par_bfs_less_allocations_rerun_witness :
    CleanBuffers static_init ∧
    in_range sample_graph ∧ 0 < sample_graph.length ∧
    sample_dist.length = sample_graph.length ∧ sample_graph.length ≤ MAX_N ∧
    (∀ D, D ≤ sample_graph.length →
      fits sample_graph (par_bfs_at sample_graph 0 sample_dist D).frontier) ∧
    sample_graph.length < 7 ∧
    ∃ d b1 b2,
      par_bfs_less_allocations 7 sample_graph 0 sample_dist static_init = some (d, b1) ∧
      par_bfs_less_allocations 7 sample_graph 0 sample_dist b1 = some (d, b2) ∧
      CleanBuffers b2 :=
  ⟨static_init_clean, by decide, by decide, by decide, by decide, by decide, by decide,
    par_bfs_less_allocations_rerun sample_graph 0 sample_dist static_init static_init_clean
      (by decide) (by decide) (by decide) (by decide) (by decide) 7 (by decide)⟩

/-! ## The grid graph -/

theorem foldl_flatMap_eq {α β γ : Type} (f : α → List β) (g : γ → β → γ) :
    ∀ (l : List α) (b : γ),
      (l.flatMap f).foldl g b = l.foldl (fun acc a => (f a).foldl g acc) b := by
  intro l
  induction l with
  | nil => intro b; rfl
  | cons a l ih => intro b; simp [List.flatMap_cons, List.foldl_append, ih]

theorem cube_visit_fold (n x y z : Nat) : ∀ (l : List (Int × Int × Int)) (g : graph_t),
    l.foldl (cube_visit n x y z) g =
      (((l.filter (cube_admits n x y z)).map (fun t =>
        (from_coordinates n x y z,
          from_coordinates n (u32 (x + t.1)) (u32 (y + t.2.1)) (u32 (z + t.2.2))))).foldl
        (fun g op => push_back_at g op.1 op.2) g) := by
  intro l
  induction l with
  | nil => intro g; rfl
  | cons t l ih =>
    intro g
    by_cases h : cube_admits n x y z t = true
    · simp [List.foldl_cons, cube_visit, h, ih, List.filter_cons]
    · simp [List.foldl_cons, cube_visit, h, ih, List.filter_cons]

theorem cube_graph_eq_fold (n : Nat) :
    cube_graph n =
      (cube_ops n).foldl (fun g op => push_back_at g op.1 op.2)
        (List.replicate (((n + 1) * (n + 1) * (n + 1)) % 18446744073709551616) []) := by
  simp only [cube_graph, cube_ops, for_loop, foldl_flatMap_eq, point_ops, cube_visit_fold]

theorem push_back_at_length (g : graph_t) (k u : Nat) : (push_back_at g k u).length = g.length := by
  simp [push_back_at]

theorem push_fold_length (ops : List (Nat × Nat)) : ∀ (g : graph_t),
    (ops.foldl (fun g op => push_back_at g op.1 op.2) g).length = g.length := by
  induction ops with
  | nil => intro g; rfl
  | cons op ops ih => intro g; rw [List.foldl_cons, ih, push_back_at_length]

theorem mem_push_back_at (g : graph_t) (k u : Nat) (hk : k < g.length) (j v : Nat) :
    v ∈ (push_back_at g k u).getD j [] ↔ v ∈ g.getD j [] ∨ (j = k ∧ v = u) := by
  simp only [push_back_at, List.getD_eq_getElem?_getD, List.getElem?_set]
  by_cases h : k = j
  · subst h
    simp [hk]
  · have h2 : ¬ j = k := fun hc => h hc.symm
    simp [h, h2]

theorem mem_push_fold (ops : List (Nat × Nat)) : ∀ (g : graph_t) (j v : Nat),
    (∀ op ∈ ops, op.1 < g.length) →
    (v ∈ (ops.foldl (fun g op => push_back_at g op.1 op.2) g).getD j [] ↔
      v ∈ g.getD j [] ∨ (j, v) ∈ ops) := by
  induction ops with
  | nil => intro g j v _; simp
  | cons op ops ih =>
    intro g j v h
    have h1 : op.1 < g.length := h op (List.mem_cons_self _ _)
    rw [List.foldl_cons, ih _ j v (by
      intro op' hop'
      rw [push_back_at_length]
      exact h op' (List.mem_cons_of_mem _ hop')), mem_push_back_at g op.1 op.2 h1]
    obtain ⟨a, b⟩ := op
    simp only [List.mem_cons, Prod.mk.injEq]
    tauto

theorem cube_size_facts (n : Nat) (hn : (n + 1) ^ 3 < 2 ^ 32) :
    (n + 1) * (n + 1) * (n + 1) < 4294967296 ∧ n < 4294967295 := by
  have h1 : (n + 1) ^ 3 = (n + 1) * (n + 1) * (n + 1) := by ring
  have h2 : n + 1 ≤ (n + 1) ^ 3 := Nat.le_self_pow (by omega) _
  norm_num at hn
  omega

theorem grid_bound (n x y z : Nat) (hx : x ≤ n) (hy : y ≤ n) (hz : z ≤ n) :
    (n + 1) * (n + 1) * x + (n + 1) * y + z < (n + 1) * (n + 1) * (n + 1) := by
  have h1 : (n + 1) * (n + 1) * x ≤ (n + 1) * (n + 1) * n := Nat.mul_le_mul_left _ hx
  have h2 : (n + 1) * y ≤ (n + 1) * n := Nat.mul_le_mul_left _ hy
  have h3 : (n + 1) * (n + 1) * (n + 1) = (n + 1) * (n + 1) * n + (n + 1) * n + n + 1 := by ring
  omega

theorem from_coordinates_eq (n x y z : Nat) (hn : (n + 1) ^ 3 < 2 ^ 32)
    (hx : x ≤ n) (hy : y ≤ n) (hz : z ≤ n) :
    from_coordinates n x y z = (n + 1) * (n + 1) * x + (n + 1) * y + z := by
  have := grid_bound n x y z hx hy hz
  have := (cube_size_facts n hn).1
  unfold from_coordinates
  exact Nat.mod_eq_of_lt (by omega)

theorem from_coordinates_lt (n x y z : Nat) (hn : (n + 1) ^ 3 < 2 ^ 32)
    (hx : x ≤ n) (hy : y ≤ n) (hz : z ≤ n) :
    from_coordinates n x y z < (n + 1) * (n + 1) * (n + 1) := by
  rw [from_coordinates_eq n x y z hn hx hy hz]
  exact grid_bound n x y z hx hy hz

theorem mul_add_inj (N q r q' r' : Nat) (hr : r < N) (hr' : r' < N)
    (h : N * q + r = N * q' + r') : q = q' ∧ r = r' := by
  have hN : 0 < N := by omega
  have h1 := (Nat.div_mod_unique hN (a := N * q + r) (c := r) (d := q)).2 ⟨by omega, hr⟩
  have h2 := (Nat.div_mod_unique hN (a := N * q + r) (c := r') (d := q')).2 ⟨by omega, hr'⟩
  exact ⟨h1.1.symm.trans h2.1, h1.2.symm.trans h2.2⟩

theorem from_coordinates_inj (n x y z x' y' z' : Nat) (hn : (n + 1) ^ 3 < 2 ^ 32)
    (hx : x ≤ n) (hy : y ≤ n) (hz : z ≤ n) (hx' : x' ≤ n) (hy' : y' ≤ n) (hz' : z' ≤ n)
    (h : from_coordinates n x y z = from_coordinates n x' y' z') :
    x = x' ∧ y = y' ∧ z = z' := by
  rw [from_coordinates_eq n x y z hn hx hy hz, from_coordinates_eq n x' y' z' hn hx' hy' hz'] at h
  have e1 : (n + 1) * (n + 1) * x + (n + 1) * y + z = (n + 1) * ((n + 1) * x + y) + z := by ring
  have e2 : (n + 1) * (n + 1) * x' + (n + 1) * y' + z'
      = (n + 1) * ((n + 1) * x' + y') + z' := by ring
  rw [e1, e2] at h
  obtain ⟨h1, h2⟩ := mul_add_inj (n + 1) _ z _ z' (by omega) (by omega) h
  obtain ⟨h3, h4⟩ := mul_add_inj (n + 1) x y x' y' (by omega) (by omega) h1
  exact ⟨h3, h4, h2⟩

theorem cube_graph_length (n : Nat) (hn : (n + 1) ^ 3 < 2 ^ 32) :
    (cube_graph n).length = (n + 1) * (n + 1) * (n + 1) := by
  have := (cube_size_facts n hn).1
  rw [cube_graph_eq_fold, push_fold_length, List.length_replicate]
  exact Nat.mod_eq_of_lt (by omega)

theorem mem_cube_ops (n : Nat) (k u : Nat) :
    (k, u) ∈ cube_ops n ↔
      ∃ x y z t, x ≤ n ∧ y ≤ n ∧ z ≤ n ∧ t ∈ d ∧ cube_admits n x y z t = true ∧
        k = from_coordinates n x y z ∧
        u = from_coordinates n (u32 (x + t.1)) (u32 (y + t.2.1)) (u32 (z + t.2.2)) := by
  simp only [cube_ops, point_ops, List.mem_flatMap, List.mem_range, List.mem_map,
    List.mem_filter, Prod.mk.injEq]
  constructor
  · rintro ⟨x, hx, y, hy, z, hz, t, ⟨ht, hadm⟩, h1, h2⟩
    exact ⟨x, y, z, t, by omega, by omega, by omega, ht, hadm, h1.symm, h2.symm⟩
  · rintro ⟨x, y, z, t, hx, hy, hz, ht, hadm, h1, h2⟩
    exact ⟨x, by omega, y, by omega, z, by omega, t, ⟨ht, hadm⟩, h1.symm, h2.symm⟩

theorem mem_cube_graph (n : Nat) (hn : (n + 1) ^ 3 < 2 ^ 32) (k v : Nat) :
    v ∈ (cube_graph n).getD k [] ↔ (k, v) ∈ cube_ops n := by
  have hs := (cube_size_facts n hn).1
  rw [cube_graph_eq_fold, mem_push_fold]
  · have : ∀ (m : Nat), (List.replicate m ([] : List Nat)).getD k [] = [] := by
      intro m
      rw [List.getD_eq_getElem?_getD, List.getElem?_replicate]
      by_cases h : k < m <;> simp [h]
    rw [this]
    simp
  · intro op hop
    obtain ⟨a, b⟩ := op
    obtain ⟨x, y, z, t, hx, hy, hz, _, _, h1, _⟩ := (mem_cube_ops n a b).1 hop
    rw [List.length_replicate, Nat.mod_eq_of_lt (by omega)]
    simp only
    rw [h1]
    exact from_coordinates_lt n x y z hn hx hy hz

theorem from_coordinates_carry_z (n x y : Nat) :
    from_coordinates n x y (n + 1) = from_coordinates n x (y + 1) 0 := by
  unfold from_coordinates
  congr 1
  ring

theorem from_coordinates_carry_y (n x : Nat) :
    from_coordinates n x n (n + 1) = from_coordinates n (x + 1) 0 0 := by
  unfold from_coordinates
  congr 1
  ring

/-- Every edge of the grid graph leads to a grid point whose coordinate sum is at most
one more than that of its origin. -/
theorem cube_edge_step (n x y z : Nat) (t : Int × Int × Int) (hn : (n + 1) ^ 3 < 2 ^ 32)
    (hx : x ≤ n) (hy : y ≤ n) (hz : z ≤ n) (ht : t ∈ d)
    (hadm : cube_admits n x y z t = true) :
    ∃ x' y' z', x' ≤ n ∧ y' ≤ n ∧ z' ≤ n ∧
      from_coordinates n (u32 (x + t.1)) (u32 (y + t.2.1)) (u32 (z + t.2.2))
        = from_coordinates n x' y' z' ∧
      x' + y' + z' ≤ x + y + z + 1 := by
  have hnn := (cube_size_facts n hn).2
  simp only [d, List.mem_cons, List.mem_singleton, List.not_mem_nil, or_false] at ht
  simp only [cube_admits, Bool.and_eq_true, bne_iff_ne, ne_eq, decide_eq_true_eq] at hadm
  obtain ⟨⟨⟨⟨⟨a1, a2⟩, a3⟩, a4⟩, a5⟩, a6⟩ := hadm
  rcases ht with rfl | rfl | rfl | rfl | rfl | rfl
  · -- offset (0, 0, 1)
    have e1 : u32 ((x : Int) + 0) = x := by unfold u32; omega
    have e2 : u32 ((y : Int) + 0) = y := by unfold u32; omega
    have e3 : u32 ((z : Int) + 1) = z + 1 := by unfold u32; omega
    have e4 : x + 1 ≤ n := by
      have : u32 ((x : Int) + 1) = x + 1 := by unfold u32; omega
      simp only at a6
      rw [this] at a6
      exact a6
    simp only [e1, e2, e3]
    by_cases hzn : z + 1 ≤ n
    · exact ⟨x, y, z + 1, hx, hy, hzn, rfl, by omega⟩
    · have hz' : z = n := by omega
      rw [hz']
      by_cases hyn : y + 1 ≤ n
      · exact ⟨x, y + 1, 0, hx, hyn, by omega, from_coordinates_carry_z n x y, by omega⟩
      · have hy' : y = n := by omega
        rw [hy']
        exact ⟨x + 1, 0, 0, e4, by omega, by omega, from_coordinates_carry_y n x, by omega⟩
  · -- offset (0, 0, -1)
    have e1 : u32 ((x : Int) + 0) = x := by unfold u32; omega
    have e2 : u32 ((y : Int) + 0) = y := by unfold u32; omega
    have hz1 : 1 ≤ z := by
      simp only [u32] at a5
      omega
    have e3 : u32 ((z : Int) + -1) = z - 1 := by unfold u32; omega
    simp only [e1, e2, e3]
    exact ⟨x, y, z - 1, hx, hy, by omega, rfl, by omega⟩
  · -- offset (0, 1, 0)
    have e1 : u32 ((x : Int) + 0) = x := by unfold u32; omega
    have e2 : u32 ((y : Int) + 1) = y + 1 := by unfold u32; omega
    have e3 : u32 ((z : Int) + 0) = z := by unfold u32; omega
    simp only [e2] at a4
    simp only [e1, e2, e3]
    exact ⟨x, y + 1, z, hx, a4, hz, rfl, by omega⟩
  · -- offset (0, -1, 0)
    have e1 : u32 ((x : Int) + 0) = x := by unfold u32; omega
    have hy1 : 1 ≤ y := by
      simp only [u32] at a3
      omega
    have e2 : u32 ((y : Int) + -1) = y - 1 := by unfold u32; omega
    have e3 : u32 ((z : Int) + 0) = z := by unfold u32; omega
    simp only [e1, e2, e3]
    exact ⟨x, y - 1, z, hx, by omega, hz, rfl, by omega⟩
  · -- offset (1, 0, 0)
    have e1 : u32 ((x : Int) + 1) = x + 1 := by unfold u32; omega
    have e2 : u32 ((y : Int) + 0) = y := by unfold u32; omega
    have e3 : u32 ((z : Int) + 0) = z := by unfold u32; omega
    simp only [e1] at a2
    simp only [e1, e2, e3]
    exact ⟨x + 1, y, z, a2, hy, hz, rfl, by omega⟩
  · -- offset (-1, 0, 0)
    have hx1 : 1 ≤ x := by
      simp only [u32] at a1
      omega
    have e1 : u32 ((x : Int) + -1) = x - 1 := by unfold u32; omega
    have e2 : u32 ((y : Int) + 0) = y := by unfold u32; omega
    have e3 : u32 ((z : Int) + 0) = z := by unfold u32; omega
    simp only [e1, e2, e3]
    exact ⟨x - 1, y, z, by omega, hy, hz, rfl, by omega⟩

theorem cube_edge_target (n : Nat) (hn : (n + 1) ^ 3 < 2 ^ 32) (k u : Nat)
    (h : u ∈ (cube_graph n).getD k []) :
    ∃ x y z x' y' z', x ≤ n ∧ y ≤ n ∧ z ≤ n ∧ x' ≤ n ∧ y' ≤ n ∧ z' ≤ n ∧
      k = from_coordinates n x y z ∧ u = from_coordinates n x' y' z' ∧
      x' + y' + z' ≤ x + y + z + 1 := by
  obtain ⟨x, y, z, t, hx, hy, hz, ht, hadm, hk, hu⟩ :=
    (mem_cube_ops n k u).1 ((mem_cube_graph n hn k u).1 h)
  obtain ⟨x', y', z', hx', hy', hz', he, hs⟩ := cube_edge_step n x y z t hn hx hy hz ht hadm
  exact ⟨x, y, z, x', y', z', hx, hy, hz, hx', hy', hz', hk, hu.trans he, hs⟩

theorem cube_graph_in_range (n : Nat) (hn : (n + 1) ^ 3 < 2 ^ 32) : in_range (cube_graph n) := by
  intro l hl u hu
  obtain ⟨k, hk⟩ := List.mem_iff_getElem?.1 hl
  have hg : (cube_graph n).getD k [] = l := by
    rw [List.getD_eq_getElem?_getD, hk]; rfl
  rw [← hg] at hu
  obtain ⟨_, _, _, x', y', z', _, _, _, hx', hy', hz', _, hu', _⟩ := cube_edge_target n hn k u hu
  rw [cube_graph_length n hn, hu']
  exact from_coordinates_lt n x' y' z' hn hx' hy' hz'

theorem cube_graph_no_sentinel (n : Nat) (hn : (n + 1) ^ 3 < 2 ^ 32) :
    no_sentinel (cube_graph n) := by
  intro l hl hc
  have h1 := cube_graph_in_range n hn l hl _ hc
  rw [cube_graph_length n hn] at h1
  have h2 := (cube_size_facts n hn).1
  unfold NO_NODE at h1
  omega

theorem cube_walk_sum (n : Nat) (hn : (n + 1) ^ 3 < 2 ^ 32) (u j : Nat)
    (h : Walk (cube_graph n) (from_coordinates n 0 0 0) u j) :
    ∃ x y z, x ≤ n ∧ y ≤ n ∧ z ≤ n ∧ u = from_coordinates n x y z ∧ x + y + z ≤ j := by
  induction h with
  | nil => exact ⟨0, 0, 0, by omega, by omega, by omega, rfl, by omega⟩
  | snoc _ he ih =>
    obtain ⟨x0, y0, z0, hx0, hy0, hz0, hv, hs0⟩ := ih
    obtain ⟨x, y, z, x', y', z', hx, hy, hz, hx', hy', hz', hk, hu, hs⟩ :=
      cube_edge_target n hn _ _ he
    rw [hv] at hk
    obtain ⟨e1, e2, e3⟩ := from_coordinates_inj n x0 y0 z0 x y z hn hx0 hy0 hz0 hx hy hz hk
    exact ⟨x', y', z', hx', hy', hz', hu, by omega⟩

theorem cube_edge_of_offset (n x y z : Nat) (t : Int × Int × Int)
    (hn : (n + 1) ^ 3 < 2 ^ 32) (hx : x ≤ n) (hy : y ≤ n) (hz : z ≤ n) (ht : t ∈ d)
    (hadm : cube_admits n x y z t = true) :
    from_coordinates n (u32 (x + t.1)) (u32 (y + t.2.1)) (u32 (z + t.2.2))
      ∈ (cube_graph n).getD (from_coordinates n x y z) [] :=
  (mem_cube_graph n hn _ _).2
    ((mem_cube_ops n _ _).2 ⟨x, y, z, t, hx, hy, hz, ht, hadm, rfl, rfl⟩)

theorem cube_edge_z (n z : Nat) (hn : (n + 1) ^ 3 < 2 ^ 32) (hz : z + 1 ≤ n) :
    from_coordinates n 0 0 (z + 1) ∈ (cube_graph n).getD (from_coordinates n 0 0 z) [] := by
  have hnn := (cube_size_facts n hn).2
  have h := cube_edge_of_offset n 0 0 z (0, 0, 1) hn (by omega) (by omega) (by omega)
    (by simp [d])
    (by
      simp only [cube_admits, Bool.and_eq_true, bne_iff_ne, ne_eq, decide_eq_true_eq, u32]
      refine ⟨⟨⟨⟨⟨?_, ?_⟩, ?_⟩, ?_⟩, ?_⟩, ?_⟩ <;> omega)
  have e1 : u32 (((0 : Nat) : Int) + 0) = 0 := by unfold u32; omega
  have e3 : u32 ((z : Int) + 1) = z + 1 := by unfold u32; omega
  simp only [e1, e3] at h
  exact h

theorem cube_edge_y (n y z : Nat) (hn : (n + 1) ^ 3 < 2 ^ 32) (hy : y + 1 ≤ n) (hz : z ≤ n) :
    from_coordinates n 0 (y + 1) z ∈ (cube_graph n).getD (from_coordinates n 0 y z) [] := by
  have hnn := (cube_size_facts n hn).2
  have h := cube_edge_of_offset n 0 y z (0, 1, 0) hn (by omega) (by omega) (by omega)
    (by simp [d])
    (by
      simp only [cube_admits, Bool.and_eq_true, bne_iff_ne, ne_eq, decide_eq_true_eq, u32]
      refine ⟨⟨⟨⟨⟨?_, ?_⟩, ?_⟩, ?_⟩, ?_⟩, ?_⟩ <;> omega)
  have e1 : u32 (((0 : Nat) : Int) + 0) = 0 := by unfold u32; omega
  have e2 : u32 ((y : Int) + 1) = y + 1 := by unfold u32; omega
  have e3 : u32 ((z : Int) + 0) = z := by unfold u32; omega
  simp only [e1, e2, e3] at h
  exact h

theorem cube_edge_x (n x y z : Nat) (hn : (n + 1) ^ 3 < 2 ^ 32) (hx : x + 1 ≤ n) (hy : y ≤ n)
    (hz : z ≤ n) :
    from_coordinates n (x + 1) y z ∈ (cube_graph n).getD (from_coordinates n x y z) [] := by
  have hnn := (cube_size_facts n hn).2
  have h := cube_edge_of_offset n x y z (1, 0, 0) hn (by omega) (by omega) (by omega)
    (by simp [d])
    (by
      simp only [cube_admits, Bool.and_eq_true, bne_iff_ne, ne_eq, decide_eq_true_eq, u32]
      refine ⟨⟨⟨⟨⟨?_, ?_⟩, ?_⟩, ?_⟩, ?_⟩, ?_⟩ <;> omega)
  have e1 : u32 ((x : Int) + 1) = x + 1 := by unfold u32; omega
  have e2 : u32 ((y : Int) + 0) = y := by unfold u32; omega
  have e3 : u32 ((z : Int) + 0) = z := by unfold u32; omega
  simp only [e1, e2, e3] at h
  exact h

theorem cube_walk_to (n : Nat) (hn : (n + 1) ^ 3 < 2 ^ 32) (x y z : Nat)
    (hx : x ≤ n) (hy : y ≤ n) (hz : z ≤ n) :
    Walk (cube_graph n) (from_coordinates n 0 0 0) (from_coordinates n x y z) (x + y + z) := by
  have wz : ∀ c, c ≤ n →
      Walk (cube_graph n) (from_coordinates n 0 0 0) (from_coordinates n 0 0 c) c := by
    intro c
    induction c with
    | zero => intro _; exact Walk.nil
    | succ c ih => intro hc; exact Walk.snoc (ih (by omega)) (cube_edge_z n c hn hc)
  have wy : ∀ b, b ≤ n →
      Walk (cube_graph n) (from_coordinates n 0 0 0) (from_coordinates n 0 b z) (z + b) := by
    intro b
    induction b with
    | zero => intro _; exact wz z hz
    | succ b ih => intro hb; exact Walk.snoc (ih (by omega)) (cube_edge_y n b z hn hb hz)
  have wx : ∀ a, a ≤ n →
      Walk (cube_graph n) (from_coordinates n 0 0 0) (from_coordinates n a y z) (z + y + a) := by
    intro a
    induction a with
    | zero => intro _; exact wy y hy
    | succ a ih => intro ha; exact Walk.snoc (ih (by omega)) (cube_edge_x n a y z hn ha hy hz)
  have := wx x hx
  rw [show z + y + x = x + y + z by omega] at this
  exact this

/-- In the grid graph the point `(x, y, z)` is at distance `x + y + z` from the origin. -/
theorem cube_distance (n : Nat) (hn : (n + 1) ^ 3 < 2 ^ 32) (x y z : Nat)
    (hx : x ≤ n) (hy : y ≤ n) (hz : z ≤ n) :
    is_distance (cube_graph n) (from_coordinates n 0 0 0) (from_coordinates n x y z)
      (x + y + z) := by
  refine ⟨cube_walk_to n hn x y z hx hy hz, ?_⟩
  intro j hj
  obtain ⟨x', y', z', hx', hy', hz', he, hs⟩ := cube_walk_sum n hn _ j hj
  obtain ⟨e1, e2, e3⟩ := from_coordinates_inj n x y z x' y' z' hn hx hy hz hx' hy' hz' he
  omega

theorem validate_of_distances (n : Nat) (dist : List Nat)
    (h : ∀ x y z, x ≤ n → y ≤ n → z ≤ n →
      dist[from_coordinates n x y z]? = some (x + y + z)) :
    validate dist n = true := by
  simp only [validate, List.all_eq_true, List.mem_range, beq_iff_eq]
  intro x hx y hy z hz
  rw [List.getD_eq_getElem?_getD, h x y z (by omega) (by omega) (by omega)]
  rfl

/-- C3: for every `n` with `(n+1)^3 < 2^32`, `par_bfs` and `seq_bfs` run on
`cube_graph(n)` from `from_coordinates(n,0,0,0)` with a distance table of length
`(n+1)^3` return the same table, in which `dist[from_coordinates(n,x,y,z)] = x+y+z`
for all `0 <= x,y,z <= n`, so that `validate(dist, n)` returns `true`. -/
theorem bfs_cube_graph_distances (n : Nat) (hn : (n + 1) ^ 3 < 2 ^ 32) (d0 : List Nat)
    (hd : d0.length = (n + 1) ^ 3) (fuel fuel' : Nat)
    (hf : (n + 1) ^ 3 < fuel) (hf' : (n + 1) ^ 3 < fuel') :
    ∃ dist, par_bfs fuel (cube_graph n) (from_coordinates n 0 0 0) d0 = some dist ∧
      seq_bfs fuel' (cube_graph n) (from_coordinates n 0 0 0) d0 = some dist ∧
      (∀ x y z, x ≤ n → y ≤ n → z ≤ n →
        dist[from_coordinates n x y z]? = some (x + y + z)) ∧
      validate dist n = true := by
  have hlen : (cube_graph n).length = (n + 1) ^ 3 := by
    rw [cube_graph_length n hn]; ring
  have hs : from_coordinates n 0 0 0 < (cube_graph n).length := by
    rw [cube_graph_length n hn]
    exact from_coordinates_lt n 0 0 0 hn (by omega) (by omega) (by omega)
  have hin := cube_graph_in_range n hn
  have hno := cube_graph_no_sentinel n hn
  obtain ⟨D, _, hF, hrun⟩ := par_bfs_run_some (cube_graph n) (from_coordinates n 0 0 0) d0 hs
    fuel (by rw [hlen]; exact hf)
  have hseq := seq_bfs_eq_par_bfs_at (cube_graph n) (from_coordinates n 0 0 0) d0 hno hs
    fuel fuel' (by rw [hlen]; exact hf') D hrun
  have h4 : ∀ x y z, x ≤ n → y ≤ n → z ≤ n →
      (par_bfs_at (cube_graph n) (from_coordinates n 0 0 0) d0 D).dist[from_coordinates n x y z]?
        = some (x + y + z) :=
    fun x y z hx hy hz =>
      par_bfs_final_dist (cube_graph n) (from_coordinates n 0 0 0) d0 hin hno hs
        (by rw [hlen]; exact hd) D hF _ _ (cube_distance n hn x y z hx hy hz)
  exact ⟨_, by simp [par_bfs, hrun], hseq, h4, validate_of_distances n _ h4⟩

theorem bfs_cube_graph_distances_witness :
    (2 + 1) ^ 3 < 2 ^ 32 ∧ (List.replicate 27 0).length = (2 + 1) ^ 3 ∧ (2 + 1) ^ 3 < 28 ∧
    ∃ dist, par_bfs 28 (cube_graph 2) (from_coordinates 2 0 0 0) (List.replicate 27 0)
        = some dist ∧
      seq_bfs 28 (cube_graph 2) (from_coordinates 2 0 0 0) (List.replicate 27 0) = some dist ∧
      validate dist 2 = true ∧
      dist[from_coordinates 2 2 2 2]? = some 6 ∧
      dist[from_coordinates 2 0 0 1]? = some 1 ∧
      dist[from_coordinates 2 1 1 1]? = some 3 := by
  refine ⟨by decide, by decide, by decide, ?_⟩
  obtain ⟨dist, h1, h2, h3, h4⟩ := bfs_cube_graph_distances 2 (by decide) (List.replicate 27 0)
    (by decide) 28 28 (by decide) (by decide)
  exact ⟨dist, h1, h2, h4, h3 2 2 2 (by decide) (by decide) (by decide),
    h3 0 0 1 (by decide) (by decide) (by decide), h3 1 1 1 (by decide) (by decide) (by decide)⟩

/-! ## The claims about the grid graph and its node identifiers -/

theorem cube_le_imp_lt (n : Nat) (h : (n + 1) ^ 3 ≤ 2 ^ 32) : (n + 1) ^ 3 < 2 ^ 32 := by
  by_cases hn : n + 1 ≤ 1625
  · have h1 : (n + 1) ^ 3 ≤ 1625 ^ 3 := Nat.pow_le_pow_left hn 3
    have h2 : (1625 : Nat) ^ 3 < 2 ^ 32 := by norm_num
    omega
  · have h1 : (1626 : Nat) ^ 3 ≤ (n + 1) ^ 3 := Nat.pow_le_pow_left (by omega) 3
    have h2 : (2 : Nat) ^ 32 < 1626 ^ 3 := by norm_num
    omega

theorem from_coordinates_onto (n k : Nat) (hn : (n + 1) ^ 3 < 2 ^ 32)
    (hk : k < (n + 1) ^ 3) :
    ∃ x y z, x ≤ n ∧ y ≤ n ∧ z ≤ n ∧ from_coordinates n x y z = k := by
  have hN : 0 < n + 1 := by omega
  have h3 : (n + 1) ^ 3 = (n + 1) * ((n + 1) * (n + 1)) := by ring
  have hz : k % (n + 1) < n + 1 := Nat.mod_lt _ hN
  have hy : k / (n + 1) % (n + 1) < n + 1 := Nat.mod_lt _ hN
  have hq : k / (n + 1) < (n + 1) * (n + 1) := by
    rw [Nat.div_lt_iff_lt_mul hN]
    rw [h3] at hk
    rw [Nat.mul_comm]
    exact hk
  have hx : k / (n + 1) / (n + 1) < n + 1 := by
    rw [Nat.div_lt_iff_lt_mul hN]
    exact hq
  refine ⟨k / (n + 1) / (n + 1), k / (n + 1) % (n + 1), k % (n + 1),
    by omega, by omega, by omega, ?_⟩
  rw [from_coordinates_eq n _ _ _ hn (by omega) (by omega) (by omega)]
  have e1 := Nat.div_add_mod k (n + 1)
  have e2 := Nat.div_add_mod (k / (n + 1)) (n + 1)
  calc (n + 1) * (n + 1) * (k / (n + 1) / (n + 1)) + (n + 1) * (k / (n + 1) % (n + 1))
        + k % (n + 1)
      = (n + 1) * ((n + 1) * (k / (n + 1) / (n + 1)) + k / (n + 1) % (n + 1))
        + k % (n + 1) := by ring
    _ = k := by rw [e2, e1]

theorem cube_word_facts (n x y : Nat) (hn : (n + 1) ^ 3 < 2 ^ 32) (hx : x ≤ n) (hy : y ≤ n) :
    (n + 1) * (n + 1) < 4294967296 ∧ (n + 1) * (n + 1) * x < 4294967296 ∧
      (n + 1) * y < 4294967296 ∧
      (n + 1) * (n + 1) * x + (n + 1) * y < 4294967296 := by
  have h0 := (cube_size_facts n hn).1
  have h1 := grid_bound n x y 0 hx hy (Nat.zero_le _)
  have h2 : (n + 1) * (n + 1) * 1 ≤ (n + 1) * (n + 1) * (n + 1) :=
    Nat.mul_le_mul_left _ (by omega)
  have h3 : 0 ≤ (n + 1) * (n + 1) * x := Nat.zero_le _
  have h4 : 0 ≤ (n + 1) * y := Nat.zero_le _
  omega

/-- C13: for every `n` with `(n+1)^3 <= 2^32` and all `0 <= x,y,z <= n`, no step of the
32-bit computation of `from_coordinates(n,x,y,z)` overflows, the result is
`(n+1)^2*x + (n+1)*y + z`, it lies in `[0, (n+1)^3)`, distinct grid points get distinct
identifiers, and every identifier below `(n+1)^3` is the identifier of a grid point. -/
theorem from_coordinates_bijection (n : Nat) (hn : (n + 1) ^ 3 ≤ 2 ^ 32) :
    (∀ x y z, x ≤ n → y ≤ n → z ≤ n →
      n + 1 < 2 ^ 32 ∧ (n + 1) * (n + 1) < 2 ^ 32 ∧ (n + 1) * (n + 1) * x < 2 ^ 32 ∧
      (n + 1) * y < 2 ^ 32 ∧ (n + 1) * (n + 1) * x + (n + 1) * y < 2 ^ 32 ∧
      (n + 1) * (n + 1) * x + (n + 1) * y + z < 2 ^ 32 ∧
      from_coordinates n x y z = (n + 1) ^ 2 * x + (n + 1) * y + z ∧
      from_coordinates n x y z < (n + 1) ^ 3) ∧
    (∀ x y z x' y' z', x ≤ n → y ≤ n → z ≤ n → x' ≤ n → y' ≤ n → z' ≤ n →
      from_coordinates n x y z = from_coordinates n x' y' z' → x = x' ∧ y = y' ∧ z = z') ∧
    (∀ k, k < (n + 1) ^ 3 →
      ∃ x y z, x ≤ n ∧ y ≤ n ∧ z ≤ n ∧ from_coordinates n x y z = k) := by
  have hlt := cube_le_imp_lt n hn
  refine ⟨?_, ?_, ?_⟩
  · intro x y z hx hy hz
    obtain ⟨w1, w2, w3, w4⟩ := cube_word_facts n x y hlt hx hy
    have h0 := cube_size_facts n hlt
    have h1 := grid_bound n x y z hx hy hz
    have h2 := from_coordinates_eq n x y z hlt hx hy hz
    have h3 : (n + 1) ^ 3 = (n + 1) * (n + 1) * (n + 1) := by ring
    have h4 : (n + 1) ^ 2 = (n + 1) * (n + 1) := by ring
    have h5 : (2 : Nat) ^ 32 = 4294967296 := by norm_num
    rw [h3, h4, h5, h2]
    refine ⟨by omega, w1, w2, w3, w4, by omega, rfl, h1⟩
  · intro x y z x' y' z' hx hy hz hx' hy' hz' h
    exact from_coordinates_inj n x y z x' y' z' hlt hx hy hz hx' hy' hz' h
  · intro k hk
    exact from_coordinates_onto n k hlt hk

theorem from_coordinates_bijection_witness :
    (2 + 1) ^ 3 ≤ 2 ^ 32 ∧ from_coordinates 2 1 2 0 = 15 ∧
    (∃ x y z, x ≤ 2 ∧ y ≤ 2 ∧ z ≤ 2 ∧ from_coordinates 2 x y z = 26) := by
  have h := from_coordinates_bijection 2 (by decide)
  refine ⟨by decide, ?_, h.2.2 26 (by decide)⟩
  exact (h.1 1 2 0 (by decide) (by decide) (by decide)).2.2.2.2.2.2.1

/-- C12: for every `n` with `(n+1)^3 < 2^32`, `cube_graph(n)` has exactly `(n+1)^3`
adjacency lists and every neighbour stored in them is smaller than `(n+1)^3`; hence in a
search started at a node of the graph with a distance table of `(n+1)^3` entries, at
every level every frontier node and every neighbour of it is a valid index of the
graph, of the visited flags and of the distance table. -/
theorem cube_graph_ids_in_range (n : Nat) (hn : (n + 1) ^ 3 < 2 ^ 32) :
    (cube_graph n).length = (n + 1) ^ 3 ∧
    (∀ l ∈ cube_graph n, ∀ u ∈ l, u < (n + 1) ^ 3) ∧
    (∀ x y z, x ≤ n → y ≤ n → z ≤ n → from_coordinates n x y z < (cube_graph n).length) ∧
    (∀ (start : Nat) (d0 : List Nat), start < (n + 1) ^ 3 → d0.length = (n + 1) ^ 3 →
      ∀ D, ∀ v ∈ (par_bfs_at (cube_graph n) start d0 D).frontier,
        v < (cube_graph n).length ∧
        v < (par_bfs_at (cube_graph n) start d0 D).visited.length ∧
        v < (par_bfs_at (cube_graph n) start d0 D).dist.length ∧
        ∀ u ∈ (cube_graph n).getD v [],
          u < (par_bfs_at (cube_graph n) start d0 D).visited.length ∧
          u < (par_bfs_at (cube_graph n) start d0 D).dist.length) := by
  have hlen : (cube_graph n).length = (n + 1) ^ 3 := by
    rw [cube_graph_length n hn]; ring
  have hin := cube_graph_in_range n hn
  have hno := cube_graph_no_sentinel n hn
  refine ⟨hlen, ?_, ?_, ?_⟩
  · intro l hl u hu
    rw [← hlen]
    exact hin l hl u hu
  · intro x y z hx hy hz
    rw [cube_graph_length n hn]
    exact from_coordinates_lt n x y z hn hx hy hz
  · intro start d0 hs hd D v hv
    have hs' : start < (cube_graph n).length := by rw [hlen]; exact hs
    have hinv := levelInv_at (cube_graph n) start d0 hin hno hs' (by rw [hlen]; exact hd) D
    have hvlt : v < (cube_graph n).length :=
      walk_lt hin hs' ((hinv.front_iff v).1 hv).1
    rw [hinv.vis_len, hinv.dist_len]
    refine ⟨hvlt, hvlt, hvlt, ?_⟩
    intro u hu
    have := hin _ (mem_getD_graph hu) u hu
    exact ⟨this, this⟩

theorem cube_graph_ids_in_range_witness :
    (1 + 1) ^ 3 < 2 ^ 32 ∧ (cube_graph 1).length = 8 ∧
    (∀ l ∈ cube_graph 1, ∀ u ∈ l, u < 8) := by
  have h := cube_graph_ids_in_range 1 (by decide)
  exact ⟨by decide, h.1, h.2.1⟩

/-- C11: the adjacency lists of `cube_graph(1)`.  The list of the point `(0,0,1)`
(identifier `1`) holds `2`, the identifier of `(0,1,0)`, which differs from `(0,0,1)` in
two coordinates, and does not hold `0`, the identifier of the in-grid neighbour
`(0,0,0)`; the list of `(1,0,0)` (identifier `4`) has only two entries and lacks the
in-grid neighbour `(1,0,1)`. -/
theorem cube_graph_one_adjacency :
    cube_graph 1 = [[1, 2, 4], [2, 3, 5], [3, 0, 6], [4, 1, 7], [6, 0], [4, 7, 1], [4, 2],
      [6, 5, 3]] ∧
    from_coordinates 1 0 0 1 = 1 ∧ from_coordinates 1 0 1 0 = 2 ∧
    from_coordinates 1 0 1 0 ∈ (cube_graph 1).getD (from_coordinates 1 0 0 1) [] ∧
    from_coordinates 1 0 0 0 ∉ (cube_graph 1).getD (from_coordinates 1 0 0 1) [] ∧
    from_coordinates 1 1 0 1 ∉ (cube_graph 1).getD (from_coordinates 1 1 0 0) [] := by
  have h : cube_graph 1 = [[1, 2, 4], [2, 3, 5], [3, 0, 6], [4, 1, 7], [6, 0], [4, 7, 1],
      [4, 2], [6, 5, 3]] := by decide
  rw [h]
  decide

/-! ## The scratch buffers of the reused-buffer variant -/

theorem la_at_iterate (graph : graph_t) (start : Nat) (dist : List Nat) (b : static_buffers)
    (D : Nat) :
    la_at graph start dist b D = (la_level graph)^[D] (la_init graph start dist b) := by
  induction D with
  | zero => rfl
  | succ D ih => rw [Function.iterate_succ_apply', ← ih]; rfl

theorem la_loop_iterate (graph : graph_t) : ∀ (fuel : Nat) (s r : la_state),
    la_loop graph fuel s = some r →
      ∃ D, D < fuel ∧ r = (la_level graph)^[D] s ∧ r.frontier_size = 0 := by
  intro fuel
  induction fuel with
  | zero => intro s r h; simp [la_loop] at h
  | succ f ih =>
    intro s r h
    by_cases h0 : s.frontier_size = 0
    · simp only [la_loop, h0, if_true, Option.some.injEq] at h
      subst h
      exact ⟨0, by omega, rfl, h0⟩
    · simp only [la_loop, h0, if_false] at h
      obtain ⟨D, hD, hr, hz⟩ := ih _ _ h
      exact ⟨D + 1, by omega, by rw [Function.iterate_succ_apply]; exact hr, hz⟩

theorem laSim_at (graph : graph_t) (start : Nat) (d0 : List Nat) (b : static_buffers)
    (hb : CleanBuffers b) (hin : in_range graph) (hs : start < graph.length)
    (hN : graph.length ≤ MAX_N)
    (hcap : ∀ D, D ≤ graph.length → fits graph (par_bfs_at graph start d0 D).frontier) :
    ∀ D, LaSim graph (la_at graph start d0 b D) (par_bfs_at graph start d0 D) := by
  have hno := no_sentinel_of_small graph hin hN
  have hall := fits_all graph start d0 hs hcap
  intro D
  induction D with
  | zero => exact laSim_init graph start d0 b hb hs hN (hall 0)
  | succ D ih => exact laSim_step graph hin hno _ _ ih (hall (D + 1))

theorem la_run_at (graph : graph_t) (start : Nat) (d0 : List Nat) (b : static_buffers)
    (hb : CleanBuffers b) (hin : in_range graph) (hs : start < graph.length)
    (hN : graph.length ≤ MAX_N)
    (hcap : ∀ D, D ≤ graph.length → fits graph (par_bfs_at graph start d0 D).frontier)
    (fuel : Nat) (hf : graph.length < fuel) :
    ∃ D, la_loop graph fuel (la_init graph start d0 b) = some (la_at graph start d0 b D) ∧
      (la_at graph start d0 b D).frontier_size = 0 := by
  have hno := no_sentinel_of_small graph hin hN
  have hall := fits_all graph start d0 hs hcap
  obtain ⟨D, _, _, hrun⟩ := par_bfs_run_some graph start d0 hs fuel hf
  have hinit := laSim_init graph start d0 b hb hs hN (hall 0)
  obtain ⟨s', h1, _, _⟩ := la_loop_sim graph hin hno fuel _ _ hinit
    (fun j => by rw [← par_bfs_at_iterate]; exact hall j) _ hrun
  obtain ⟨D', _, hr, hz⟩ := la_loop_iterate graph fuel _ _ h1
  rw [← la_at_iterate] at hr
  subst hr
  exact ⟨D', h1, hz⟩

theorem getElem?_of_drop_replicate {α : Type} (l : List α) (k : Nat) (x : α)
    (h : l.drop k = List.replicate (l.length - k) x) (i : Nat) (hk : k ≤ i)
    (hi : i < l.length) : l[i]? = some x := by
  have h1 : (l.drop k)[i - k]? = l[i]? := by
    rw [List.getElem?_drop]
    congr 1
    omega
  rw [← h1, h, List.getElem?_replicate, if_pos (by omega)]

theorem la_at_tmp_size (graph : graph_t) (start : Nat) (d0 : List Nat) (b : static_buffers)
    (hb : CleanBuffers b) (hin : in_range graph) (hs : start < graph.length)
    (hN : graph.length ≤ MAX_N)
    (hcap : ∀ D, D ≤ graph.length → fits graph (par_bfs_at graph start d0 D).frontier)
    (D : Nat) :
    (la_at graph start d0 b (D + 1)).tmp_frontier_size
      = (edges graph (par_bfs_at graph start d0 D).frontier).length := by
  have h := laSim_at graph start d0 b hb hin hs hN hcap D
  simp only [la_at]
  rw [la_level_eq graph _ h.ready, h.front]

/-- C18: in `par_bfs_less_allocations` started with clean static buffers and kept within
the capacity bounds, at the head of every loop iteration every slot of `pref_flags` at
an index `>= tmp_frontier_size` is `0` and every slot of `tmp_frontier` at such an index
is `NO_NODE`; the flags read by the pack of a level are exactly the flags written by
the claim phase of that level; and the loop exits in a state in which both buffers are
clean in every slot, so that the buffers handed to the next run are clean. -/
theorem la_scratch_clean (graph : graph_t) (start : Nat) (d0 : List Nat) (b : static_buffers)
    (hb : CleanBuffers b) (hin : in_range graph) (hs : start < graph.length)
    (hN : graph.length ≤ MAX_N)
    (hcap : ∀ D, D ≤ graph.length → fits graph (par_bfs_at graph start d0 D).frontier)
    (fuel : Nat) (hf : graph.length < fuel) :
    (∀ D i, (la_at graph start d0 b D).tmp_frontier_size ≤ i → i < MAX_TMP_FRONTIER →
      (la_at graph start d0 b D).pref_flags[i]? = some 0 ∧
      (la_at graph start d0 b D).tmp_frontier[i]? = some NO_NODE) ∧
    (∀ D, (la_at graph start d0 b (D + 1)).pref_flags.take
        (la_at graph start d0 b (D + 1)).tmp_frontier_size
      = flag_slots (la_at graph start d0 b D).visited
          (edges graph ((la_at graph start d0 b D).frontier.take
            (la_at graph start d0 b D).frontier_size))) ∧
    ∃ D, la_loop graph fuel (la_init graph start d0 b) = some (la_at graph start d0 b D) ∧
      (la_at graph start d0 b D).frontier_size = 0 ∧
      (la_at graph start d0 b D).tmp_frontier = List.replicate MAX_TMP_FRONTIER NO_NODE ∧
      (la_at graph start d0 b D).pref_flags = List.replicate MAX_TMP_FRONTIER 0 ∧
      CleanBuffers (la_buffers (la_at graph start d0 b D)) := by
  have hsim := laSim_at graph start d0 b hb hin hs hN hcap
  refine ⟨?_, ?_, ?_⟩
  · intro D i hi hlt
    have h := hsim D
    have hfl : (la_at graph start d0 b D).pref_flags.length = MAX_TMP_FRONTIER := by
      rw [h.ready.fl_len, h.tmp_len]
    constructor
    · exact getElem?_of_drop_replicate _ _ _ h.ready.flags_clean i hi (by rw [hfl]; exact hlt)
    · exact getElem?_of_drop_replicate _ _ _ h.ready.tmp_clean i hi
        (by rw [h.tmp_len]; exact hlt)
  · intro D
    have h := hsim D
    simp only [la_at]
    rw [la_level_eq graph _ h.ready]
    simp only
    rw [← flag_slots_length _ (la_at graph start d0 b D).visited, List.take_left]
  · obtain ⟨D, hrun, hz⟩ := la_run_at graph start d0 b hb hin hs hN hcap fuel hf
    have h := hsim D
    obtain ⟨c1, c2⟩ := h.done_clean hz
    exact ⟨D, hrun, hz, c1, c2, ⟨h.frontier_len, c1, c2, h.pref_deg_len, h.visited_len⟩⟩

theorem la_scratch_clean_witness :
    CleanBuffers static_init ∧ in_range sample_graph ∧ 0 < sample_graph.length ∧
    sample_graph.length ≤ MAX_N ∧
    (∀ D, D ≤ sample_graph.length →
      fits sample_graph (par_bfs_at sample_graph 0 sample_dist D).frontier) ∧
    sample_graph.length < 7 ∧
    (la_at sample_graph 0 sample_dist static_init 2).tmp_frontier_size = 6 ∧
    (la_at sample_graph 0 sample_dist static_init 2).pref_flags[6]? = some 0 ∧
    (la_at sample_graph 0 sample_dist static_init 2).tmp_frontier[MAX_TMP_FRONTIER - 1]?
      = some NO_NODE ∧
    ∃ D, la_loop sample_graph 7 (la_init sample_graph 0 sample_dist static_init)
        = some (la_at sample_graph 0 sample_dist static_init D) ∧
      CleanBuffers (la_buffers (la_at sample_graph 0 sample_dist static_init D)) := by
  have h := la_scratch_clean sample_graph 0 sample_dist static_init static_init_clean
    (by decide) (by decide) (by decide) (by decide) 7 (by decide)
  have h6 : (la_at sample_graph 0 sample_dist static_init 2).tmp_frontier_size = 6 := by
    rw [la_at_tmp_size sample_graph 0 sample_dist static_init static_init_clean
      (by decide) (by decide) (by decide) (by decide) 1]
    decide
  obtain ⟨D, hrun, _, _, _, hclean⟩ := h.2.2
  exact ⟨static_init_clean, by decide, by decide, by decide, by decide, by decide, h6,
    (h.1 2 6 (by rw [h6]) (by decide)).1,
    (h.1 2 (MAX_TMP_FRONTIER - 1) (by rw [h6]; decide) (by decide)).2, D, hrun, hclean⟩

/-! ## The capacities of the reused-buffer variant -/

theorem la_visit_noop (graph : graph_t) (i v j : Nat) (s : la_state)
    (h : ¬ s.visited[(graph.getD v []).getD j 0]? = some false) :
    la_visit graph i v j s = s := by
  unfold la_visit
  dsimp only
  rw [cas_not_fresh _ _ h]
  rfl

theorem for_loop_fixed {σ : Type} (body : Nat → σ → σ) (s : σ) :
    ∀ k, (∀ j, j < k → body j s = s) → for_loop k body s = s := by
  intro k
  induction k with
  | zero => intro _; rfl
  | succ k ih =>
    intro h
    rw [for_loop_succ, ih (fun j hj => h j (by omega)), h k (by omega)]

theorem pack_into_zero_flags (inp flags out : List Nat) (h : ∀ x ∈ flags, x = 0) :
    (pack_into inp flags out).2 = 0 := by
  have : (inp.zip flags).filter (fun p => p.2 != 0) = [] := by
    rw [List.filter_eq_nil_iff]
    intro p hp
    have := h p.2 (List.of_mem_zip hp).2
    simp [this]
  simp only [pack_into, this, List.map_nil, List.length_nil]

theorem replicate_zero_getD (k j : Nat) : (List.replicate k 0).getD j 0 = 0 := by
  rw [List.getD_eq_getElem?_getD, List.getElem?_replicate]
  by_cases h : j < k <;> simp [h]

/-- One level of `par_bfs_less_allocations` on a graph whose only node has `k` edges to
itself, started at the head of the first iteration: no node is claimed, the distance
table is unchanged and the next frontier is empty. -/
theorem la_level_loops (k : Nat) (s : la_state) (hfs : s.frontier_size = 1)
    (hts : s.tmp_frontier_size = 0) (hf : s.frontier.getD 0 0 = 0)
    (hv : s.visited[0]? = some true) (hfl : ∀ x ∈ s.pref_flags, x = 0) :
    (la_level [List.replicate k 0] s).frontier_size = 0 ∧
    (la_level [List.replicate k 0] s).dist = s.dist := by
  have e1 : parallel_for 0 s.tmp_frontier_size la_clear s = s := by rw [hts]; rfl
  have e2 : ∀ (f : Nat → la_state → la_state) (t : la_state), parallel_for 0 1 f t = f 0 t :=
    fun f t => rfl
  have e3 : ∀ (v : Nat) (t : la_state), v = 0 → t.visited = s.visited →
      for_loop (([List.replicate k 0] : graph_t).getD v []).length
        (fun j r => la_visit [List.replicate k 0] 0 v j r) t = t := by
    intro v t hv0 ht2
    apply for_loop_fixed
    intro j _
    apply la_visit_noop
    rw [hv0, ht2]
    have : (([List.replicate k 0] : graph_t).getD 0 []).getD j 0 = 0 :=
      replicate_zero_getD k j
    rw [this, hv]
    simp
  have e4 : (la_degree [List.replicate k 0] 0 s).frontier_size = 1 := hfs
  have e5 : parallel_for 0 s.frontier_size (la_degree [List.replicate k 0]) s
      = la_degree [List.replicate k 0] 0 s := by rw [hfs]; rfl
  unfold la_level
  simp only [e1]
  simp only [e5]
  simp only [e4]
  simp only [e2]
  have e6 : (la_degree [List.replicate k 0] 0 s).frontier.getD 0 0 = 0 := hf
  rw [e3 _ _ e6]
  · constructor
    · apply pack_into_zero_flags
      intro x hx
      exact hfl x (List.mem_of_mem_take hx)
    · rfl
  · rfl

theorem la_loops_run (k : Nat) (d0 : List Nat) (b : static_buffers)
    (hfl : ∀ x ∈ b.pref_flags, x = 0) (hvis : 0 < b.visited.length) :
    ∃ b', par_bfs_less_allocations 2 [List.replicate k 0] 0 d0 b = some (d0.set 0 0, b') := by
  have hv : (la_init [List.replicate k 0] 0 d0 b).visited[0]? = some true := by
    simp only [la_init]
    rw [List.getElem?_set]
    simp only [if_true]
    rw [if_pos]
    rw [parallel_for_reset _ _ (by simpa using hvis)]
    simp
  obtain ⟨h1, h2⟩ := la_level_loops k (la_init [List.replicate k 0] 0 d0 b) rfl rfl
    (by
      simp only [la_init, List.getD_eq_getElem?_getD, List.getElem?_set]
      by_cases h : 0 < b.frontier.length <;> simp [h])
    hv hfl
  refine ⟨la_buffers (la_level [List.replicate k 0] (la_init [List.replicate k 0] 0 d0 b)), ?_⟩
  have h3 : (la_init [List.replicate k 0] 0 d0 b).frontier_size ≠ 0 := by
    simp [la_init]
  simp only [par_bfs_less_allocations, la_loop, h3, h1, if_true, if_false, Option.map_some',
    h2]
  rfl

/-- C14 fails: on `loops_graph`, whose single node has `MAX_TMP_FRONTIER + 1` edges to
itself, the first level needs more scratch slots than the capacity `MAX_TMP_FRONTIER`,
and the run of `par_bfs_less_allocations` returns normally with a distance table. -/
theorem la_capacity_counterexample :
    MAX_TMP_FRONTIER < (edges loops_graph [0]).length ∧
    ¬ fits loops_graph [0] ∧
    ∃ b', par_bfs_less_allocations 2 loops_graph 0 [5] static_init = some ([0], b') := by
  have hlen : (edges loops_graph [0]).length = MAX_TMP_FRONTIER + 1 := by
    rw [edges_length]
    show ([(List.replicate (MAX_TMP_FRONTIER + 1) 0).length] : List Nat).sum = _
    rw [List.length_replicate]
    rfl
  refine ⟨by rw [hlen]; omega, ?_, ?_⟩
  · intro h
    have := h.2
    rw [← edges_length, hlen] at this
    omega
  · exact la_loops_run (MAX_TMP_FRONTIER + 1) [5] static_init
      (fun x hx => List.eq_of_mem_replicate hx) (by
        show 0 < (List.replicate MAX_N false).length
        rw [List.length_replicate]
        decide)

theorem frontier_lt_length (graph : graph_t) (start : Nat) (d0 : List Nat)
    (hin : in_range graph) (hs : start < graph.length) :
    ∀ D v, v ∈ (par_bfs_at graph start d0 D).frontier → v < graph.length := by
  intro D v hv
  have h := histInv_at graph start d0 hs D
  rcases h.front_sub v hv with h1 | h1
  · rw [h1]; exact hs
  · obtain ⟨k, hk⟩ := h.wins_reach v h1
    exact walk_lt hin hs hk

theorem getD_take_of_lt (l : List Nat) (k i : Nat) (h : i < k) :
    (l.take k).getD i 0 = l.getD i 0 := by
  rw [List.getD_eq_getElem?_getD, List.getD_eq_getElem?_getD, List.getElem?_take_of_lt h]

theorem getD_mem_of_lt (l : List Nat) (j : Nat) (h : j < l.length) : l.getD j 0 ∈ l := by
  rw [List.getD_eq_getElem?_getD, List.getElem?_eq_getElem h]
  exact List.getElem_mem _

/-- C14 (as amended): `par_bfs_less_allocations` has no capacity check; for an input within
the capacities (`graph.size() <= MAX_N`, every level's frontier at most `MAX_FRONTIER`
nodes with at most `MAX_TMP_FRONTIER` out-edges) the run returns, and at every level the
buffers keep their capacities, both sizes are within them, every frontier node and
every neighbour read indexes the graph and the visited flags in range, and every scratch
index `pref_deg[i] + j` is below `tmp_frontier_size <= MAX_TMP_FRONTIER`. -/
theorem la_within_capacity (graph : graph_t) (start : Nat) (d0 : List Nat) (b : static_buffers)
    (hb : CleanBuffers b) (hin : in_range graph) (hs : start < graph.length)
    (hN : graph.length ≤ MAX_N)
    (hcap : ∀ D, D ≤ graph.length → fits graph (par_bfs_at graph start d0 D).frontier)
    (fuel : Nat) (hf : graph.length < fuel) :
    (∃ r, par_bfs_less_allocations fuel graph start d0 b = some r) ∧
    ∀ D,
      (la_at graph start d0 b D).frontier.length = MAX_FRONTIER ∧
      (la_at graph start d0 b D).tmp_frontier.length = MAX_TMP_FRONTIER ∧
      (la_at graph start d0 b D).pref_flags.length = MAX_TMP_FRONTIER ∧
      (la_at graph start d0 b D).pref_deg.length = MAX_N ∧
      (la_at graph start d0 b D).visited.length = MAX_N ∧
      (la_at graph start d0 b D).frontier_size ≤ MAX_FRONTIER ∧
      (la_at graph start d0 b D).tmp_frontier_size ≤ MAX_TMP_FRONTIER ∧
      (la_at graph start d0 b (D + 1)).tmp_frontier_size ≤ MAX_TMP_FRONTIER ∧
      ∀ i, i < (la_at graph start d0 b D).frontier_size →
        i < MAX_N ∧
        (la_at graph start d0 b D).frontier.getD i 0 < graph.length ∧
        ∀ j, j < (graph.getD ((la_at graph start d0 b D).frontier.getD i 0) []).length →
          (graph.getD ((la_at graph start d0 b D).frontier.getD i 0) []).getD j 0 < MAX_N ∧
          (la_at graph start d0 b (D + 1)).pref_deg.getD i 0 + j
            < (la_at graph start d0 b (D + 1)).tmp_frontier_size := by
  have hsim := laSim_at graph start d0 b hb hin hs hN hcap
  constructor
  · obtain ⟨D, hrun, _⟩ := la_run_at graph start d0 b hb hin hs hN hcap fuel hf
    refine ⟨((la_at graph start d0 b D).dist, la_buffers (la_at graph start d0 b D)), ?_⟩
    simp only [par_bfs_less_allocations, hrun, Option.map_some']
  · intro D
    have h := hsim D
    have h' := hsim (D + 1)
    have hfs : (la_at graph start d0 b D).frontier_size ≤ MAX_FRONTIER := by
      rw [← h.frontier_len]; exact h.ready.fs_le
    have hmf : MAX_FRONTIER ≤ MAX_N := by decide
    refine ⟨h.frontier_len, h.tmp_len, by rw [h.ready.fl_len, h.tmp_len], h.pref_deg_len,
      h.visited_len, hfs, by rw [← h.tmp_len]; exact h.ready.ts_le,
      by rw [← h'.tmp_len]; exact h'.ready.ts_le, ?_⟩
    intro i hi
    have hget : (la_at graph start d0 b D).frontier.getD i 0
        = (par_bfs_at graph start d0 D).frontier.getD i 0 := by
      rw [← h.front, getD_take_of_lt _ _ _ hi]
    have hlen : (par_bfs_at graph start d0 D).frontier.length
        = (la_at graph start d0 b D).frontier_size := by
      rw [← h.front, List.length_take]
      have := h.ready.fs_le
      omega
    have hi' : i < (par_bfs_at graph start d0 D).frontier.length := by omega
    have hmem : (par_bfs_at graph start d0 D).frontier.getD i 0
        ∈ (par_bfs_at graph start d0 D).frontier := getD_mem_of_lt _ _ hi'
    have hv := frontier_lt_length graph start d0 hin hs D _ hmem
    rw [hget]
    refine ⟨by omega, hv, ?_⟩
    intro j hj
    constructor
    · have hu : (graph.getD ((par_bfs_at graph start d0 D).frontier.getD i 0) []).getD j 0
          ∈ graph.getD ((par_bfs_at graph start d0 D).frontier.getD i 0) [] :=
        getD_mem_of_lt _ _ hj
      have := hin _ (mem_getD_graph hu) _ hu
      omega
    · simp only [la_at]
      rw [la_level_eq graph _ h.ready]
      simp only
      rw [h.front, edges_length]
      generalize hxs : (par_bfs_at graph start d0 D).frontier.map
        (fun v => (graph.getD v []).length) = xs
      have hxl : xs.length = (par_bfs_at graph start d0 D).frontier.length := by
        rw [← hxs]; simp
      have hdeg : (graph.getD ((par_bfs_at graph start d0 D).frontier.getD i 0) []).length
          = xs.getD i 0 := by
        rw [← hxs]
        simp [List.getD_eq_getElem?_getD, List.getElem?_eq_getElem hi']
      rw [List.getD_append _ _ _ _ (by
        rw [scan_inplace, scan_from_length]; omega), scan_inplace_getD xs i (by omega)]
      have := sum_take_le xs i (by omega)
      omega

theorem la_within_capacity_witness :
    CleanBuffers static_init ∧ in_range sample_graph ∧ 0 < sample_graph.length ∧
    sample_graph.length ≤ MAX_N ∧
    (∀ D, D ≤ sample_graph.length →
      fits sample_graph (par_bfs_at sample_graph 0 sample_dist D).frontier) ∧
    sample_graph.length < 7 ∧
    (∃ r, par_bfs_less_allocations 7 sample_graph 0 sample_dist static_init = some r) ∧
    (la_at sample_graph 0 sample_dist static_init 1).frontier_size ≤ MAX_FRONTIER ∧
    (la_at sample_graph 0 sample_dist static_init 1).tmp_frontier_size ≤ MAX_TMP_FRONTIER := by
  have h := la_within_capacity sample_graph 0 sample_dist static_init static_init_clean
    (by decide) (by decide) (by decide) (by decide) 7 (by decide)
  exact ⟨static_init_clean, by decide, by decide, by decide, by decide, by decide, h.1,
    (h.2 1).2.2.2.2.2.1, (h.2 1).2.2.2.2.2.2.1⟩

/-! ## The order of the frontier slots in the claim phase -/

theorem filter_set_perm (B : List Nat) : ∀ (p u : Nat), B[p]? = some NO_NODE →
    ((B.set p u).filter (fun node => node != NO_NODE)).Perm
      ([u].filter (fun node => node != NO_NODE) ++ B.filter (fun node => node != NO_NODE)) := by
  induction B with
  | nil => intro p u h; simp at h
  | cons x B ih =>
    intro p u h
    cases p with
    | zero =>
      simp only [List.getElem?_cons_zero, Option.some.injEq] at h
      subst h
      simp only [List.set_cons_zero]
      rw [List.filter_cons (x := NO_NODE)]
      simp only [bne_self_eq_false, Bool.false_eq_true, if_false]
      rw [show u :: B = [u] ++ B from rfl, List.filter_append]
    | succ p =>
      simp only [List.getElem?_cons_succ] at h
      have h1 := ih p u h
      simp only [List.set_cons_succ]
      by_cases hx : (x != NO_NODE) = true
      · have ec : ∀ L : List Nat, (x :: L).filter (fun node => node != NO_NODE)
            = x :: L.filter (fun node => node != NO_NODE) :=
          fun L => by simp only [List.filter_cons, hx, if_true]
        rw [ec, ec]
        exact (List.Perm.cons x h1).trans List.perm_middle.symm
      · have ec : ∀ L : List Nat, (x :: L).filter (fun node => node != NO_NODE)
            = L.filter (fun node => node != NO_NODE) :=
          fun L => by simp only [List.filter_cons, hx, Bool.false_eq_true, if_false]
        rw [ec, ec]
        exact h1

theorem par_visit_swept_ord (graph : graph_t) (pd : List Nat) (s t : par_state)
    (P : List (Nat × Nat)) (i j : Nat) (hP : SweptOrd graph s pd P t)
    (hnew : (i, j) ∉ P)
    (hinj : ∀ i' j' : Nat, i' < s.frontier.length →
      j' < (graph.getD (s.frontier.getD i' 0) []).length →
      pd.getD i' 0 + j' = pd.getD i 0 + j → (i', j') = (i, j))
    (hi : i < s.frontier.length) (hj : j < (graph.getD (s.frontier.getD i 0) []).length) :
    SweptOrd graph s pd (P ++ [(i, j)]) (par_visit graph pd i (s.frontier.getD i 0) j t) := by
  obtain ⟨hv, hd, hf, hw, hperm, hun⟩ := hP
  have hE : (P ++ [(i, j)]).map (slot_edge graph s.frontier)
      = P.map (slot_edge graph s.frontier)
        ++ [(s.frontier.getD i 0, (graph.getD (s.frontier.getD i 0) []).getD j 0)] := by
    rw [List.map_append]; rfl
  have hslot := hun i j hi hj hnew
  unfold SweptOrd
  rw [hE]
  unfold par_visit
  dsimp only
  generalize (graph.getD (s.frontier.getD i 0) []).getD j 0 = u at *
  generalize s.frontier.getD i 0 = v at *
  generalize P.map (slot_edge graph s.frontier) = E at *
  have hrest : ∀ (B : List Nat), (∀ q : Nat, q ≠ pd.getD i 0 + j → B[q]? = t.new_frontier[q]?) →
      ∀ i' j' : Nat, i' < s.frontier.length →
        j' < (graph.getD (s.frontier.getD i' 0) []).length →
        (i', j') ∉ P ++ [(i, j)] → B[pd.getD i' 0 + j']? = some NO_NODE := by
    intro B hB i' j' hi' hj' hn
    simp only [List.mem_append, List.mem_singleton, not_or] at hn
    rw [hB _ (fun hc => hn.2 (hinj i' j' hi' hj' hc))]
    exact hun i' j' hi' hj' hn.1
  by_cases h : (mark s.visited E)[u]? = some false
  · have hr := cas_fresh t.visited u (by rw [hv]; exact h)
    rw [hr]
    refine ⟨?_, ?_, ?_, ?_, ?_, ?_⟩
    · simp [hv, mark_append, mark]
    · simp [hv, hd, h, relax_append, relax]
    · simp [hf]
    · simp [h, hw, claimed_append, claimed]
    · simp only [if_true]
      have hc : claimed s.visited (E ++ [(v, u)]) = claimed s.visited E ++ [u] := by
        simp [claimed_append, claimed, h]
      rw [hc, List.filter_append]
      exact (filter_set_perm _ _ u hslot).trans
        ((List.Perm.append_left _ hperm).trans List.perm_append_comm)
    · simp only [if_true]
      apply hrest
      intro q hq
      rw [List.getElem?_set_ne (fun hc => hq hc.symm)]
  · have hr := cas_not_fresh t.visited u (by rw [hv]; exact h)
    rw [hr]
    have hc : claimed s.visited (E ++ [(v, u)]) = claimed s.visited E := by
      simp [claimed_append, claimed, h]
    refine ⟨?_, ?_, ?_, ?_, ?_, ?_⟩
    · have h3 : mark (mark s.visited E) [(v, u)] = mark s.visited E := by
        simp only [mark, List.foldl_cons, List.foldl_nil]
        exact set_true_of_not_fresh _ u h
      simp [hv, mark_append, h3]
    · simp [hd, relax_append, relax, h]
    · simp [hf]
    · simp [hw, hc]
    · simp only [Bool.false_eq_true, if_false, hc]
      exact hperm
    · simp only [Bool.false_eq_true, if_false]
      exact hrest _ (fun _ _ => rfl)

theorem for_loop_swept_ord (graph : graph_t) (pd : List Nat) (s t : par_state)
    (P : List (Nat × Nat)) (i : Nat) (hP : SweptOrd graph s pd P t)
    (hnew : ∀ j : Nat, (i, j) ∉ P)
    (hinj : ∀ i j i' j' : Nat, i < s.frontier.length →
      j < (graph.getD (s.frontier.getD i 0) []).length → i' < s.frontier.length →
      j' < (graph.getD (s.frontier.getD i' 0) []).length →
      pd.getD i' 0 + j' = pd.getD i 0 + j → (i', j') = (i, j))
    (hi : i < s.frontier.length) :
    ∀ k, k ≤ (graph.getD (s.frontier.getD i 0) []).length →
      SweptOrd graph s pd (P ++ (List.range k).map (fun j => (i, j)))
        (for_loop k (fun j t => par_visit graph pd i (s.frontier.getD i 0) j t) t) := by
  intro k
  induction k with
  | zero => intro _; simpa [for_loop] using hP
  | succ k ih =>
    intro hk
    have h1 := ih (by omega)
    rw [List.range_succ, List.map_append, ← List.append_assoc, for_loop_succ]
    apply par_visit_swept_ord graph pd s _ _ i k h1
    · intro hc
      rcases List.mem_append.1 hc with h | h
      · exact hnew k h
      · simp at h
    · intro i' j' hi' hj' he
      exact hinj i k i' j' hi (by omega) hi' hj' he
    · exact hi
    · omega

theorem claim_phase_swept_ord (graph : graph_t) (pd : List Nat) (s : par_state)
    (hinj : ∀ i j i' j' : Nat, i < s.frontier.length →
      j < (graph.getD (s.frontier.getD i 0) []).length → i' < s.frontier.length →
      j' < (graph.getD (s.frontier.getD i' 0) []).length →
      pd.getD i' 0 + j' = pd.getD i 0 + j → (i', j') = (i, j)) :
    ∀ (order : List Nat), order.Nodup → (∀ i ∈ order, i < s.frontier.length) →
      ∀ (P : List (Nat × Nat)) (t : par_state), SweptOrd graph s pd P t →
        (∀ i ∈ order, ∀ j : Nat, (i, j) ∉ P) →
        SweptOrd graph s pd (P ++ slot_pairs graph s.frontier order)
          (parallel_for_ord order
            (fun i t =>
              for_loop (graph.getD (s.frontier.getD i 0) []).length
                (fun j t => par_visit graph pd i (s.frontier.getD i 0) j t) t) t) := by
  intro order
  induction order with
  | nil =>
    intro _ _ P t hP _
    simpa [slot_pairs, parallel_for_ord] using hP
  | cons i order ih =>
    intro hnd hlt P t hP hnew
    have h1 := for_loop_swept_ord graph pd s t P i hP (hnew i (List.mem_cons_self _ _)) hinj
      (hlt i (List.mem_cons_self _ _)) _ (Nat.le_refl _)
    have h2 := ih (List.nodup_cons.1 hnd).2 (fun i' hi' => hlt i' (List.mem_cons_of_mem _ hi'))
      _ _ h1 (by
        intro i' hi' j hc
        rcases List.mem_append.1 hc with h | h
        · exact hnew i' (List.mem_cons_of_mem _ hi') j h
        · simp only [List.mem_map, List.mem_range, Prod.mk.injEq] at h
          obtain ⟨_, _, h3, _⟩ := h
          rw [← h3] at hi'
          exact (List.nodup_cons.1 hnd).1 hi')
    have e : P ++ slot_pairs graph s.frontier (i :: order)
        = P ++ (List.range (graph.getD (s.frontier.getD i 0) []).length).map (fun j => (i, j))
          ++ slot_pairs graph s.frontier order := by
      simp [slot_pairs, List.flatMap_cons]
    rw [e]
    exact h2

theorem filter_replicate_sentinel (k : Nat) :
    (List.replicate k NO_NODE).filter (fun node => node != NO_NODE) = [] := by
  rw [List.filter_eq_nil_iff]
  intro a ha
  rw [List.eq_of_mem_replicate ha]
  simp

theorem mem_slot_edges (graph : graph_t) (F : List Nat) (order : List Nat)
    (ho : ∀ i : Nat, i ∈ order ↔ i < F.length) (e : Nat × Nat) :
    e ∈ (slot_pairs graph F order).map (slot_edge graph F) ↔ e ∈ edges graph F := by
  rw [mem_edges]
  simp only [slot_pairs, List.mem_map, List.mem_flatMap, List.mem_range]
  constructor
  · rintro ⟨p, ⟨i, hi, j, hj, rfl⟩, rfl⟩
    exact ⟨getD_mem_of_lt _ _ ((ho i).1 hi), getD_mem_of_lt _ _ hj⟩
  · rintro ⟨h1, h2⟩
    obtain ⟨i, hi, hie⟩ := List.getElem_of_mem h1
    obtain ⟨j, hj, hje⟩ := List.getElem_of_mem h2
    have hFi : F.getD i 0 = e.1 := by
      rw [List.getD_eq_getElem?_getD, List.getElem?_eq_getElem hi, hie]; rfl
    refine ⟨(i, j), ⟨i, (ho i).2 hi, j, by rw [hFi]; exact hj, rfl⟩, ?_⟩
    obtain ⟨a, b⟩ := e
    simp only [slot_edge, hFi, Prod.mk.injEq, true_and]
    simp only at hje
    rw [List.getD_eq_getElem?_getD, List.getElem?_eq_getElem hj, hje]
    rfl

/-- One level of `par_bfs` whose claim phase takes the frontier slots in the order
`order`: it offers the edges leaving the frontier in some order `E`, and the next
frontier is a rearrangement of the nodes claimed. -/
theorem par_bfs_level_ord_spec (graph : graph_t) (order : List Nat) (s : par_state)
    (ho : order.Perm (List.range s.frontier.length)) :
    ∃ E : List (Nat × Nat), (∀ e, e ∈ E ↔ e ∈ edges graph s.frontier) ∧
      (par_bfs_level_ord graph order s).visited = mark s.visited E ∧
      (par_bfs_level_ord graph order s).dist = relax s.visited s.dist E ∧
      (par_bfs_level_ord graph order s).cas_wins = s.cas_wins ++ claimed s.visited E ∧
      (par_bfs_level_ord graph order s).frontier.Perm
        ((claimed s.visited E).filter (fun node => node != NO_NODE)) := by
  have hmem : ∀ i : Nat, i ∈ order ↔ i < s.frontier.length := by
    intro i
    rw [ho.mem_iff, List.mem_range]
  have hnd : order.Nodup := ho.nodup_iff.2 (List.nodup_range _)
  have hdeg := tabulate_getD s.frontier (fun v => (graph.getD v []).length)
  generalize hxs : s.frontier.map (fun v => (graph.getD v []).length) = xs at hdeg
  have hxl : xs.length = s.frontier.length := by rw [← hxs]; simp
  have hd : ∀ i, i < s.frontier.length →
      (graph.getD (s.frontier.getD i 0) []).length = xs.getD i 0 := by
    intro i hi
    rw [← hxs]
    simp [List.getD_eq_getElem?_getD, List.getElem?_eq_getElem hi]
  have hinj : ∀ i j i' j' : Nat, i < s.frontier.length →
      j < (graph.getD (s.frontier.getD i 0) []).length → i' < s.frontier.length →
      j' < (graph.getD (s.frontier.getD i' 0) []).length →
      (scan_inplace xs).1.getD i' 0 + j' = (scan_inplace xs).1.getD i 0 + j →
      (i', j') = (i, j) := by
    intro i j i' j' hi hj hi' hj' heq
    rw [scan_inplace_getD xs i (by omega), scan_inplace_getD xs i' (by omega)] at heq
    rw [hd i hi] at hj
    rw [hd i' hi'] at hj'
    rcases Nat.lt_trichotomy i i' with h | h | h
    · have := offsets_lt xs i i' j h (by omega) hj
      omega
    · subst h
      have : j' = j := by omega
      rw [this]
    · have := offsets_lt xs i' i j' h (by omega) hj'
      omega
  have hinit : SweptOrd graph s (scan_inplace xs).1 []
      { s with new_frontier := List.replicate (scan_inplace xs).2 NO_NODE } := by
    refine ⟨rfl, rfl, rfl, by simp [claimed], ?_, ?_⟩
    · simp only [filter_replicate_sentinel, List.map_nil, claimed, List.filter_nil]
      exact List.Perm.refl _
    · intro i j hi hj _
      rw [hd i hi] at hj
      have := sum_take_le xs i (by omega)
      simp only
      rw [List.getElem?_replicate, if_pos]
      rw [scan_inplace_getD xs i (by omega), scan_inplace_total]
      omega
  have h := claim_phase_swept_ord graph (scan_inplace xs).1 s hinj order hnd
    (fun i hi => (hmem i).1 hi) [] _ hinit (fun _ _ _ hc => by simp at hc)
  rw [List.nil_append] at h
  obtain ⟨hv, hdd, _, hw, hperm, _⟩ := h
  refine ⟨(slot_pairs graph s.frontier order).map (slot_edge graph s.frontier),
    mem_slot_edges graph s.frontier order hmem, ?_, ?_, ?_, ?_⟩
  · unfold par_bfs_level_ord
    simp only [hdeg]
    exact hv
  · unfold par_bfs_level_ord
    simp only [hdeg]
    exact hdd
  · unfold par_bfs_level_ord
    simp only [hdeg]
    exact hw
  · unfold par_bfs_level_ord
    simp only [hdeg, filter]
    exact hperm

theorem mark_getElem? (es : List (Nat × Nat)) : ∀ (vis : List Bool) (u : Nat),
    (mark vis es)[u]? = vis[u]?.map (fun b => b || es.any (fun e => e.2 == u)) := by
  induction es with
  | nil => intro vis u; simp [mark]
  | cons e es ih =>
    intro vis u
    rw [mark_cons, ih, List.getElem?_set]
    by_cases h : e.2 = u
    · subst h
      by_cases hl : e.2 < vis.length
      · simp [hl, List.getElem?_eq_getElem hl]
      · simp [hl, List.getElem?_eq_none (Nat.le_of_not_lt hl)]
    · have h2 : (e.2 == u) = false := by simpa using h
      simp [h, h2]

/-- The flags, the distance table and the set of claimed nodes after a sweep depend only
on which edges are offered, not on their order, when all sources are visited and carry
the same distance. -/
theorem sweep_mem_ext (vis : List Bool) (dist : List Nat) (E1 E2 : List (Nat × Nat)) (D : Nat)
    (hE : ∀ e, e ∈ E1 ↔ e ∈ E2) (hlen : dist.length = vis.length)
    (hsrc : ∀ e ∈ E2, vis[e.1]? = some true) (hD : ∀ e ∈ E2, dist.getD e.1 0 = D) :
    mark vis E1 = mark vis E2 ∧ relax vis dist E1 = relax vis dist E2 ∧
      (claimed vis E1).Perm (claimed vis E2) := by
  have hcl : ∀ u : Nat, u ∈ claimed vis E1 ↔ u ∈ claimed vis E2 := by
    intro u
    rw [mem_claimed, mem_claimed]
    constructor
    · rintro ⟨h1, e, he, h2⟩; exact ⟨h1, e, (hE e).1 he, h2⟩
    · rintro ⟨h1, e, he, h2⟩; exact ⟨h1, e, (hE e).2 he, h2⟩
  refine ⟨?_, ?_, ?_⟩
  · apply List.ext_getElem?
    intro u
    rw [mark_getElem?, mark_getElem?]
    have : E1.any (fun e => e.2 == u) = E2.any (fun e => e.2 == u) := by
      rw [Bool.eq_iff_iff, List.any_eq_true, List.any_eq_true]
      constructor
      · rintro ⟨e, he, h⟩; exact ⟨e, (hE e).1 he, h⟩
      · rintro ⟨e, he, h⟩; exact ⟨e, (hE e).2 he, h⟩
    rw [this]
  · apply List.ext_getElem?
    intro u
    by_cases hc : u ∈ claimed vis E1
    · obtain ⟨v1, hv1, h1⟩ := relax_claimed E1 vis dist u hlen
        (fun e he => hsrc e ((hE e).1 he)) hc
      obtain ⟨v2, hv2, h2⟩ := relax_claimed E2 vis dist u hlen hsrc ((hcl u).1 hc)
      rw [h1, h2, hD _ ((hE _).1 hv1), hD _ hv2]
    · rw [relax_frame E1 vis dist u hc, relax_frame E2 vis dist u (fun h => hc ((hcl u).2 h))]
  · exact (List.perm_ext_iff_of_nodup (claimed_nodup E1 vis) (claimed_nodup E2 vis)).2 hcl

theorem ordSim_init (graph : graph_t) (start : Nat) (d0 : List Nat)
    (hs : start < graph.length) (hd : d0.length = graph.length) :
    OrdSim (par_bfs_init graph start d0) (par_bfs_init graph start d0) where
  vis := rfl
  dist := rfl
  front := List.Perm.refl _
  len := by simp [par_bfs_init, hd]
  front_vis := by
    intro v hv
    simp only [par_bfs_init, List.mem_singleton] at hv
    subst hv
    simp only [par_bfs_init]
    rw [List.getElem?_set_self (by simpa using hs)]
  level := by
    refine ⟨0, ?_⟩
    intro v hv
    simp only [par_bfs_init, List.mem_singleton] at hv
    subst hv
    simp only [par_bfs_init]
    rw [List.getD_eq_getElem?_getD, List.getElem?_set_self (by omega)]
    rfl

theorem ordSim_step (graph : graph_t) (order : List Nat) (a b : par_state)
    (h : OrdSim a b) (ho : order.Perm (List.range a.frontier.length)) :
    OrdSim (par_bfs_level_ord graph order a) (par_bfs_level graph b) := by
  obtain ⟨hvis, hdist, hfront, hlen, hfv, D, hD⟩ := h
  obtain ⟨E, hE, e1, e2, _, e4⟩ := par_bfs_level_ord_spec graph order a ho
  have hE' : ∀ e, e ∈ E ↔ e ∈ edges graph b.frontier := by
    intro e
    rw [hE e, mem_edges, mem_edges, hfront.mem_iff]
  have hsrc : ∀ e ∈ edges graph b.frontier, b.visited[e.1]? = some true :=
    fun e he => hfv _ (mem_edges.1 he).1
  obtain ⟨s1, s2, s3⟩ := sweep_mem_ext b.visited b.dist E (edges graph b.frontier) D hE' hlen
    hsrc (fun e he => hD _ (mem_edges.1 he).1)
  rw [hvis] at e1 e4
  rw [hvis, hdist] at e2
  have hb := par_bfs_level_eq graph b
  have hmemF : ∀ v : Nat, v ∈ (par_bfs_level graph b).frontier →
      v ∈ claimed b.visited (edges graph b.frontier) := by
    intro v hv
    rw [hb] at hv
    exact (List.mem_filter.1 hv).1
  refine ⟨?_, ?_, ?_, ?_, ?_, ?_⟩
  · rw [e1, s1, hb]
  · rw [e2, s2, hb]
  · rw [hb]
    exact e4.trans (s3.filter _)
  · rw [hb]
    simp only [relax_length, mark_length, hlen]
  · intro v hv
    obtain ⟨hf, e, he, hev⟩ := (mem_claimed _ _ _).1 (hmemF v hv)
    have hl : v < b.visited.length := by
      by_contra hc
      rw [List.getElem?_eq_none (Nat.le_of_not_lt hc)] at hf
      simp at hf
    rw [hb]
    exact (mark_true _ _ _).2 (Or.inr ⟨hl, e, he, hev⟩)
  · refine ⟨D + 1, ?_⟩
    intro v hv
    obtain ⟨v', hv', hr⟩ := relax_claimed _ b.visited b.dist v hlen hsrc (hmemF v hv)
    rw [hb]
    simp only
    rw [List.getD_eq_getElem?_getD, hr, hD _ (mem_edges.1 hv').1]
    rfl

theorem par_bfs_loop_ord_sim (graph : graph_t) (pick : Nat → par_state → List Nat)
    (hp : admissible pick) :
    ∀ (fuel D : Nat) (a b : par_state), OrdSim a b →
      ∀ r, par_bfs_loop graph fuel b = some r →
        ∃ r', par_bfs_loop_ord graph pick fuel D a = some r' ∧ OrdSim r' r := by
  intro fuel
  induction fuel with
  | zero => intro D a b _ r h; simp [par_bfs_loop] at h
  | succ f ih =>
    intro D a b hsim r hr
    cases hF : b.frontier with
    | nil =>
      simp only [par_bfs_loop, hF, Option.some.injEq] at hr
      subst hr
      have ha : a.frontier = [] := by
        have := hsim.front
        rw [hF] at this
        exact this.eq_nil
      exact ⟨a, by simp [par_bfs_loop_ord, ha], hsim⟩
    | cons v F =>
      simp only [par_bfs_loop, hF] at hr
      have hstep := ordSim_step graph (pick D a) a b hsim (hp D a)
      obtain ⟨r', h1, h2⟩ := ih (D + 1) _ _ hstep r hr
      cases ha : a.frontier with
      | nil =>
        have := hsim.front
        rw [ha, hF] at this
        exact absurd this.symm.eq_nil (by simp)
      | cons w G =>
        refine ⟨r', ?_, h2⟩
        simp only [par_bfs_loop_ord, ha]
        exact h1

theorem backwards_admissible : admissible backwards :=
  fun _ _ => List.reverse_perm _

/-- C17: for every graph, every source smaller than `graph.size()` and every distance
table of `graph.size()` entries, `par_bfs` returns the same distance table whatever the
order in which the frontier slots of each level's claim phase are processed: under every
schedule that at every level orders the slots `0, ..., frontier.size() - 1` in some
permutation, the run returns, with the table of the run that takes them in index
order. -/
theorem par_bfs_schedule_independent (graph : graph_t) (start : Nat) (d0 : List Nat)
    (hs : start < graph.length) (hd : d0.length = graph.length)
    (pick : Nat → par_state → List Nat) (hp : admissible pick)
    (fuel : Nat) (hf : graph.length < fuel) :
    ∃ dist, par_bfs fuel graph start d0 = some dist ∧
      par_bfs_ord pick fuel graph start d0 = some dist := by
  obtain ⟨D, _, _, hrun⟩ := par_bfs_run_some graph start d0 hs fuel hf
  obtain ⟨r', h1, h2⟩ := par_bfs_loop_ord_sim graph pick hp fuel 0 _ _
    (ordSim_init graph start d0 hs hd) _ hrun
  refine ⟨(par_bfs_at graph start d0 D).dist, ?_, ?_⟩
  · simp only [par_bfs, hrun, Option.map_some']
  · simp only [par_bfs_ord, h1, Option.map_some', h2.dist]

theorem par_bfs_schedule_independent_witness :
    0 < diamond_graph.length ∧ (List.replicate 5 9).length = diamond_graph.length ∧
    admissible backwards ∧ diamond_graph.length < 6 ∧
    (par_bfs_level diamond_graph (par_bfs_at diamond_graph 0 (List.replicate 5 9) 1)).frontier
      = [3, 4] ∧
    (par_bfs_level_ord diamond_graph [1, 0]
      (par_bfs_at diamond_graph 0 (List.replicate 5 9) 1)).frontier = [4, 3] ∧
    ∃ dist, par_bfs 6 diamond_graph 0 (List.replicate 5 9) = some dist ∧
      par_bfs_ord backwards 6 diamond_graph 0 (List.replicate 5 9) = some dist :=
  ⟨by decide, by decide, backwards_admissible, by decide, by decide, by decide,
    par_bfs_schedule_independent diamond_graph 0 (List.replicate 5 9) (by decide) (by decide)
      backwards backwards_admissible 6 (by decide)⟩

/-! ## Quicksort -/

theorem swap_self (a : List Int) (i : Nat) : swap a i i = a := by
  unfold swap
  apply List.ext_getElem?
  intro k
  rw [List.getElem?_set, List.getElem?_set, List.length_set]
  by_cases h : i = k
  · subst h
    by_cases hl : i < a.length
    · simp [hl, List.getD_eq_getElem?_getD, List.getElem?_eq_getElem hl]
    · simp [hl, List.getElem?_eq_none (Nat.le_of_not_lt hl)]
  · simp [h]

theorem swap_segments (X Y Z : List Int) (g u : Int) :
    swap (X ++ g :: (Y ++ u :: Z)) (X.length + 1 + Y.length) X.length
      = X ++ u :: (Y ++ g :: Z) := by
  have e1 : (X ++ g :: (Y ++ u :: Z)).getD X.length 0 = g := by
    rw [List.getD_append_right _ _ _ _ (Nat.le_refl _)]
    simp
  have e2 : (X ++ g :: (Y ++ u :: Z)).getD (X.length + 1 + Y.length) 0 = u := by
    rw [List.getD_append_right _ _ _ _ (by omega)]
    rw [show X.length + 1 + Y.length - X.length = Y.length + 1 by omega]
    rw [List.getD_cons_succ, List.getD_append_right _ _ _ _ (Nat.le_refl _)]
    simp
  unfold swap
  rw [e1, e2, List.set_append_right _ _ (by omega),
    show X.length + 1 + Y.length - X.length = Y.length + 1 by omega, List.set_cons_succ,
    List.set_append_right _ _ (Nat.le_refl _), Nat.sub_self, List.set_cons_zero,
    List.set_append_right _ _ (Nat.le_refl _), Nat.sub_self, List.set_cons_zero]

theorem partition_loop_spec (pred : Int → Bool) (A C : List Int) :
    ∀ (U L G : List Int),
      ∃ G', G'.Perm (G ++ U.filter (fun v => !pred v)) ∧
        (List.range' (A.length + L.length + G.length) U.length).foldl
          (fun s i => if pred (s.1.getD i 0) then (swap s.1 i s.2, s.2 + 1) else s)
          (A ++ (L ++ (G ++ (U ++ C))), A.length + L.length)
        = (A ++ ((L ++ U.filter pred) ++ (G' ++ C)),
            A.length + (L ++ U.filter pred).length) := by
  intro U
  induction U with
  | nil =>
    intro L G
    exact ⟨G, by simp, by simp⟩
  | cons u U ih =>
    intro L G
    have hget : (A ++ (L ++ (G ++ (u :: U ++ C)))).getD (A.length + L.length + G.length) 0
        = u := by
      rw [List.getD_append_right _ _ _ _ (by omega),
        List.getD_append_right _ _ _ _ (by omega),
        List.getD_append_right _ _ _ _ (by omega)]
      rw [show A.length + L.length + G.length - A.length - L.length - G.length = 0 by omega]
      rfl
    rw [List.length_cons, List.range'_succ, List.foldl_cons]
    simp only [hget]
    by_cases hp : pred u = true
    · simp only [hp, if_true]
      cases G with
      | nil =>
        have hsw : swap (A ++ (L ++ ([] ++ (u :: U ++ C)))) (A.length + L.length + 0)
            (A.length + L.length) = A ++ ((L ++ [u]) ++ ([] ++ (U ++ C))) := by
          rw [Nat.add_zero, swap_self]
          simp
        obtain ⟨G', hG, hfold⟩ := ih (L ++ [u]) []
        refine ⟨G', ?_, ?_⟩
        · simpa [List.filter_cons, hp] using hG
        · simp only [List.length_nil] at hsw ⊢
          rw [hsw]
          simp only [List.length_append, List.length_singleton, List.length_nil,
            Nat.add_zero, Nat.add_assoc] at hfold ⊢
          rw [hfold]
          simp [List.filter_cons, hp, Nat.add_assoc]
          omega
      | cons g G1 =>
        have hsw : swap (A ++ (L ++ (g :: G1 ++ (u :: U ++ C))))
            (A.length + L.length + (g :: G1).length) (A.length + L.length)
            = A ++ ((L ++ [u]) ++ ((G1 ++ [g]) ++ (U ++ C))) := by
          have := swap_segments (A ++ L) G1 (U ++ C) g u
          simp only [List.length_append, List.length_cons, List.append_assoc,
            List.cons_append, List.singleton_append, List.nil_append] at this ⊢
          rw [show A.length + L.length + (G1.length + 1) = A.length + L.length + 1 + G1.length
            by omega]
          exact this
        obtain ⟨G', hG, hfold⟩ := ih (L ++ [u]) (G1 ++ [g])
        refine ⟨G', ?_, ?_⟩
        · refine hG.trans ?_
          simp only [List.filter_cons, hp, Bool.not_true, Bool.false_eq_true, if_false,
            List.append_assoc, List.cons_append, List.singleton_append]
          exact List.perm_middle
        · rw [hsw]
          have e : A.length + L.length + (g :: G1).length + 1
              = A.length + (L ++ [u]).length + (G1 ++ [g]).length := by
            simp only [List.length_append, List.length_cons, List.length_nil]; omega
          have e2 : A.length + L.length + 1 = A.length + (L ++ [u]).length := by
            simp only [List.length_append, List.length_cons, List.length_nil]; omega
          rw [e, e2, hfold]
          simp [List.filter_cons, hp]
    · have hp' : pred u = false := by simpa using hp
      simp only [hp', Bool.false_eq_true, if_false]
      obtain ⟨G', hG, hfold⟩ := ih L (G ++ [u])
      refine ⟨G', ?_, ?_⟩
      · simpa [List.filter_cons, hp'] using hG
      · have e : A.length + L.length + G.length + 1
            = A.length + L.length + (G ++ [u]).length := by
          simp only [List.length_append, List.length_cons, List.length_nil]; omega
        have e3 : A ++ (L ++ (G ++ (u :: U ++ C))) = A ++ (L ++ ((G ++ [u]) ++ (U ++ C))) := by
          simp
        rw [e, e3, hfold]
        simp [List.filter_cons, hp']

theorem partition_loop_segment (pred : Int → Bool) (A S C : List Int) :
    ∃ G, G.Perm (S.filter (fun v => !pred v)) ∧
      partition_loop pred A.length (A.length + S.length) (A ++ (S ++ C)) A.length
        = (A ++ (S.filter pred ++ (G ++ C)), A.length + (S.filter pred).length) := by
  obtain ⟨G, hG, h⟩ := partition_loop_spec pred A C S [] []
  refine ⟨G, by simpa using hG, ?_⟩
  unfold partition_loop
  simp only [List.length_nil, Nat.add_zero, List.nil_append] at h
  rw [Nat.add_sub_cancel_left]
  exact h

theorem filter_length_add (pred : Int → Bool) (S : List Int) :
    (S.filter pred).length + (S.filter (fun v => !pred v)).length = S.length := by
  induction S with
  | nil => rfl
  | cons a S ih =>
    by_cases h : pred a = true
    · simp only [List.filter_cons, h, if_true, Bool.not_true, Bool.false_eq_true, if_false,
        List.length_cons]
      omega
    · have h' : pred a = false := by simpa using h
      simp only [List.filter_cons, h', Bool.false_eq_true, if_false, Bool.not_false, if_true,
        List.length_cons]
      omega

theorem sorted_of_length_le_one (S : List Int) (h : S.length ≤ 1) : S.Sorted (· ≤ ·) := by
  cases S with
  | nil => exact List.sorted_nil
  | cons a S =>
    cases S with
    | nil => exact List.sorted_singleton a
    | cons b S => simp at h

/-- Three runs `L`, `M`, `H` with `L` sorted and below `x`, `M` equal to `x`, and `H`
sorted and above `x`, form a sorted sequence. -/
theorem sorted_three (x : Int) (L M H : List Int) (hL : L.Sorted (· ≤ ·))
    (hH : H.Sorted (· ≤ ·)) (hLx : ∀ v ∈ L, v < x) (hM : ∀ v ∈ M, v = x)
    (hHx : ∀ v ∈ H, x < v) : (L ++ (M ++ H)).Sorted (· ≤ ·) := by
  unfold List.Sorted at *
  rw [List.pairwise_append, List.pairwise_append]
  refine ⟨hL, ⟨?_, hH, ?_⟩, ?_⟩
  · rw [List.pairwise_iff_forall_sublist]
    intro a b hab
    have ha := hM a (hab.subset (List.mem_cons_self _ _))
    have hb := hM b (hab.subset (List.mem_cons_of_mem _ (List.mem_singleton_self _)))
    omega
  · intro a ha b hb
    have := hM a ha
    have := hHx b hb
    omega
  · intro a ha b hb
    have h1 := hLx a ha
    rcases List.mem_append.1 hb with h | h
    · have := hM b h; omega
    · have := hHx b h; omega

theorem pivot_mem (k : Nat) (A S C : List Int) (h : 0 < S.length) :
    qsort_partition_number k (A ++ (S ++ C)) A.length (A.length + S.length) ∈ S := by
  unfold qsort_partition_number
  rw [Nat.add_sub_cancel_left]
  have hk : k % S.length < S.length := Nat.mod_lt _ h
  rw [List.getD_append_right _ _ _ _ (by omega), Nat.add_sub_cancel_left,
    List.getD_append _ _ _ _ hk, List.getD_eq_getElem _ _ hk]
  exact List.getElem_mem _

theorem seq_qsort_spec : ∀ (fuel : Nat) (rnd : List Bool → Nat) (A S C : List Int),
    S.length < fuel →
    ∃ S', seq_qsort fuel rnd (A ++ (S ++ C)) A.length (A.length + S.length)
        = some (A ++ (S' ++ C)) ∧ S'.Perm S ∧ S'.Sorted (· ≤ ·) := by
  intro fuel
  induction fuel with
  | zero => intro _ _ _ _ h; omega
  | succ fuel ih =>
    intro rnd A S C hf
    unfold seq_qsort
    rw [Nat.add_sub_cancel_left]
    by_cases h1 : S.length ≤ 1
    · rw [if_pos h1]
      exact ⟨S, rfl, List.Perm.refl _, sorted_of_length_le_one S h1⟩
    · rw [if_neg h1]
      have hx := pivot_mem (rnd []) A S C (by omega)
      generalize qsort_partition_number (rnd []) (A ++ (S ++ C)) A.length
        (A.length + S.length) = x at hx
      obtain ⟨G, hG, hp1⟩ := partition_loop_segment (fun v => decide (v < x)) A S C
      have hlen1 := filter_length_add (fun v => decide (v < x)) S
      have hGl : G.length = (S.filter (fun v => !decide (v < x))).length := hG.length_eq
      obtain ⟨H, hH, hp2⟩ := partition_loop_segment (fun v => decide (v = x))
        (A ++ S.filter (fun v => decide (v < x))) G C
      have hlen2 := filter_length_add (fun v => decide (v = x)) G
      have hHl : H.length = (G.filter (fun v => !decide (v = x))).length := hH.length_eq
      have hr : A.length + S.length
          = (A ++ S.filter (fun v => decide (v < x))).length + G.length := by
        rw [List.length_append]; omega
      have hxG : x ∈ G := by
        rw [hG.mem_iff, List.mem_filter]
        exact ⟨hx, by simp⟩
      have hHlt : (G.filter (fun v => !decide (v = x))).length < G.length := by
        rw [List.length_filter_lt_length_iff_exists]
        exact ⟨x, hxG, by simp⟩
      have hLlt : (S.filter (fun v => decide (v < x))).length < S.length := by
        rw [List.length_filter_lt_length_iff_exists]
        exact ⟨x, hx, by simp⟩
      simp only
      rw [hp1]
      simp only
      have hp2' : partition_loop (fun v => decide (v = x))
          (A.length + (S.filter (fun v => decide (v < x))).length) (A.length + S.length)
          (A ++ (S.filter (fun v => decide (v < x)) ++ (G ++ C)))
          (A.length + (S.filter (fun v => decide (v < x))).length)
          = (A ++ (S.filter (fun v => decide (v < x))
              ++ (G.filter (fun v => decide (v = x)) ++ (H ++ C))),
            A.length + (S.filter (fun v => decide (v < x))).length
              + (G.filter (fun v => decide (v = x))).length) := by
        rw [hr]
        simp only [List.length_append, List.append_assoc] at hp2 ⊢
        exact hp2
      rw [hp2']
      simp only
      obtain ⟨L', hL1, hL2, hL3⟩ := ih (fun p => rnd (false :: p)) A
        (S.filter (fun v => decide (v < x)))
        (G.filter (fun v => decide (v = x)) ++ (H ++ C)) (by omega)
      rw [hL1]
      simp only
      obtain ⟨H', hH1, hH2, hH3⟩ := ih (fun p => rnd (true :: p))
        (A ++ (L' ++ G.filter (fun v => decide (v = x)))) H C (by omega)
      have hL'l : L'.length = (S.filter (fun v => decide (v < x))).length := hL2.length_eq
      have e1 : A ++ (L' ++ (G.filter (fun v => decide (v = x)) ++ (H ++ C)))
          = (A ++ (L' ++ G.filter (fun v => decide (v = x)))) ++ (H ++ C) := by
        simp only [List.append_assoc]
      have e2 : A.length + (S.filter (fun v => decide (v < x))).length
            + (G.filter (fun v => decide (v = x))).length
          = (A ++ (L' ++ G.filter (fun v => decide (v = x)))).length := by
        simp only [List.length_append]; omega
      have e3 : A.length + S.length
          = (A ++ (L' ++ G.filter (fun v => decide (v = x)))).length + H.length := by
        simp only [List.length_append]; omega
      rw [e1, e2, e3, hH1]
      refine ⟨L' ++ (G.filter (fun v => decide (v = x)) ++ H'), ?_, ?_, ?_⟩
      · simp only [List.append_assoc]
      · have p1 : (G.filter (fun v => decide (v = x)) ++ H').Perm G :=
          (List.Perm.append_left _ (hH2.trans hH)).trans (List.filter_append_perm _ G)
        have p2 : (L' ++ (G.filter (fun v => decide (v = x)) ++ H')).Perm
            (S.filter (fun v => decide (v < x)) ++ S.filter (fun v => !decide (v < x))) :=
          List.Perm.append hL2 (p1.trans hG)
        exact p2.trans (List.filter_append_perm _ S)
      · apply sorted_three x _ _ _ hL3 hH3
        · intro v hv
          have := (List.mem_filter.1 (hL2.mem_iff.1 hv)).2
          simpa using this
        · intro v hv
          have := (List.mem_filter.1 hv).2
          simpa using this
        · intro v hv
          have hvH := (hH2.trans hH).mem_iff.1 hv
          obtain ⟨hvG, hne⟩ := List.mem_filter.1 hvH
          have hge := (List.mem_filter.1 (hG.mem_iff.1 hvG)).2
          simp only [Bool.not_eq_true', decide_eq_false_iff_not, not_lt] at hge hne
          omega

theorem copy_back_upto (X : List Int) (A R : List Int) (h : X.length ≤ R.length) :
    ∀ k, k ≤ X.length →
      parallel_for 0 k (fun i b => b.set (A.length + i) (X.getD i 0)) (A ++ R)
        = A ++ (X.take k ++ R.drop k) := by
  intro k
  induction k with
  | zero => intro _; simp [parallel_for]
  | succ k ih =>
    intro hk
    rw [parallel_for_zero_succ, ih (by omega)]
    have hd : R.drop k = R.getD k 0 :: R.drop (k + 1) := by
      rw [List.getD_eq_getElem _ _ (by omega : k < R.length)]
      exact (List.getElem_cons_drop R k (by omega)).symm
    have ht : X.take (k + 1) = X.take k ++ [X.getD k 0] := by
      rw [List.take_succ, List.getD_eq_getElem?_getD, List.getElem?_eq_getElem (by omega)]
      rfl
    have hl : (X.take k).length = k := by
      rw [List.length_take]; omega
    rw [hd, ht, List.set_append_right _ _ (by omega), Nat.add_sub_cancel_left,
      List.set_append_right _ _ (by omega), hl, Nat.sub_self, List.set_cons_zero]
    simp

theorem copy_back (X : List Int) (A R : List Int) (h : X.length ≤ R.length) :
    parallel_for 0 X.length (fun i b => b.set (A.length + i) (X.getD i 0)) (A ++ R)
      = A ++ (X ++ R.drop X.length) := by
  rw [copy_back_upto X A R h X.length (Nat.le_refl _), List.take_length]

theorem filter_three_perm (x : Int) (S : List Int) :
    (S.filter (fun v => decide (v < x))
      ++ (S.filter (fun v => decide (v = x)) ++ S.filter (fun v => decide (v > x)))).Perm S := by
  induction S with
  | nil => exact List.Perm.refl _
  | cons a S ih =>
    rcases Int.lt_trichotomy a x with h | h | h
    · have h2 : ¬ a = x := by omega
      have h3 : ¬ a > x := by omega
      simp only [List.filter_cons, h, h2, h3, decide_True, decide_False, if_true,
        Bool.false_eq_true, if_false, List.cons_append]
      exact List.Perm.cons a ih
    · have h1 : ¬ a < x := by omega
      have h3 : ¬ a > x := by omega
      have h2 : decide (a = x) = true := by simpa using h
      simp only [List.filter_cons, h2, h1, h3, decide_False, if_true,
        Bool.false_eq_true, if_false, List.cons_append]
      exact List.perm_middle.trans (List.Perm.cons a ih)
    · have h1 : ¬ a < x := by omega
      have h2 : ¬ a = x := by omega
      simp only [List.filter_cons, h, h1, h2, decide_True, decide_False, if_true,
        Bool.false_eq_true, if_false]
      rw [← List.append_assoc]
      exact List.perm_middle.trans (List.Perm.cons a (by rw [List.append_assoc]; exact ih))

theorem filter_three_length (x : Int) (S : List Int) :
    (filter S (fun v => decide (v < x))).length + (filter S (fun v => decide (v = x))).length
      + (filter S (fun v => decide (v > x))).length = S.length := by
  have := (filter_three_perm x S).length_eq
  simp only [List.length_append] at this
  simp only [filter]
  omega

theorem slice_append (A S C : List Int) :
    ((A ++ (S ++ C)).drop A.length).take (A.length + S.length - A.length) = S := by
  rw [Nat.add_sub_cancel_left, List.drop_left, List.take_left]

theorem par_qsort_spec (block : Nat) : ∀ (fuel : Nat) (rnd : List Bool → Nat)
    (A S C : List Int), S.length < fuel →
    ∃ S', par_qsort fuel rnd (A ++ (S ++ C)) A.length (A.length + S.length) block
        = some (A ++ (S' ++ C)) ∧ S'.Perm S ∧ S'.Sorted (· ≤ ·) := by
  intro fuel
  induction fuel with
  | zero => intro _ _ _ _ h; omega
  | succ fuel ih =>
    intro rnd A S C hf
    unfold par_qsort
    by_cases h1 : A.length + S.length - A.length ≤ block
    · rw [if_pos h1]
      exact seq_qsort_spec (fuel + 1) rnd A S C hf
    · rw [if_neg h1]
      rw [Nat.add_sub_cancel_left] at h1
      have hx := pivot_mem (rnd []) A S C (by omega)
      generalize qsort_partition_number (rnd []) (A ++ (S ++ C)) A.length
        (A.length + S.length) = x at hx
      simp only [slice_append, filter]
      have hLlt : (S.filter (fun v => decide (v < x))).length < S.length := by
        rw [List.length_filter_lt_length_iff_exists]
        exact ⟨x, hx, by simp⟩
      have hRlt : (S.filter (fun v => decide (v > x))).length < S.length := by
        rw [List.length_filter_lt_length_iff_exists]
        exact ⟨x, hx, by simp⟩
      obtain ⟨L', hL1, hL2, hL3⟩ := ih (fun p => rnd (false :: p)) []
        (S.filter (fun v => decide (v < x))) [] (by omega)
      obtain ⟨R', hR1, hR2, hR3⟩ := ih (fun p => rnd (true :: p)) []
        (S.filter (fun v => decide (v > x))) [] (by omega)
      simp only [List.nil_append, List.append_nil, List.length_nil, Nat.zero_add] at hL1 hR1
      rw [hL1]
      simp only
      rw [hR1]
      simp only
      have hlen := (filter_three_perm x S).length_eq
      simp only [List.length_append] at hlen
      have hL'l := hL2.length_eq
      have hR'l := hR2.length_eq
      rw [copy_back L' A (S ++ C) (by rw [List.length_append]; omega)]
      have e1 : A ++ (L' ++ (S ++ C).drop L'.length) = (A ++ L') ++ (S ++ C).drop L'.length := by
        rw [List.append_assoc]
      have e2 : A.length + L'.length = (A ++ L').length := by rw [List.length_append]
      rw [e1, e2, copy_back (S.filter (fun v => decide (v = x))) (A ++ L') _ (by
        rw [List.length_drop, List.length_append]; omega)]
      have e3 : (A ++ L') ++ (S.filter (fun v => decide (v = x))
            ++ ((S ++ C).drop L'.length).drop (S.filter (fun v => decide (v = x))).length)
          = (A ++ L' ++ S.filter (fun v => decide (v = x)))
            ++ ((S ++ C).drop L'.length).drop (S.filter (fun v => decide (v = x))).length := by
        simp only [List.append_assoc]
      have e4 : (A ++ L').length + (S.filter (fun v => decide (v = x))).length
          = (A ++ L' ++ S.filter (fun v => decide (v = x))).length := by
        simp only [List.length_append]
      rw [e3, e4, copy_back R' _ _ (by
        rw [List.length_drop, List.length_drop, List.length_append]; omega)]
      have e5 : ((((S ++ C).drop L'.length).drop
          (S.filter (fun v => decide (v = x))).length).drop R'.length) = C := by
        rw [List.drop_drop, List.drop_drop]
        have : L'.length + ((S.filter (fun v => decide (v = x))).length + R'.length)
            = S.length := by omega
        rw [this, List.drop_left]
      rw [e5]
      refine ⟨L' ++ (S.filter (fun v => decide (v = x)) ++ R'), ?_, ?_, ?_⟩
      · simp only [List.append_assoc]
      · exact (List.Perm.append hL2 (List.Perm.append_left _ hR2)).trans (filter_three_perm x S)
      · apply sorted_three x _ _ _ hL3 hR3
        · intro v hv
          have := (List.mem_filter.1 (hL2.mem_iff.1 hv)).2
          simpa using this
        · intro v hv
          have := (List.mem_filter.1 hv).2
          simpa using this
        · intro v hv
          have := (List.mem_filter.1 (hR2.mem_iff.1 hv)).2
          simpa using this

theorem range_segments (a : List Int) (l r : Nat) (hl : l ≤ r) (hr : r ≤ a.length) :
    a = a.take l ++ ((a.drop l).take (r - l) ++ a.drop r) ∧ (a.take l).length = l ∧
      (a.take l).length + ((a.drop l).take (r - l)).length = r := by
  refine ⟨?_, ?_, ?_⟩
  · have h1 : (a.drop l).drop (r - l) = a.drop r := by
      rw [List.drop_drop]
      congr 1
      omega
    rw [← h1, List.take_append_drop, List.take_append_drop]
  · rw [List.length_take]; omega
  · rw [List.length_take, List.length_take, List.length_drop]; omega

theorem is_sorted_of_sorted (S : List Int) (h : S.Sorted (· ≤ ·)) : is_sorted S = true := by
  induction S with
  | nil => rfl
  | cons a S ih =>
    cases S with
    | nil => rfl
    | cons b S =>
      have h1 := List.sorted_cons.1 h
      simp only [is_sorted, Bool.and_eq_true, decide_eq_true_eq]
      exact ⟨h1.1 b (List.mem_cons_self _ _), ih h1.2⟩

theorem segment_result (A S S' C b : List Int) (hb : b = A ++ (S' ++ C)) (hp : S'.Perm S)
    (hs : S'.Sorted (· ≤ ·)) :
    b.length = (A ++ (S ++ C)).length ∧ b.take A.length = A ∧
      b.drop (A.length + S.length) = C ∧ ((b.drop A.length).take S.length).Perm S ∧
      ((b.drop A.length).take S.length).Sorted (· ≤ ·) := by
  have hl := hp.length_eq
  have e : (b.drop A.length).take S.length = S' := by
    rw [hb, List.drop_left, ← hl, List.take_left]
  refine ⟨?_, ?_, ?_, ?_, ?_⟩
  · rw [hb]; simp only [List.length_append, hl]
  · rw [hb, List.take_left]
  · rw [hb, ← List.drop_drop, List.drop_left, ← hl, List.drop_left]
  · rw [e]; exact hp
  · rw [e]; exact hs

/-- What a run of `seq_qsort` on the range `[l, r)` of `a` does. -/
theorem seq_qsort_range (a : List Int) (l r : Nat) (hl : l ≤ r) (hr : r ≤ a.length)
    (rnd : List Bool → Nat) (fuel : Nat) (hf : r - l < fuel) :
    ∃ b, seq_qsort fuel rnd a l r = some b ∧ b.length = a.length ∧ b.take l = a.take l ∧
      b.drop r = a.drop r ∧ ((b.drop l).take (r - l)).Perm ((a.drop l).take (r - l)) ∧
      ((b.drop l).take (r - l)).Sorted (· ≤ ·) := by
  obtain ⟨ha, h1, h2⟩ := range_segments a l r hl hr
  have hSl : ((a.drop l).take (r - l)).length = r - l := by omega
  obtain ⟨S', hrun, hperm, hsort⟩ := seq_qsort_spec fuel rnd (a.take l)
    ((a.drop l).take (r - l)) (a.drop r) (by omega)
  have hres := segment_result (a.take l) ((a.drop l).take (r - l)) S' (a.drop r) _ rfl hperm
    hsort
  rw [h2, h1, ← ha] at hrun
  rw [h2, h1, ← ha, hSl] at hres
  exact ⟨_, hrun, hres⟩

/-- What a run of `par_qsort` on the range `[l, r)` of `a` does. -/
theorem par_qsort_range (a : List Int) (l r : Nat) (hl : l ≤ r) (hr : r ≤ a.length)
    (rnd : List Bool → Nat) (block fuel : Nat) (hf : r - l < fuel) :
    ∃ b, par_qsort fuel rnd a l r block = some b ∧ b.length = a.length ∧
      b.take l = a.take l ∧ b.drop r = a.drop r ∧
      ((b.drop l).take (r - l)).Perm ((a.drop l).take (r - l)) ∧
      ((b.drop l).take (r - l)).Sorted (· ≤ ·) := by
  obtain ⟨ha, h1, h2⟩ := range_segments a l r hl hr
  have hSl : ((a.drop l).take (r - l)).length = r - l := by omega
  obtain ⟨S', hrun, hperm, hsort⟩ := par_qsort_spec block fuel rnd (a.take l)
    ((a.drop l).take (r - l)) (a.drop r) (by omega)
  have hres := segment_result (a.take l) ((a.drop l).take (r - l)) S' (a.drop r) _ rfl hperm
    hsort
  rw [h2, h1, ← ha] at hrun
  rw [h2, h1, ← ha, hSl] at hres
  exact ⟨_, hrun, hres⟩

theorem par_qsort_small (a : List Int) (l r : Nat) (rnd : List Bool → Nat) (block fuel : Nat)
    (h : r - l ≤ block) : par_qsort fuel rnd a l r block = seq_qsort fuel rnd a l r := by
  cases fuel with
  | zero => rfl
  | succ fuel => rw [par_qsort, if_pos h]

/-- C15: for every sequence of ints, every range `[l, r)` of it, every block size
(including `0`) and every choice of pivots, `par_qsort` returns and leaves the range in
non-decreasing order, so that `parlay::is_sorted` holds of it; `par_qsort` is `seq_qsort`
on ranges of length at most `block`, and `seq_qsort` also returns and leaves the range in
non-decreasing order. -/
theorem qsort_sorted (a : List Int) (l r : Nat) (hl : l ≤ r) (hr : r ≤ a.length)
    (rnd : List Bool → Nat) (block fuel : Nat) (hf : r - l < fuel) :
    (∃ b, par_qsort fuel rnd a l r block = some b ∧
      ((b.drop l).take (r - l)).Sorted (· ≤ ·) ∧ is_sorted ((b.drop l).take (r - l)) = true) ∧
    (∃ b, seq_qsort fuel rnd a l r = some b ∧
      ((b.drop l).take (r - l)).Sorted (· ≤ ·) ∧ is_sorted ((b.drop l).take (r - l)) = true) ∧
    (r - l ≤ block → par_qsort fuel rnd a l r block = seq_qsort fuel rnd a l r) := by
  obtain ⟨b, h1, _, _, _, _, h2⟩ := par_qsort_range a l r hl hr rnd block fuel hf
  obtain ⟨c, h3, _, _, _, _, h4⟩ := seq_qsort_range a l r hl hr rnd fuel hf
  exact ⟨⟨b, h1, h2, is_sorted_of_sorted _ h2⟩, ⟨c, h3, h4, is_sorted_of_sorted _ h4⟩,
    par_qsort_small a l r rnd block fuel⟩

theorem qsort_sorted_witness :
    1 ≤ 7 ∧ 7 ≤ [4, 9, -2, 7, 7, 0, 5, 3, 1].length ∧ 7 - 1 < 7 ∧
    par_qsort 7 (fun p => p.length + 2) [4, 9, -2, 7, 7, 0, 5, 3, 1] 1 7 2
      = some [4, -2, 0, 5, 7, 7, 9, 3, 1] ∧
    par_qsort 7 (fun p => p.length + 2) [4, 9, -2, 7, 7, 0, 5, 3, 1] 1 7 0
      = some [4, -2, 0, 5, 7, 7, 9, 3, 1] ∧
    (∃ b, par_qsort 7 (fun p => p.length + 2) [4, 9, -2, 7, 7, 0, 5, 3, 1] 1 7 2 = some b ∧
      is_sorted ((b.drop 1).take (7 - 1)) = true) ∧
    (∃ b, seq_qsort 7 (fun p => p.length + 2) [4, 9, -2, 7, 7, 0, 5, 3, 1] 1 7 = some b ∧
      is_sorted ((b.drop 1).take (7 - 1)) = true) := by
  have h := qsort_sorted [4, 9, -2, 7, 7, 0, 5, 3, 1] 1 7 (by decide) (by decide)
    (fun p => p.length + 2) 2 7 (by decide)
  obtain ⟨⟨b, h1, _, h2⟩, ⟨c, h3, _, h4⟩, _⟩ := h
  exact ⟨by decide, by decide, by decide, by decide, by decide, ⟨b, h1, h2⟩, ⟨c, h3, h4⟩⟩

/-- C19: for every sequence of ints, every range `[l, r)` of it, every block size and
every choice of pivots, after `par_qsort` and after `seq_qsort` the range is a
permutation of the range before (every value occurs the same number of times), the
sequence has its length, and the positions before `l` and from `r` on hold what they
held; the three filtered parts of `par_qsort` have total length `r - l`. -/
theorem qsort_permutation (a : List Int) (l r : Nat) (hl : l ≤ r) (hr : r ≤ a.length)
    (rnd : List Bool → Nat) (block fuel : Nat) (hf : r - l < fuel) :
    (∃ b, par_qsort fuel rnd a l r block = some b ∧ b.length = a.length ∧
      b.take l = a.take l ∧ b.drop r = a.drop r ∧
      ((b.drop l).take (r - l)).Perm ((a.drop l).take (r - l)) ∧
      ∀ v : Int, ((b.drop l).take (r - l)).count v = ((a.drop l).take (r - l)).count v) ∧
    (∃ b, seq_qsort fuel rnd a l r = some b ∧ b.length = a.length ∧
      b.take l = a.take l ∧ b.drop r = a.drop r ∧
      ((b.drop l).take (r - l)).Perm ((a.drop l).take (r - l)) ∧
      ∀ v : Int, ((b.drop l).take (r - l)).count v = ((a.drop l).take (r - l)).count v) ∧
    (∀ x : Int,
      (filter ((a.drop l).take (r - l)) (fun v => decide (v < x))).length
        + (filter ((a.drop l).take (r - l)) (fun v => decide (v = x))).length
        + (filter ((a.drop l).take (r - l)) (fun v => decide (v > x))).length = r - l) := by
  obtain ⟨b, h1, h2, h3, h4, h5, _⟩ := par_qsort_range a l r hl hr rnd block fuel hf
  obtain ⟨c, g1, g2, g3, g4, g5, _⟩ := seq_qsort_range a l r hl hr rnd fuel hf
  refine ⟨⟨b, h1, h2, h3, h4, h5, fun v => h5.count_eq v⟩,
    ⟨c, g1, g2, g3, g4, g5, fun v => g5.count_eq v⟩, ?_⟩
  intro x
  rw [filter_three_length, List.length_take, List.length_drop]
  omega

theorem qsort_permutation_witness :
    1 ≤ 6 ∧ 6 ≤ [8, 3, 1, 3, 2, 3, 0].length ∧ 6 - 1 < 6 ∧
    seq_qsort 6 (fun p => 3 * p.length) [8, 3, 1, 3, 2, 3, 0] 1 6 = some [8, 1, 2, 3, 3, 3, 0] ∧
    (∃ b, par_qsort 6 (fun p => 3 * p.length) [8, 3, 1, 3, 2, 3, 0] 1 6 1 = some b ∧
      b.length = 7 ∧ b.take 1 = [8] ∧ b.drop 6 = [0] ∧
      ((b.drop 1).take (6 - 1)).count 3 = 3) := by
  have h := qsort_permutation [8, 3, 1, 3, 2, 3, 0] 1 6 (by decide) (by decide)
    (fun p => 3 * p.length) 1 6 (by decide)
  obtain ⟨⟨b, h1, h2, h3, h4, _, h5⟩, _, _⟩ := h
  exact ⟨by decide, by decide, by decide, by decide, ⟨b, h1, h2, h3, h4, h5 3⟩⟩

/-! ## The benchmark grid within the capacities -/

theorem push_fold_getD_length (ops : List (Nat × Nat)) : ∀ (g : graph_t) (k : Nat),
    (∀ op ∈ ops, op.1 < g.length) →
    ((ops.foldl (fun g op => push_back_at g op.1 op.2) g).getD k []).length
      = (g.getD k []).length + ops.countP (fun op => op.1 == k) := by
  induction ops with
  | nil => intro g k _; simp
  | cons op ops ih =>
    intro g k h
    have h1 : op.1 < g.length := h op (List.mem_cons_self _ _)
    rw [List.foldl_cons, ih _ k (by
      intro op' hop'
      rw [push_back_at_length]
      exact h op' (List.mem_cons_of_mem _ hop'))]
    have e : ((push_back_at g op.1 op.2).getD k []).length
        = (g.getD k []).length + if op.1 = k then 1 else 0 := by
      simp only [push_back_at, List.getD_eq_getElem?_getD, List.getElem?_set]
      by_cases hk : op.1 = k
      · subst hk
        simp [h1]
      · simp [hk]
    rw [e, List.countP_cons]
    by_cases hk : op.1 = k
    · simp [hk]; omega
    · simp [hk]

theorem sum_map_zero (l : List Nat) (f : Nat → Nat) (h : ∀ b ∈ l, f b = 0) :
    (l.map f).sum = 0 := by
  induction l with
  | nil => rfl
  | cons a l ih =>
    rw [List.map_cons, List.sum_cons, h a (List.mem_cons_self _ _),
      ih (fun b hb => h b (List.mem_cons_of_mem _ hb))]

theorem sum_map_single (l : List Nat) (f : Nat → Nat) (a c : Nat) (hnd : l.Nodup)
    (h1 : ∀ b ∈ l, b ≠ a → f b = 0) (h2 : f a ≤ c) : (l.map f).sum ≤ c := by
  induction l with
  | nil => simp
  | cons b l ih =>
    rw [List.map_cons, List.sum_cons]
    obtain ⟨hb, hl⟩ := List.nodup_cons.1 hnd
    by_cases hba : b = a
    · subst hba
      rw [sum_map_zero l f (fun x hx => h1 x (List.mem_cons_of_mem _ hx)
        (fun hc => hb (hc ▸ hx)))]
      omega
    · rw [h1 b (List.mem_cons_self _ _) hba, Nat.zero_add]
      exact ih hl (fun x hx => h1 x (List.mem_cons_of_mem _ hx))

theorem point_ops_count (n x y z k : Nat) :
    (point_ops n x y z).countP (fun op => op.1 == k) ≤ 6 ∧
    (from_coordinates n x y z ≠ k → (point_ops n x y z).countP (fun op => op.1 == k) = 0) := by
  constructor
  · refine (List.countP_le_length _).trans ?_
    rw [point_ops, List.length_map]
    exact (List.length_filter_le _ _).trans (by decide)
  · intro h
    rw [List.countP_eq_zero]
    intro op hop
    simp only [point_ops, List.mem_map] at hop
    obtain ⟨t, _, rfl⟩ := hop
    simpa using h

/-- Every adjacency list of the grid graph has at most six entries. -/
theorem cube_graph_degree_le (n : Nat) (hn : (n + 1) ^ 3 < 2 ^ 32) (k : Nat) :
    ((cube_graph n).getD k []).length ≤ 6 := by
  have hs := (cube_size_facts n hn).1
  rw [cube_graph_eq_fold, push_fold_getD_length]
  · have h0 : ∀ (m : Nat), ((List.replicate m ([] : List Nat)).getD k []).length = 0 := by
      intro m
      rw [List.getD_eq_getElem?_getD, List.getElem?_replicate]
      by_cases h : k < m <;> simp [h]
    rw [h0, Nat.zero_add]
    simp only [cube_ops, List.countP_flatMap, Function.comp_def]
    by_cases hex : ∃ x0 y0 z0, x0 ≤ n ∧ y0 ≤ n ∧ z0 ≤ n ∧ from_coordinates n x0 y0 z0 = k
    · obtain ⟨x0, y0, z0, hx0, hy0, hz0, hk⟩ := hex
      have hne : ∀ x y z, x ≤ n → y ≤ n → z ≤ n → (x ≠ x0 ∨ y ≠ y0 ∨ z ≠ z0) →
          (point_ops n x y z).countP (fun op => op.1 == k) = 0 := by
        intro x y z hx hy hz hd
        apply (point_ops_count n x y z k).2
        intro hc
        rw [← hk] at hc
        obtain ⟨e1, e2, e3⟩ := from_coordinates_inj n x y z x0 y0 z0 hn hx hy hz hx0 hy0 hz0 hc
        omega
      apply sum_map_single _ _ x0 6 (List.nodup_range _)
      · intro x hx hxx
        rw [List.mem_range] at hx
        apply sum_map_zero
        intro y hy
        rw [List.mem_range] at hy
        apply sum_map_zero
        intro z hz
        rw [List.mem_range] at hz
        exact hne x y z (by omega) (by omega) (by omega) (Or.inl hxx)
      · apply sum_map_single _ _ y0 6 (List.nodup_range _)
        · intro y hy hyy
          rw [List.mem_range] at hy
          apply sum_map_zero
          intro z hz
          rw [List.mem_range] at hz
          exact hne x0 y z hx0 (by omega) (by omega) (Or.inr (Or.inl hyy))
        · apply sum_map_single _ _ z0 6 (List.nodup_range _)
          · intro z hz hzz
            rw [List.mem_range] at hz
            exact hne x0 y0 z hx0 hy0 (by omega) (Or.inr (Or.inr hzz))
          · exact (point_ops_count n x0 y0 z0 k).1
    · have hz : ∀ x y z, x ≤ n → y ≤ n → z ≤ n →
          (point_ops n x y z).countP (fun op => op.1 == k) = 0 := by
        intro x y z hx hy hz
        apply (point_ops_count n x y z k).2
        intro hc
        exact hex ⟨x, y, z, hx, hy, hz, hc⟩
      rw [sum_map_zero]
      · omega
      · intro x hx
        rw [List.mem_range] at hx
        apply sum_map_zero
        intro y hy
        rw [List.mem_range] at hy
        apply sum_map_zero
        intro z hz'
        rw [List.mem_range] at hz'
        exact hz x y z (by omega) (by omega) (by omega)
  · intro op hop
    obtain ⟨a, b⟩ := op
    obtain ⟨x, y, z, t, hx, hy, hz, _, _, h1, _⟩ := (mem_cube_ops n a b).1 hop
    rw [List.length_replicate, Nat.mod_eq_of_lt (by omega)]
    simp only
    rw [h1]
    exact from_coordinates_lt n x y z hn hx hy hz

theorem par_bfs_at_indep (graph : graph_t) (start : Nat) (d0 d1 : List Nat) :
    ∀ D, (par_bfs_at graph start d0 D).visited = (par_bfs_at graph start d1 D).visited ∧
      (par_bfs_at graph start d0 D).frontier = (par_bfs_at graph start d1 D).frontier := by
  intro D
  induction D with
  | zero => exact ⟨rfl, rfl⟩
  | succ D ih =>
    obtain ⟨h1, h2⟩ := ih
    simp only [par_bfs_at]
    rw [par_bfs_level_eq, par_bfs_level_eq]
    simp only
    rw [h1, h2]
    exact ⟨rfl, rfl⟩

theorem frontier_subset_plane (n : Nat) (hn : (n + 1) ^ 3 < 2 ^ 32) (d0 : List Nat) (D : Nat) :
    ∀ v ∈ (par_bfs_at (cube_graph n) (from_coordinates n 0 0 0) d0 D).frontier,
      v ∈ plane_nodes n D := by
  intro v hv
  have hs : from_coordinates n 0 0 0 < (cube_graph n).length := by
    rw [cube_graph_length n hn]
    exact from_coordinates_lt n 0 0 0 hn (by omega) (by omega) (by omega)
  rw [(par_bfs_at_indep (cube_graph n) (from_coordinates n 0 0 0) d0
    (List.replicate (cube_graph n).length 0) D).2] at hv
  have hinv := levelInv_at (cube_graph n) (from_coordinates n 0 0 0)
    (List.replicate (cube_graph n).length 0) (cube_graph_in_range n hn)
    (cube_graph_no_sentinel n hn) hs (List.length_replicate _ _) D
  have hdist := (hinv.front_iff v).1 hv
  obtain ⟨x, y, z, hx, hy, hz, hvx, hle⟩ := cube_walk_sum n hn v D hdist.1
  have hge : D ≤ x + y + z := by
    have := hdist.2 (x + y + z)
    rw [hvx] at this
    exact this (cube_walk_to n hn x y z hx hy hz)
  simp only [plane_nodes, List.mem_flatMap, List.mem_range, List.mem_map, List.mem_filter,
    decide_eq_true_eq]
  refine ⟨x, by omega, y, ⟨by omega, by omega, by omega⟩, ?_⟩
  rw [hvx, show D - x - y = z by omega]

theorem frontier_length_le_plane (n : Nat) (hn : (n + 1) ^ 3 < 2 ^ 32) (d0 : List Nat)
    (D : Nat) :
    (par_bfs_at (cube_graph n) (from_coordinates n 0 0 0) d0 D).frontier.length
      ≤ (plane_nodes n D).length := by
  have hs : from_coordinates n 0 0 0 < (cube_graph n).length := by
    rw [cube_graph_length n hn]
    exact from_coordinates_lt n 0 0 0 hn (by omega) (by omega) (by omega)
  have hnd := (histInv_at (cube_graph n) (from_coordinates n 0 0 0) d0 hs D).front_nodup
  exact (hnd.subperm (frontier_subset_plane n hn d0 D)).length_le

theorem plane_row_le (n D x : Nat) :
    ((List.range (n + 1)).filter (fun y => decide (x + y ≤ D ∧ D ≤ x + y + n))).length
        ≤ D + 1 - x ∧
    ((List.range (n + 1)).filter (fun y => decide (x + y ≤ D ∧ D ≤ x + y + n))).length
        ≤ 2 * n + 1 + x - D := by
  have hnd : ((List.range (n + 1)).filter
      (fun y => decide (x + y ≤ D ∧ D ≤ x + y + n))).Nodup :=
    (List.nodup_range _).filter _
  constructor
  · have hsub : (List.range (n + 1)).filter (fun y => decide (x + y ≤ D ∧ D ≤ x + y + n))
        ⊆ List.range (D + 1 - x) := by
      intro y hy
      simp only [List.mem_filter, List.mem_range, decide_eq_true_eq] at hy ⊢
      omega
    have := (hnd.subperm hsub).length_le
    rw [List.length_range] at this
    exact this
  · have hsub : (List.range (n + 1)).filter (fun y => decide (x + y ≤ D ∧ D ≤ x + y + n))
        ⊆ List.range' (D - x - n) (2 * n + 1 + x - D) := by
      intro y hy
      simp only [List.mem_filter, List.mem_range, decide_eq_true_eq, List.mem_range'_1] at hy ⊢
      omega
    have := (hnd.subperm hsub).length_le
    rw [List.length_range'] at this
    exact this

theorem sum_range_flip (f : Nat → Nat) (m : Nat) :
    ((List.range (m + 1)).map (fun x => f (m - x))).sum = ((List.range (m + 1)).map f).sum := by
  have h := List.reverse_range' 0 (m + 1)
  rw [← List.range_eq_range'] at h
  have e : (fun x => 0 + (m + 1) - 1 - x) = (fun x => m - x) := by
    funext x
    omega
  rw [e] at h
  have h2 : (List.range (m + 1)).map (fun x => f (m - x))
      = ((List.range (m + 1)).map f).reverse := by
    rw [← List.map_reverse, h, List.map_map]
    rfl
  rw [h2, List.sum_reverse]

set_option maxRecDepth 100000 in
theorem plane_weights_sum :
    ((List.range 501).map (fun x => if x ≤ 250 then 502 + 2 * x else 1502 - 2 * x)).sum
      = 376502 := by
  decide

/-- Every level of the benchmark grid has at most `188251` nodes. -/
theorem plane_nodes_length_le (D : Nat) : (plane_nodes 500 D).length ≤ 188251 := by
  rw [plane_nodes, List.length_flatMap]
  simp only [Function.comp_def, List.length_map]
  generalize hc : (fun x => ((List.range (500 + 1)).filter
    (fun y => decide (x + y ≤ D ∧ D ≤ x + y + 500))).length) = c
  have hrow : ∀ x, c x ≤ D + 1 - x ∧ c x ≤ 2 * 500 + 1 + x - D := by
    intro x
    rw [← hc]
    exact plane_row_le 500 D x
  have hflip := sum_range_flip c 500
  have hpair : ((List.range (500 + 1)).map (fun x => c x + c (500 - x))).sum
      ≤ ((List.range (500 + 1)).map
          (fun x => if x ≤ 250 then 502 + 2 * x else 1502 - 2 * x)).sum := by
    apply List.sum_le_sum
    intro x hx
    rw [List.mem_range] at hx
    obtain ⟨a1, a2⟩ := hrow x
    obtain ⟨b1, b2⟩ := hrow (500 - x)
    by_cases h : x ≤ 250
    · rw [if_pos h]; omega
    · rw [if_neg h]; omega
  rw [List.sum_map_add, hflip, plane_weights_sum] at hpair
  omega

theorem cube_500_size : (500 + 1) ^ 3 < 2 ^ 32 := by norm_num

theorem cube_500_fits (d0 : List Nat) (D : Nat) :
    fits (cube_graph 500)
      (par_bfs_at (cube_graph 500) (from_coordinates 500 0 0 0) d0 D).frontier := by
  have h1 := frontier_length_le_plane 500 cube_500_size d0 D
  have h2 := plane_nodes_length_le D
  have h3 := List.sum_le_card_nsmul
    ((par_bfs_at (cube_graph 500) (from_coordinates 500 0 0 0) d0 D).frontier.map
      (fun v => ((cube_graph 500).getD v []).length)) 6 (by
      intro k hk
      obtain ⟨v, _, rfl⟩ := List.mem_map.1 hk
      exact cube_graph_degree_le 500 cube_500_size v)
  rw [List.length_map, smul_eq_mul] at h3
  unfold fits MAX_FRONTIER MAX_TMP_FRONTIER
  constructor
  · omega
  · omega

/-- C20: for the benchmark input `cube_graph(500)` with source
`from_coordinates(500,0,0,0)`, `graph.size() = 501^3 <= MAX_N`, every level's frontier
has at most `MAX_FRONTIER` nodes and every level's sum of out-degrees is at most
`MAX_TMP_FRONTIER`; hence `par_bfs_less_allocations`, called with clean static buffers,
keeps `frontier_size` and `tmp_frontier_size` within the capacities of its buffers at
every level, and returns. -/
theorem cube_500_within_capacity (d0 : List Nat) (b : static_buffers) (hb : CleanBuffers b) :
    (cube_graph 500).length = 501 ^ 3 ∧ (cube_graph 500).length ≤ MAX_N ∧
    (∀ D,
      (par_bfs_at (cube_graph 500) (from_coordinates 500 0 0 0) d0 D).frontier.length
        ≤ MAX_FRONTIER ∧
      ((par_bfs_at (cube_graph 500) (from_coordinates 500 0 0 0) d0 D).frontier.map
        (fun v => ((cube_graph 500).getD v []).length)).sum ≤ MAX_TMP_FRONTIER) ∧
    (∀ D,
      (la_at (cube_graph 500) (from_coordinates 500 0 0 0) d0 b D).frontier.take
          (la_at (cube_graph 500) (from_coordinates 500 0 0 0) d0 b D).frontier_size
        = (par_bfs_at (cube_graph 500) (from_coordinates 500 0 0 0) d0 D).frontier ∧
      (la_at (cube_graph 500) (from_coordinates 500 0 0 0) d0 b (D + 1)).tmp_frontier_size
        = ((par_bfs_at (cube_graph 500) (from_coordinates 500 0 0 0) d0 D).frontier.map
            (fun v => ((cube_graph 500).getD v []).length)).sum ∧
      (la_at (cube_graph 500) (from_coordinates 500 0 0 0) d0 b D).frontier_size
        ≤ MAX_FRONTIER ∧
      (la_at (cube_graph 500) (from_coordinates 500 0 0 0) d0 b D).tmp_frontier_size
        ≤ MAX_TMP_FRONTIER ∧
      (la_at (cube_graph 500) (from_coordinates 500 0 0 0) d0 b D).frontier.length
        = MAX_FRONTIER ∧
      (la_at (cube_graph 500) (from_coordinates 500 0 0 0) d0 b D).tmp_frontier.length
        = MAX_TMP_FRONTIER ∧
      (la_at (cube_graph 500) (from_coordinates 500 0 0 0) d0 b D).pref_flags.length
        = MAX_TMP_FRONTIER ∧
      (la_at (cube_graph 500) (from_coordinates 500 0 0 0) d0 b D).pref_deg.length = MAX_N ∧
      (la_at (cube_graph 500) (from_coordinates 500 0 0 0) d0 b D).visited.length = MAX_N) ∧
    (∀ fuel, 501 ^ 3 < fuel →
      ∃ r, par_bfs_less_allocations fuel (cube_graph 500) (from_coordinates 500 0 0 0) d0 b
        = some r) := by
  have hn := cube_500_size
  have hlen : (cube_graph 500).length = 501 ^ 3 := by
    rw [cube_graph_length 500 hn]
    norm_num
  have hN : (cube_graph 500).length ≤ MAX_N := by
    rw [hlen]
    unfold MAX_N
    norm_num
  have hin := cube_graph_in_range 500 hn
  have hs : from_coordinates 500 0 0 0 < (cube_graph 500).length := by
    rw [cube_graph_length 500 hn]
    exact from_coordinates_lt 500 0 0 0 hn (by omega) (by omega) (by omega)
  have hcap : ∀ D, D ≤ (cube_graph 500).length →
      fits (cube_graph 500)
        (par_bfs_at (cube_graph 500) (from_coordinates 500 0 0 0) d0 D).frontier :=
    fun D _ => cube_500_fits d0 D
  have hsim := laSim_at (cube_graph 500) (from_coordinates 500 0 0 0) d0 b hb hin hs hN hcap
  refine ⟨hlen, hN, fun D => cube_500_fits d0 D, ?_, ?_⟩
  · intro D
    have h := hsim D
    refine ⟨h.front, ?_, ?_, ?_, h.frontier_len, h.tmp_len, ?_, h.pref_deg_len, h.visited_len⟩
    · rw [la_at_tmp_size _ _ _ _ hb hin hs hN hcap D, edges_length]
    · rw [← h.frontier_len]; exact h.ready.fs_le
    · rw [← h.tmp_len]; exact h.ready.ts_le
    · rw [h.ready.fl_len, h.tmp_len]
  · intro fuel hf
    obtain ⟨D, hrun, _⟩ := la_run_at (cube_graph 500) (from_coordinates 500 0 0 0) d0 b hb hin hs
      hN hcap fuel (by rw [hlen]; exact hf)
    refine ⟨((la_at (cube_graph 500) (from_coordinates 500 0 0 0) d0 b D).dist,
      la_buffers (la_at (cube_graph 500) (from_coordinates 500 0 0 0) d0 b D)), ?_⟩
    simp only [par_bfs_less_allocations, hrun, Option.map_some']

theorem cube_500_within_capacity_witness :
    CleanBuffers static_init ∧ (cube_graph 500).length = 501 ^ 3 ∧
    (cube_graph 500).length ≤ MAX_N ∧
    (par_bfs_at (cube_graph 500) (from_coordinates 500 0 0 0) [] 750).frontier.length
      ≤ MAX_FRONTIER ∧
    (la_at (cube_graph 500) (from_coordinates 500 0 0 0) [] static_init 751).tmp_frontier_size
      ≤ MAX_TMP_FRONTIER := by
  have h := cube_500_within_capacity [] static_init static_init_clean
  exact ⟨static_init_clean, h.1, h.2.1, (h.2.2.1 750).1, (h.2.2.2.1 751).2.2.2.1⟩

/-! ## Racing calls of `compare_exchange_strong` -/

theorem cas_run_length (sched : List Nat) : ∀ (flags : List Bool),
    (cas_run flags sched).1.length = sched.length := by
  induction sched with
  | nil => intro flags; rfl
  | cons c rest ih => intro flags; simp [cas_run, ih]

theorem cas_run_not_fresh (u : Nat) (sched : List Nat) : ∀ (flags : List Bool),
    ¬ flags[u]? = some false →
    (sched.zip (cas_run flags sched).1).countP (fun p => p.1 == u && p.2) = 0 ∧
    (sched.zip (cas_run flags sched).1).countP (fun p => p.1 == u && !p.2) = sched.count u ∧
    ¬ (cas_run flags sched).2[u]? = some false := by
  induction sched with
  | nil => intro flags h; exact ⟨rfl, rfl, h⟩
  | cons c rest ih =>
    intro flags h
    by_cases hc : c = u
    · subst hc
      rw [cas_run, cas_not_fresh flags c h]
      obtain ⟨a1, a2, a3⟩ := ih flags h
      simp only [List.zip_cons_cons, List.countP_cons, a1, a2, List.count_cons]
      simp [a3]
    · have hcu : (c == u) = false := by simpa using hc
      by_cases hf : flags[c]? = some false
      · have h' : ¬ (flags.set c true)[u]? = some false := by
          rw [List.getElem?_set_ne hc]; exact h
        obtain ⟨a1, a2, a3⟩ := ih (flags.set c true) h'
        rw [cas_run, cas_fresh flags c hf]
        simp only [List.zip_cons_cons, List.countP_cons, a1, a2, List.count_cons, hcu]
        simp [a3]
      · obtain ⟨a1, a2, a3⟩ := ih flags h
        rw [cas_run, cas_not_fresh flags c hf]
        simp only [List.zip_cons_cons, List.countP_cons, a1, a2, List.count_cons, hcu]
        simp [a3]

theorem cas_run_fresh (u : Nat) (sched : List Nat) : ∀ (flags : List Bool),
    flags[u]? = some false → u ∈ sched →
    (sched.zip (cas_run flags sched).1).countP (fun p => p.1 == u && p.2) = 1 ∧
    (sched.zip (cas_run flags sched).1).countP (fun p => p.1 == u && !p.2)
      = sched.count u - 1 ∧
    (cas_run flags sched).2[u]? = some true := by
  induction sched with
  | nil => intro flags _ h; simp at h
  | cons c rest ih =>
    intro flags h hmem
    by_cases hc : c = u
    · subst hc
      have hl : c < flags.length := by
        by_contra hcon
        rw [List.getElem?_eq_none (Nat.le_of_not_lt hcon)] at h
        simp at h
      have h' : ¬ (flags.set c true)[c]? = some false := by
        rw [List.getElem?_set_self hl]; simp
      obtain ⟨a1, a2, a3⟩ := cas_run_not_fresh c rest (flags.set c true) h'
      rw [cas_run, cas_fresh flags c h]
      simp only [List.zip_cons_cons, List.countP_cons, a1, a2, List.count_cons]
      refine ⟨by simp, by simp, ?_⟩
      have hlen : ∀ (s : List Nat) (f : List Bool), (cas_run f s).2.length = f.length := by
        intro s
        induction s with
        | nil => intro f; rfl
        | cons x s ihs =>
          intro f
          rw [cas_run]
          simp only
          rw [ihs]
          by_cases hx : f[x]? = some false
          · rw [cas_fresh f x hx]; simp
          · rw [cas_not_fresh f x hx]
      have hl2 : c < (cas_run (flags.set c true) rest).2.length := by
        rw [hlen, List.length_set]; exact hl
      rw [List.getElem?_eq_getElem hl2] at a3 ⊢
      cases hv : (cas_run (flags.set c true) rest).2[c] with
      | true => rfl
      | false => rw [hv] at a3; exact absurd rfl a3
    · have hcu : (c == u) = false := by simpa using hc
      have hrest : u ∈ rest := by
        rcases List.mem_cons.1 hmem with h1 | h1
        · exact absurd h1.symm hc
        · exact h1
      by_cases hf : flags[c]? = some false
      · have h' : (flags.set c true)[u]? = some false := by
          rw [List.getElem?_set_ne hc]; exact h
        obtain ⟨a1, a2, a3⟩ := ih (flags.set c true) h' hrest
        rw [cas_run, cas_fresh flags c hf]
        simp only [List.zip_cons_cons, List.countP_cons, a1, a2, List.count_cons, hcu]
        simp [a3]
      · obtain ⟨a1, a2, a3⟩ := ih flags h hrest
        rw [cas_run, cas_not_fresh flags c hf]
        simp only [List.zip_cons_cons, List.countP_cons, a1, a2, List.count_cons, hcu]
        simp [a3]

/-- C16: when the workers of one level execute
`visited[u].compare_exchange_strong(false, true)` on a node `u` whose flag is `false`,
then under every interleaving, that is for every order `sched` of the atomic calls
`calls` the workers make, exactly one call on `u` returns `true`, all the other calls on
`u` return `false`, and the flag of `u` is set afterwards; accordingly a level of
`par_bfs` whose claim phase takes the frontier slots in any order records exactly one
successful call on `u`. -/
theorem cas_exactly_one_winner (flags : List Bool) (u : Nat) (calls sched : List Nat)
    (hu : flags[u]? = some false) (hmem : u ∈ calls) (hs : sched.Perm calls) :
    (cas_run flags sched).1.length = calls.length ∧
    (sched.zip (cas_run flags sched).1).countP (fun p => p.1 == u && p.2) = 1 ∧
    (sched.zip (cas_run flags sched).1).countP (fun p => p.1 == u && !p.2)
      = calls.count u - 1 ∧
    (cas_run flags sched).2[u]? = some true ∧
    (∀ (graph : graph_t) (order : List Nat) (s : par_state),
      order.Perm (List.range s.frontier.length) → s.visited[u]? = some false →
      (∃ e ∈ edges graph s.frontier, e.2 = u) →
      (par_bfs_level_ord graph order s).cas_wins.count u = s.cas_wins.count u + 1) := by
  obtain ⟨a1, a2, a3⟩ := cas_run_fresh u sched flags hu (hs.mem_iff.2 hmem)
  refine ⟨?_, a1, ?_, a3, ?_⟩
  · rw [cas_run_length, hs.length_eq]
  · rw [a2, hs.count_eq]
  · intro graph order s ho hf he
    obtain ⟨E, hE, _, _, hw, _⟩ := par_bfs_level_ord_spec graph order s ho
    obtain ⟨e, he1, he2⟩ := he
    have hcl : u ∈ claimed s.visited E :=
      (mem_claimed E s.visited u).2 ⟨hf, e, (hE e).2 he1, he2⟩
    rw [hw, List.count_append, List.count_eq_one_of_mem (claimed_nodup E s.visited) hcl]

theorem cas_exactly_one_winner_witness :
    [true, false, false][1]? = some false ∧ 1 ∈ [1, 2, 1, 1] ∧
    [1, 1, 2, 1].Perm [1, 2, 1, 1] ∧
    cas_run [true, false, false] [1, 1, 2, 1]
      = ([true, false, true, false], [true, true, true]) ∧
    cas_run [true, false, false] [1, 2, 1, 1]
      = ([true, true, false, false], [true, true, true]) ∧
    ([1, 1, 2, 1].zip (cas_run [true, false, false] [1, 1, 2, 1]).1).countP
      (fun p => p.1 == 1 && p.2) = 1 ∧
    ([1, 1, 2, 1].zip (cas_run [true, false, false] [1, 1, 2, 1]).1).countP
      (fun p => p.1 == 1 && !p.2) = 2 := by
  have h := cas_exactly_one_winner [true, false, false] 1 [1, 2, 1, 1] [1, 1, 2, 1]
    (by decide) (by decide) (by decide)
  exact ⟨by decide, by decide, by decide, by decide, by decide, h.2.1, h.2.2.1⟩
